import Mathlib

/-!
# Graph storage, traversals and the random graph generator

A shallow embedding of `Graph.cpp` and `RandomGraphGenerator.cpp`.

* C++ `int` vertex ids are `Int`; `std::vector` is `List`, indexed through
  `List.getD` and written through `List.set`.
* `size_t` counters are `Nat`; every counter of the program stays far below `2^64`.
* Loops whose termination is not structural carry a fuel argument.
-/

namespace GraphLab

/-! ## Graph.cpp : storage -/

/-- The class `Graph`: the vertex count `V` and one adjacency list per vertex. -/
structure Graph where
  V : Int
  adjList : List (List Int)
deriving DecidableEq, Repr

/-- The constructor `Graph::Graph(int vertices) : V(vertices), adjList(vertices)`.
For a negative count the C++ vector constructor throws; the embedding is used for
`0 ≤ vertices` only. -/
def Graph.new (vertices : Int) : Graph :=
  { V := vertices, adjList := List.replicate vertices.toNat [] }

/-- The method `Graph::addEdge(int src, int dest)`. -/
def Graph.addEdge (g : Graph) (src dest : Int) : Graph :=
  if src < 0 ∨ dest < 0 ∨ src ≥ g.V ∨ dest ≥ g.V then g
  else
    let vec := g.adjList.getD src.toNat []
    if dest ∈ vec then g
    else { g with adjList := g.adjList.set src.toNat (vec ++ [dest]) }

/-- The method `Graph::vertices()`. -/
def Graph.vertices (g : Graph) : Int := g.V

/-- A sequence of `addEdge` calls, applied left to right. -/
def Graph.addEdges (g : Graph) (calls : List (Int × Int)) : Graph :=
  calls.foldl (fun acc c => acc.addEdge c.1 c.2) g

/-- The Graph invariant of the data model: `V` adjacency lists, every stored
destination in `[0, V)`, no destination twice in one list. -/
def Graph.Inv (g : Graph) : Prop :=
  0 ≤ g.V ∧ g.adjList.length = g.V.toNat ∧
    (∀ l ∈ g.adjList, ∀ d ∈ l, 0 ≤ d ∧ d < g.V) ∧
    (∀ l ∈ g.adjList, l.Nodup)

instance (g : Graph) : Decidable g.Inv := by
  unfold Graph.Inv; infer_instance

/-- The adjacency list of vertex `u` (`adjList[u]`). -/
def Graph.adj (g : Graph) (u : Int) : List Int := g.adjList.getD u.toNat []

/-- The stored edges `(u, v)`, listed vertex by vertex. -/
def Graph.edges (g : Graph) : List (Int × Int) :=
  (List.range g.adjList.length).flatMap
    (fun u => (g.adjList.getD u []).map (fun v => ((u : Int), v)))

/-- The total number of stored edges, summed over all adjacency lists. -/
def Graph.edgeCount (g : Graph) : Nat := (g.adjList.map List.length).sum

/-! ## Graph.cpp : sequential traversal -/

/-- The loop `for (int n : adjList[u])` of `bfs`: every neighbour whose flag is
still clear gets its flag set and is pushed at the back of the queue. -/
def bfsVisit : List Int → List Bool → List Int → List Bool × List Int
  | [], visited, q => (visited, q)
  | n :: ns, visited, q =>
    if visited.getD n.toNat false then bfsVisit ns visited q
    else bfsVisit ns (visited.set n.toNat true) (q ++ [n])

/-- The loop `while (!q.empty())` of `bfs`; one unit of fuel per iteration.
`none` means the fuel ran out before the queue emptied. -/
def bfsLoop (adjList : List (List Int)) : Nat → List Bool → List Int → Option (List Bool)
  | _, visited, [] => some visited
  | 0, _, _ :: _ => none
  | fuel + 1, visited, u :: q =>
    let st := bfsVisit (adjList.getD u.toNat []) visited q
    bfsLoop adjList fuel st.1 st.2

/-- The method `Graph::bfs(int startVertex)`, returning the `visited` flags it
holds on exit. On the early return no flag has been set, which is rendered as the
all-clear vector. -/
def Graph.bfs (g : Graph) (startVertex : Int) (fuel : Nat) : Option (List Bool) :=
  if startVertex < 0 ∨ startVertex ≥ g.V then some (List.replicate g.V.toNat false)
  else
    let visited := (List.replicate g.V.toNat false).set startVertex.toNat true
    bfsLoop g.adjList fuel visited [startVertex]

/-- Directed reachability: `g.Reach s t` when `t` is `s` or some chain of stored
edges leads from `s` to `t`. -/
inductive Graph.Reach (g : Graph) (s : Int) : Int → Prop
  | refl : Graph.Reach g s s
  | step {u v : Int} : Graph.Reach g s u → v ∈ g.adj u → Graph.Reach g s v

/-- The invariant of the queue loop of `bfs`. -/
structure BfsInv (g : Graph) (start : Int) (vis : List Bool) (q : List Int) : Prop where
  len : vis.length = g.V.toNat
  queued : ∀ u ∈ q, 0 ≤ u ∧ u < g.V ∧ vis.getD u.toNat false = true
  sound : ∀ k : Nat, vis.getD k false = true → g.Reach start k
  start_mem : vis.getD start.toNat false = true
  closed : ∀ k : Nat, vis.getD k false = true → (k : Int) ∉ q →
    ∀ v ∈ g.adj k, vis.getD v.toNat false = true

/-! ## Graph.cpp : level-synchronous traversal

The workers of one round are run one after the other (worker `0` first). The
claim of a vertex (`compare_exchange_strong`) and the slot reservation
(`fetch_add`) are atomic in the source, so every schedule claims the same set of
vertices in a round; only the order inside `next_level` depends on the schedule. -/

/-- The shared state the workers of one round write to. -/
structure Frontier where
  visited : List Bool
  next_level : List Int
  next_level_size : Nat
deriving DecidableEq, Repr

/-- The loop `for (int n : adjList[u])` of the worker lambda `job`: a successful
compare-exchange on `visited[n]` reserves slot `next_level_size` and writes `n`
there. -/
def claimNeighbours : List Int → Frontier → Frontier
  | [], s => s
  | n :: ns, s =>
    if s.visited.getD n.toNat false then claimNeighbours ns s
    else claimNeighbours ns
      { visited := s.visited.set n.toNat true
        next_level := s.next_level.set s.next_level_size n
        next_level_size := s.next_level_size + 1 }

/-- The strided loop `for (i = tread_idx; i < level_size; i += THREAD_NUMBER)` of
`job`, entered at index `i`; the fuel bounds the number of iterations. -/
def jobFrom (adjList : List (List Int)) (level : List Int) (level_size threadNumber : Nat) :
    Nat → Nat → Frontier → Frontier
  | 0, _, s => s
  | fuel + 1, i, s =>
    if i < level_size then
      jobFrom adjList level level_size threadNumber fuel (i + threadNumber)
        (claimNeighbours (adjList.getD (level.getD i 0).toNat []) s)
    else s

/-- The worker lambda `job(tread_idx)`. With `THREAD_NUMBER ≥ 1` the loop makes at
most `level_size` iterations. -/
def job (adjList : List (List Int)) (level : List Int) (level_size threadNumber : Nat)
    (tread_idx : Nat) (s : Frontier) : Frontier :=
  jobFrom adjList level level_size threadNumber level_size tread_idx s

/-- One round: `THREAD_NUMBER` workers are started with indices
`0 .. THREAD_NUMBER - 1` and joined. -/
def runRound (adjList : List (List Int)) (level : List Int) (level_size threadNumber : Nat)
    (s : Frontier) : Frontier :=
  (List.range threadNumber).foldl (fun acc t => job adjList level level_size threadNumber t acc) s

/-- The loop `while (level_size != 0)` of `parallelBFS`; one unit of fuel per
round. Returns the `visited` flags on exit. -/
def parallelLoop (adjList : List (List Int)) (threadNumber : Nat) :
    Nat → List Bool → List Int → List Int → Nat → Option (List Bool)
  | fuel, visited, level, next_level, level_size =>
    if level_size = 0 then some visited
    else match fuel with
      | 0 => none
      | fuel + 1 =>
        let s := runRound adjList level level_size threadNumber
          { visited := visited, next_level := next_level, next_level_size := 0 }
        parallelLoop adjList threadNumber fuel s.visited s.next_level level s.next_level_size

/-- The method `Graph::parallelBFS(int startVertex)` with `THREAD_NUMBER` workers,
returning the `visited` flags from which the final report is printed. -/
def Graph.parallelBFS (g : Graph) (threadNumber : Nat) (startVertex : Int) (fuel : Nat) :
    Option (List Bool) :=
  let visited := List.replicate g.V.toNat false
  let level := (List.replicate g.V.toNat (0 : Int)).set 0 startVertex
  let next_level := List.replicate g.V.toNat (0 : Int)
  parallelLoop g.adjList threadNumber fuel visited level next_level 1

/-- The rounds of the loop `while (level_size != 0)` of `parallelBFS`, in order:
for each round the `visited` flags at its start and the shared state after the
join (before the swap). The loop is the one of `parallelLoop`. -/
def parallelRounds (adjList : List (List Int)) (threadNumber : Nat) :
    Nat → List Bool → List Int → List Int → Nat → List (List Bool × Frontier)
  | fuel, visited, level, next_level, level_size =>
    if level_size = 0 then []
    else match fuel with
      | 0 => []
      | fuel + 1 =>
        let s := runRound adjList level level_size threadNumber
          { visited := visited, next_level := next_level, next_level_size := 0 }
        (visited, s) ::
          parallelRounds adjList threadNumber fuel s.visited s.next_level level s.next_level_size

/-- The rounds of `Graph::parallelBFS(startVertex)` with `THREAD_NUMBER` workers. -/
def Graph.parallelRounds (g : Graph) (threadNumber : Nat) (startVertex : Int) (fuel : Nat) :
    List (List Bool × Frontier) :=
  GraphLab.parallelRounds g.adjList threadNumber fuel (List.replicate g.V.toNat false)
    ((List.replicate g.V.toNat (0 : Int)).set 0 startVertex)
    (List.replicate g.V.toNat (0 : Int)) 1

/-- The vertices written into the next frontier in one round: the slots
`next_level[0 .. next_level_size)`. -/
def Frontier.slots (s : Frontier) : List Int := s.next_level.take s.next_level_size

/-- The invariant of the shared state inside one round of `parallelBFS`, relative
to the flags `vis0` the round started with: both buffers have `V` entries, flags
are only ever set, the slot counter equals the number of flags set in this round,
and the written slots hold exactly the vertices claimed in this round, each once. -/
structure RoundInv (V : Nat) (vis0 : List Bool) (s : Frontier) : Prop where
  vis0_len : vis0.length = V
  vlen : s.visited.length = V
  nlen : s.next_level.length = V
  mono : ∀ k, vis0.getD k false = true → s.visited.getD k false = true
  count : s.next_level_size + vis0.count true = s.visited.count true
  slots_nodup : s.slots.Nodup
  slots_new : ∀ n ∈ s.slots,
    0 ≤ n ∧ n.toNat < V ∧ vis0.getD n.toNat false = false ∧ s.visited.getD n.toNat false = true
  new_slots : ∀ k, vis0.getD k false = false → s.visited.getD k false = true →
    (k : Int) ∈ s.slots

/-- The indices the final loop of `parallelBFS` prints as `visited[i] = false`. -/
def unvisitedReport (visited : List Bool) : List Nat :=
  (List.range visited.length).filter (fun i => !visited.getD i false)

/-- The vertices a flag vector marks visited. -/
def visitedSet (visited : List Bool) : List Nat :=
  (List.range visited.length).filter (fun i => visited.getD i false)

/-! ## RandomGraphGenerator.cpp : codec and seed splitter -/

/-- The cast `static_cast<uint32_t>(x)` of an `int`. -/
def toUInt32 (x : Int) : Nat := (x % 4294967296).toNat

/-- The cast `static_cast<int>(x)` of a `uint32_t`. -/
def toInt32 (x : Nat) : Int :=
  if x % 4294967296 < 2147483648 then ((x % 4294967296 : Nat) : Int)
  else ((x % 4294967296 : Nat) : Int) - 4294967296

/-- The function `pack(uint32_t u, uint32_t v)`: `(uint64_t(u) << 32) | uint64_t(v)`. -/
def pack (u v : Nat) : Nat := ((u <<< 32) % 18446744073709551616) ||| v

/-- The function `unpackU(uint64_t key)`: `uint32_t(key >> 32)`. -/
def unpackU (key : Nat) : Nat := (key >>> 32) % 4294967296

/-- The function `unpackV(uint64_t key)`: `uint32_t(key & 0xFFFFFFFF)`. -/
def unpackV (key : Nat) : Nat := (key &&& 0xFFFFFFFF) % 4294967296

/-- The function `splitmix64(uint64_t x)`, all arithmetic modulo `2^64`. -/
def splitmix64 (x : Nat) : Nat :=
  let x1 := (x + 0x9E3779B97F4A7C15) % 18446744073709551616
  let x2 := ((x1 ^^^ (x1 >>> 30)) * 0xBF58476D1CE4E5B9) % 18446744073709551616
  let x3 := ((x2 ^^^ (x2 >>> 27)) * 0x94D049BB133111EB) % 18446744073709551616
  x3 ^^^ (x3 >>> 31)

/-! ## RandomGraphGenerator.cpp : the random engine

`std::mt19937_64` and `std::uniform_int_distribution` belong to the standard
library, not to this repository. They enter the embedding as a parameter: an
engine state type `σ` with the operations the generator uses. -/

/-- The operations of the standard random library used by the generator. -/
structure RandomEngine (σ : Type) where
  /-- The constructor `std::mt19937_64(seed)`. -/
  seed : Nat → σ
  /-- One call `r()`: a 64-bit output and the advanced state. -/
  next : σ → Nat × σ
  /-- One draw from `std::uniform_int_distribution<int>(a, b)`. -/
  uniformInt : Int → Int → σ → Int × σ
  /-- One draw from `std::uniform_int_distribution<size_t>(a, b)`. -/
  uniformSize : Nat → Nat → σ → Nat × σ

/-- The contract of the standard library: `r()` is a 64-bit word and a
distribution built with `a ≤ b` returns a value in `[a, b]`. A distribution built
with `a > b` is outside the contract and its draws are left unconstrained. -/
structure RandomEngine.Lawful {σ : Type} (R : RandomEngine σ) : Prop where
  next_lt : ∀ s, (R.next s).1 < 18446744073709551616
  uniformInt_range : ∀ a b s, a ≤ b → a ≤ (R.uniformInt a b s).1 ∧ (R.uniformInt a b s).1 ≤ b
  uniformSize_range : ∀ a b s, a ≤ b → a ≤ (R.uniformSize a b s).1 ∧ (R.uniformSize a b s).1 ≤ b

/-- A small concrete engine (a counter), used to instantiate the theorems. -/
def counterEngine : RandomEngine Nat where
  seed := fun s => s
  next := fun s => (s % 18446744073709551616, s + 1)
  uniformInt := fun a b s => (a + ((s % ((b - a).toNat + 1) : Nat) : Int), s + 1)
  uniformSize := fun a b s => (a + s % (b - a + 1), s + 1)

/-- A second concrete engine: every draw returns the lower bound of its range. -/
def lowEngine : RandomEngine Unit where
  seed := fun _ => ()
  next := fun s => (0, s)
  uniformInt := fun a _ s => (a, s)
  uniformSize := fun a _ s => (a, s)

/-! ## RandomGraphGenerator.cpp : parallelFill -/

/-- The call `std::swap(xs[i], xs[j])`. -/
def swapAt {α : Type} [Inhabited α] (xs : List α) (i j : Nat) : List α :=
  (xs.set i (xs.getD j default)).set j (xs.getD i default)

/-- The sampling loop `for (i = start; i < end; ++i)` of one worker, with
`n = end - i` iterations left. -/
def fillRange {σ : Type} (R : RandomEngine σ) (size : Int) :
    Nat → Nat → σ → List Nat → List Nat
  | 0, _, _, keys => keys
  | n + 1, i, rnd, keys =>
    let du := R.uniformInt 0 (size - 1) rnd
    let dv := R.uniformInt 0 (size - 2) du.2
    let u := du.1
    let v := if dv.1 ≥ u then dv.1 + 1 else dv.1
    fillRange R size n (i + 1) dv.2 (keys.set i (pack (toUInt32 u) (toUInt32 v)))

/-- The key one iteration of the sampling loop writes when the worker's engine is
in state `rnd`: `pack(u, v)` after the skip-over of `u`. -/
def sampledKey {σ : Type} (R : RandomEngine σ) (size : Int) (rnd : σ) : Nat :=
  let du := R.uniformInt 0 (size - 1) rnd
  let dv := R.uniformInt 0 (size - 2) du.2
  pack (toUInt32 du.1) (toUInt32 (if dv.1 ≥ du.1 then dv.1 + 1 else dv.1))

/-- A key that encodes a pair `(u, v)` of distinct vertices below `n`. -/
def ValidKey (n : Nat) (k : Nat) : Prop :=
  ∃ u v : Nat, u < n ∧ v < n ∧ u ≠ v ∧ k = pack u v

/-- The body of worker `t` of `parallelFill`. -/
def fillWorker {σ : Type} (R : RandomEngine σ) (offset count chunk : Nat) (size : Int)
    (baseSeed : Nat) (t : Nat) (keys : List Nat) : List Nat :=
  let start := offset + t * chunk
  let stop := min (offset + count) (start + chunk)
  if start ≥ stop then keys
  else
    let seed := splitmix64 ((baseSeed + (0x9E3779B97F4A7C15 * t) % 18446744073709551616)
      % 18446744073709551616)
    fillRange R size (stop - start) start (R.seed seed) keys

/-- The function `parallelFill(keys, offset, count, threads, size, baseSeed)`. The
workers write disjoint slots, so they are run one after the other. -/
def parallelFill {σ : Type} (R : RandomEngine σ) (keys : List Nat) (offset count threads : Nat)
    (size : Int) (baseSeed : Nat) : List Nat :=
  let chunk := (count + threads - 1) / threads
  (List.range threads).foldl
    (fun ks t => fillWorker R offset count chunk size baseSeed t ks) keys

/-! ## RandomGraphGenerator.cpp : generateGraph -/

/-- The outcome of `generateGraph`: the exception `std::invalid_argument`, a graph,
or the top-up loop still running when the fuel is spent. -/
inductive GenResult where
  | invalidArgument (what : String)
  | outOfFuel
  | ok (g : Graph)
deriving DecidableEq, Repr

/-- Wrap-around of a value computed in `int`. -/
def wrapInt32 (x : Int) : Int := (x + 2147483648) % 4294967296 - 2147483648

/-- Wrap-around of a value computed in `long long`. -/
def wrapInt64 (x : Int) : Int :=
  (x + 9223372036854775808) % 18446744073709551616 - 9223372036854775808

/-- The three argument checks at the head of `generateGraph`; `none` when all pass. -/
def validateArgs (size numEdges : Int) : Option String :=
  if size < 1 then some "size must be >= 1"
  else if numEdges < wrapInt32 (size - 1) then some "We need min size-1 edges"
  else
    let maxDirected := wrapInt64 (wrapInt64 (1 * size) * wrapInt32 (size - 1))
    if 1 * numEdges > maxDirected then
      some "Too many edges for directed graph without self-loops"
    else none

/-- The Fisher–Yates loop `for (int i = size - 1; i > 0; --i)`, entered at index `i`. -/
def shufflePerm {σ : Type} (R : RandomEngine σ) : Nat → σ → List Int → List Int × σ
  | 0, r, perm => (perm, r)
  | i + 1, r, perm =>
    let dj := R.uniformInt 0 ((i + 1 : Nat) : Int) r
    shufflePerm R i dj.2 (swapAt perm (i + 1) dj.1.toNat)

/-- The loop `for (int i = 1; i < size; ++i)` that writes the chain key of
`perm[i - 1] → perm[i]` into slot `i - 1`, with `n` iterations left. -/
def writeChain (perm : List Int) : Nat → Nat → List Nat → List Nat
  | 0, _, keys => keys
  | n + 1, i, keys =>
    writeChain perm n (i + 1)
      (keys.set (i - 1) (pack (toUInt32 (perm.getD (i - 1) 0)) (toUInt32 (perm.getD i 0))))

/-- The in-place pass `for (i = 1; i < keys.size(); ++i) if (keys[i] != keys[i-1])
keys[w++] = keys[i]`, with `n` iterations left; returns the array and `w`. -/
def dedupLoop : Nat → Nat → Nat → List Nat → List Nat × Nat
  | 0, _, w, keys => (keys, w)
  | n + 1, i, w, keys =>
    if keys.getD i 0 ≠ keys.getD (i - 1) 0 then
      dedupLoop n (i + 1) (w + 1) (keys.set w (keys.getD i 0))
    else dedupLoop n (i + 1) w keys

/-- The step `std::sort` followed by the in-place removal of adjacent duplicates. -/
def sortDedup (keys : List Nat) : List Nat × Nat :=
  dedupLoop (keys.length - 1) 1 1 (keys.insertionSort (· ≤ ·))

/-- The top-up loop `while (unique < numEdges)`; one unit of fuel per iteration. -/
def topUp {σ : Type} (R : RandomEngine σ) (threads : Nat) (size : Int) (numEdges baseSeed : Nat) :
    Nat → List Nat → Nat → Option (List Nat × Nat)
  | fuel, keys, unique =>
    if unique < numEdges then
      match fuel with
      | 0 => none
      | fuel + 1 =>
        let missing := numEdges - unique
        let extra := max (missing / 2) 10000
        let add := missing + extra
        let more := keys.take unique ++ List.replicate add 0
        let baseSeed2 := splitmix64 (baseSeed ^^^ 0xBF58476D1CE4E5B9)
        let filled := parallelFill R more unique add threads size baseSeed2
        let sd := sortDedup filled
        topUp R threads size numEdges baseSeed fuel sd.1 sd.2
    else some (keys, unique)

/-- The loop `for (i = 0; i < unique && p < chain.size(); ++i)` that pulls the chain
keys to the front, with `n = unique - i` iterations left; `chainSet` is the
`unordered_set`, held as a list. Returns the array and `p`. -/
def pullChain (chainSize : Nat) : Nat → Nat → Nat → List Nat → List Nat → List Nat × Nat
  | 0, _, p, _, keys => (keys, p)
  | n + 1, i, p, chainSet, keys =>
    if p < chainSize then
      if keys.getD i 0 ∈ chainSet then
        let swapped := swapAt keys p i
        pullChain chainSize n (i + 1) (p + 1)
          (chainSet.filter (fun c => c ≠ swapped.getD p 0)) swapped
      else pullChain chainSize n (i + 1) p chainSet keys
    else (keys, p)

/-- The partial Fisher–Yates loop `for (i = p; i < numEdges; ++i)`, with `n`
iterations left. -/
def partialShuffle {σ : Type} (R : RandomEngine σ) (unique : Nat) :
    Nat → Nat → σ → List Nat → List Nat
  | 0, _, _, keys => keys
  | n + 1, i, shuf, keys =>
    let dj := R.uniformSize i (unique - 1) shuf
    partialShuffle R unique n (i + 1) dj.2 (swapAt keys i dj.1)

/-- The pair `(u, v)` the assembly loop reads out of a key. -/
def decodeKey (key : Nat) : Int × Int := (toInt32 (unpackU key), toInt32 (unpackV key))

/-- The assembly loop `for (int i = 0; i < numEdges; ++i)`, with `n` iterations left. -/
def assemble (keys : List Nat) : Nat → Nat → Graph → Graph
  | 0, _, g => g
  | n + 1, i, g =>
    let key := keys.getD i 0
    assemble keys n (i + 1) (g.addEdge (toInt32 (unpackU key)) (toInt32 (unpackV key)))

/-- The vertices `0 .. size - 1` in increasing order, as written by `std::iota`. -/
def iota (size : Int) : List Int := List.map (fun k : Nat => (k : Int)) (List.range size.toNat)

/-- The permutation drawn in step 1: `std::iota` followed by Fisher–Yates. -/
def drawPerm {σ : Type} (R : RandomEngine σ) (r : σ) (size : Int) : List Int × σ :=
  shufflePerm R (size.toNat - 1) r (iota size)

/-- The key of the chain edge `perm[k] → perm[k + 1]`. -/
def chainKey (perm : List Int) (k : Nat) : Nat :=
  pack (toUInt32 (perm.getD k 0)) (toUInt32 (perm.getD (k + 1) 0))

/-- The vector `chain` of step 6: the keys of `perm[i - 1] → perm[i]`, `1 ≤ i < size`. -/
def chainKeys (perm : List Int) (size : Int) : List Nat :=
  writeChain perm (size.toNat - 1) 1 (List.replicate (size.toNat - 1) 0)

/-- The function `generateGraph(r, size, numEdges)`. `hw` is the value of
`std::thread::hardware_concurrency()`, `fuel` bounds the rounds of the top-up loop. -/
def generateGraph {σ : Type} (R : RandomEngine σ) (hw fuel : Nat) (r : σ) (size numEdges : Int) :
    GenResult :=
  match validateArgs size numEdges with
  | some what => GenResult.invalidArgument what
  | none =>
    let perm := (drawPerm R r size).1
    let r1 := (drawPerm R r size).2
    let chainCount := size - 1
    let needMore := numEdges - chainCount
    let oversample := (max (needMore / 50) 100000).toNat
    let toGenerate := needMore.toNat + oversample
    let keys0 := List.replicate (chainCount.toNat + toGenerate) 0
    let keys1 := writeChain perm (size.toNat - 1) 1 keys0
    let threads := if hw ≠ 0 then hw else 1
    let offset := chainCount.toNat
    let baseSeed := (R.next r1).1
    let keys2 := parallelFill R keys1 offset toGenerate threads size baseSeed
    let sd := sortDedup keys2
    match topUp R threads size numEdges.toNat baseSeed fuel sd.1 sd.2 with
    | none => GenResult.outOfFuel
    | some (keys3, unique) =>
      let chain := chainKeys perm size
      let pulled := pullChain chain.length unique 0 0 chain keys3
      let shufSeed := splitmix64 (baseSeed ^^^ 0x94D049BB133111EB)
      let keys5 := partialShuffle R unique (numEdges.toNat - pulled.2) pulled.2
        (R.seed shufSeed) pulled.1
      GenResult.ok (assemble keys5 numEdges.toNat 0 (Graph.new size))

/-! ### The phases of `generateGraph`

The same computation as `generateGraph`, cut at the top-up loop; `generateGraph_phases`
below shows the two agree. -/

/-- The worker count of step 3: `hw ? hw : 1`. -/
def genThreads (hw : Nat) : Nat := if hw ≠ 0 then hw else 1

/-- The base seed of step 3: the first output of the caller's engine after the
permutation has been drawn. -/
def genBaseSeed {σ : Type} (R : RandomEngine σ) (r : σ) (size : Int) : Nat :=
  (R.next (drawPerm R r size).2).1

/-- The number `toGenerate` of keys the first `parallelFill` call is asked for. -/
def toGenerate (size numEdges : Int) : Nat :=
  (numEdges - (size - 1)).toNat + (max ((numEdges - (size - 1)) / 50) 100000).toNat

/-- The array `keys` after steps 1 to 3: chain keys, then the sampled keys. -/
def initialKeys {σ : Type} (R : RandomEngine σ) (hw : Nat) (r : σ) (size numEdges : Int) :
    List Nat :=
  parallelFill R
    (writeChain (drawPerm R r size).1 (size.toNat - 1) 1
      (List.replicate ((size - 1).toNat + toGenerate size numEdges) 0))
    (size - 1).toNat (toGenerate size numEdges) (genThreads hw) size (genBaseSeed R r size)

/-- The array `keys` after step 6 (chain pulled to the front, partial shuffle),
started from the array and the count `unique` the top-up loop returned. -/
def finishKeys {σ : Type} (R : RandomEngine σ) (r : σ) (size numEdges : Int)
    (keys : List Nat) (unique : Nat) : List Nat :=
  partialShuffle R unique
    (numEdges.toNat -
      (pullChain (chainKeys (drawPerm R r size).1 size).length unique 0 0
        (chainKeys (drawPerm R r size).1 size) keys).2)
    (pullChain (chainKeys (drawPerm R r size).1 size).length unique 0 0
      (chainKeys (drawPerm R r size).1 size) keys).2
    (R.seed (splitmix64 (genBaseSeed R r size ^^^ 0x94D049BB133111EB)))
    (pullChain (chainKeys (drawPerm R r size).1 size).length unique 0 0
      (chainKeys (drawPerm R r size).1 size) keys).1

/-- The seed with which worker `t` of `parallelFill` initialises its engine:
`splitmix64(baseSeed + 0x9E3779B97F4A7C15ULL * uint64_t(t))`. -/
def workerSeed (baseSeed t : Nat) : Nat :=
  splitmix64 ((baseSeed + (0x9E3779B97F4A7C15 * t) % 18446744073709551616)
    % 18446744073709551616)

/-- The base seeds the top-up loop hands to `parallelFill`, one per iteration, in
the order of the iterations. The loop is the one of `topUp`; only the value of
`baseSeed2` of each round is kept. -/
def topUpSeeds {σ : Type} (R : RandomEngine σ) (threads : Nat) (size : Int)
    (numEdges baseSeed : Nat) : Nat → List Nat → Nat → List Nat
  | fuel, keys, unique =>
    if unique < numEdges then
      match fuel with
      | 0 => []
      | fuel + 1 =>
        let missing := numEdges - unique
        let extra := max (missing / 2) 10000
        let add := missing + extra
        let more := keys.take unique ++ List.replicate add 0
        let baseSeed2 := splitmix64 (baseSeed ^^^ 0xBF58476D1CE4E5B9)
        let filled := parallelFill R more unique add threads size baseSeed2
        let sd := sortDedup filled
        baseSeed2 :: topUpSeeds R threads size numEdges baseSeed fuel sd.1 sd.2
    else []

/-- The skip-over step `if (v >= u) ++v` of the sampling loop. -/
def skipOver (u v : Int) : Int := if v ≥ u then v + 1 else v

/-- The range `[start, end)` of worker `t` of `parallelFill`, as the pair
`(start, end)`: `start = offset + t * chunk`, `end = min(offset + count, start + chunk)`. -/
def workerRange (offset count chunk t : Nat) : Nat × Nat :=
  (offset + t * chunk, min (offset + count) (offset + t * chunk + chunk))

/-- The chunk length of `parallelFill`: `(count + threads - 1) / threads`. -/
def chunkSize (count threads : Nat) : Nat := (count + threads - 1) / threads

/-- The bounds `(a, b)` with which a worker of `parallelFill` constructs
`std::uniform_int_distribution<int> distU(0, size - 1)`. -/
def distUBounds (size : Int) : Int × Int := (0, size - 1)

/-- The bounds `(a, b)` with which a worker of `parallelFill` constructs
`std::uniform_int_distribution<int> distV(0, size - 2)`. -/
def distVBounds (size : Int) : Int × Int := (0, size - 2)

/-- The requirement `a ≤ b` of the standard library on the bounds of
`std::uniform_int_distribution(a, b)`; outside it the behaviour is undefined. -/
def BoundsOk (p : Int × Int) : Prop := p.1 ≤ p.2

instance (p : Int × Int) : Decidable (BoundsOk p) := by
  unfold BoundsOk
  infer_instance

/-- The number of iterations of the sampling loop of worker `t` of `parallelFill`,
each with one draw from `distU` and one from `distV`: `end - start`, and `0` when
the guard `if (start >= end) return;` leaves before the distributions are built. -/
def workerDraws (offset count chunk t : Nat) : Nat :=
  (workerRange offset count chunk t).2 - (workerRange offset count chunk t).1

/-- The state of the key pool between the passes of `generateGraph`: the first
`unique` slots hold pairwise distinct valid keys, the chain keys among them. -/
structure Pool (n : Nat) (chain keys : List Nat) (unique : Nat) : Prop where
  le_len : unique ≤ keys.length
  pos : 1 ≤ unique
  nodup : (keys.take unique).Nodup
  valid : ∀ x ∈ keys.take unique, ValidKey n x
  chain_mem : ∀ c ∈ chain, c ∈ keys.take unique

/-- Weak connectivity step: a stored edge between `a` and `b`, in either direction. -/
def Graph.Linked (g : Graph) (a b : Int) : Prop := (a, b) ∈ g.edges ∨ (b, a) ∈ g.edges

/-- Reachability when every stored edge is treated as undirected. -/
def Graph.WeakReach (g : Graph) : Int → Int → Prop := Relation.ReflTransGen g.Linked

/-! ## Example graphs -/

/-- Scenario 5 of the specification: vertices `0..3`, edges `0→1`, `1→2`. -/
def examplePath : Graph := ((Graph.new 4).addEdge 0 1).addEdge 1 2

/-- Scenario 4 of the specification: edges `0→1`, `1→2`, `2→0`. -/
def exampleCycle : Graph := (((Graph.new 3).addEdge 0 1).addEdge 1 2).addEdge 2 0

/-! # Theorems -/

/-! ## Graph storage -/

theorem Graph.addEdge_V (g : Graph) (src dest : Int) : (g.addEdge src dest).V = g.V := by
  unfold Graph.addEdge
  split
  · rfl
  · dsimp only
    split <;> rfl

theorem Graph.addEdge_length (g : Graph) (src dest : Int) :
    (g.addEdge src dest).adjList.length = g.adjList.length := by
  unfold Graph.addEdge
  split
  · rfl
  · dsimp only
    split
    · rfl
    · simp

/-- What one `addEdge` call does to the adjacency list of vertex `k`. -/
theorem Graph.addEdge_getD (g : Graph) (src dest : Int) (k : Nat) :
    (g.addEdge src dest).adjList.getD k [] =
      if 0 ≤ src ∧ 0 ≤ dest ∧ src < g.V ∧ dest < g.V ∧ k = src.toNat ∧
          k < g.adjList.length ∧ dest ∉ g.adjList.getD k [] then
        g.adjList.getD k [] ++ [dest]
      else g.adjList.getD k [] := by
  unfold Graph.addEdge
  by_cases hr : src < 0 ∨ dest < 0 ∨ src ≥ g.V ∨ dest ≥ g.V
  · rw [if_pos hr, if_neg]
    rintro ⟨h1, h2, h3, h4, -⟩
    omega
  · rw [if_neg hr]
    dsimp only
    by_cases hm : dest ∈ g.adjList.getD src.toNat []
    · rw [if_pos hm, if_neg]
      rintro ⟨-, -, -, -, hk, -, hn⟩
      subst hk
      exact hn hm
    · rw [if_neg hm]
      dsimp only
      by_cases hk : k = src.toNat
      · subst hk
        by_cases hlen : src.toNat < g.adjList.length
        · rw [if_pos ⟨by omega, by omega, by omega, by omega, rfl, hlen, hm⟩]
          simp [List.getD_eq_getElem?_getD, List.getElem?_set, hlen]
        · rw [if_neg (by rintro ⟨-, -, -, -, -, h, -⟩; exact hlen h)]
          have hnone : g.adjList[src.toNat]? = none := List.getElem?_eq_none (not_lt.1 hlen)
          simp [List.getD_eq_getElem?_getD, List.getElem?_set, hlen, hnone]
      · rw [if_neg (by rintro ⟨-, -, -, -, h, -⟩; exact hk h)]
        simp [List.getD_eq_getElem?_getD, List.getElem?_set, Ne.symm hk]

theorem Graph.ext_getD {g h : Graph} (hV : g.V = h.V) (hl : g.adjList.length = h.adjList.length)
    (hk : ∀ k, g.adjList.getD k [] = h.adjList.getD k []) : g = h := by
  cases g with
  | mk gV ga =>
  cases h with
  | mk hV' ha =>
  simp only at hV hl hk
  subst hV
  congr 1
  apply List.ext_getElem hl
  intro n h1 h2
  have := hk n
  simpa [List.getD_eq_getElem?_getD, List.getElem?_eq_getElem h1, List.getElem?_eq_getElem h2]
    using this

theorem Graph.addEdge_inv (g : Graph) (hg : g.Inv) (src dest : Int) : (g.addEdge src dest).Inv := by
  obtain ⟨h0, hlen, hrange, hnd⟩ := hg
  have key : ∀ l ∈ (g.addEdge src dest).adjList,
      l ∈ g.adjList ∨ ∃ l0 ∈ g.adjList, l = l0 ++ [dest] ∧ dest ∉ l0 ∧ 0 ≤ dest ∧ dest < g.V := by
    intro l hl
    obtain ⟨k, hk, rfl⟩ := List.getElem_of_mem hl
    have hk' : k < g.adjList.length := by rwa [Graph.addEdge_length] at hk
    have e := Graph.addEdge_getD g src dest k
    rw [List.getD_eq_getElem?_getD, List.getElem?_eq_getElem hk, Option.getD_some,
      List.getD_eq_getElem?_getD, List.getElem?_eq_getElem hk', Option.getD_some] at e
    rw [e]
    split
    · next hc =>
      right
      exact ⟨_, List.getElem_mem hk', rfl, hc.2.2.2.2.2.2, hc.2.1, hc.2.2.2.1⟩
    · left
      exact List.getElem_mem hk'
  refine ⟨?_, ?_, ?_, ?_⟩
  · rw [Graph.addEdge_V]; exact h0
  · rw [Graph.addEdge_V, Graph.addEdge_length]; exact hlen
  · intro l hl d hd
    rw [Graph.addEdge_V]
    rcases key l hl with h | ⟨l0, hl0, rfl, -, hd0, hd1⟩
    · exact hrange l h d hd
    · rcases List.mem_append.1 hd with h | h
      · exact hrange l0 hl0 d h
      · rw [List.mem_singleton] at h
        subst h
        exact ⟨hd0, hd1⟩
  · intro l hl
    rcases key l hl with h | ⟨l0, hl0, rfl, hn, -, -⟩
    · exact hnd l h
    · rw [List.nodup_append]
      refine ⟨hnd l0 hl0, List.nodup_singleton _, ?_⟩
      intro a ha hb
      rw [List.mem_singleton] at hb
      subst hb
      exact hn ha

theorem Graph.new_inv (V : Int) (hV : 0 ≤ V) : (Graph.new V).Inv := by
  refine ⟨hV, by simp [Graph.new], ?_, ?_⟩
  · intro l hl d hd
    rw [Graph.new, List.mem_replicate] at hl
    rw [hl.2] at hd
    cases hd
  · intro l hl
    rw [Graph.new, List.mem_replicate] at hl
    rw [hl.2]
    exact List.nodup_nil

theorem Graph.addEdges_V (g : Graph) (calls : List (Int × Int)) : (g.addEdges calls).V = g.V := by
  induction calls generalizing g with
  | nil => rfl
  | cons c cs ih =>
    show ((g.addEdge c.1 c.2).addEdges cs).V = g.V
    rw [ih, Graph.addEdge_V]

theorem Graph.addEdges_inv (g : Graph) (hg : g.Inv) (calls : List (Int × Int)) :
    (g.addEdges calls).Inv := by
  induction calls generalizing g with
  | nil => exact hg
  | cons c cs ih => exact ih _ (Graph.addEdge_inv g hg c.1 c.2)

theorem Graph.mem_edges (g : Graph) (u v : Int) :
    (u, v) ∈ g.edges ↔ 0 ≤ u ∧ u.toNat < g.adjList.length ∧ v ∈ g.adj u := by
  unfold Graph.edges Graph.adj
  simp only [List.mem_flatMap, List.mem_range, List.mem_map, Prod.mk.injEq]
  constructor
  · rintro ⟨k, hk, w, hw, rfl, rfl⟩
    exact ⟨Int.natCast_nonneg k, by simpa using hk, by simpa using hw⟩
  · rintro ⟨h0, hlt, hv⟩
    exact ⟨u.toNat, hlt, v, hv, Int.toNat_of_nonneg h0, rfl⟩

/-- C8: calling `addEdge(u, v)` twice leaves the graph in the same state (same
adjacency list for every vertex, in the same order) as calling it once, for every
graph and all integers `u`, `v`, in range or not. -/
theorem Graph.addEdge_idempotent (g : Graph) (u v : Int) :
    (g.addEdge u v).addEdge u v = g.addEdge u v := by
  apply Graph.ext_getD
  · rw [Graph.addEdge_V]
  · rw [Graph.addEdge_length]
  · intro k
    rw [Graph.addEdge_getD (g.addEdge u v) u v k, Graph.addEdge_V, Graph.addEdge_length]
    rw [if_neg]
    rintro ⟨h1, h2, h3, h4, hk, hlen, hn⟩
    apply hn
    rw [Graph.addEdge_getD g u v k]
    split
    · simp
    · next hc =>
      by_contra hcon
      exact hc ⟨h1, h2, h3, h4, hk, hlen, hcon⟩

/-- C9: when `src < 0`, `src ≥ V`, `dest < 0` or `dest ≥ V`, `addEdge(src, dest)`
returns normally and leaves the graph (vertex count and every adjacency list)
unchanged. -/
theorem Graph.addEdge_out_of_range (g : Graph) (src dest : Int)
    (h : src < 0 ∨ src ≥ g.V ∨ dest < 0 ∨ dest ≥ g.V) :
    g.addEdge src dest = g ∧ (g.addEdge src dest).V = g.V ∧
      ∀ k, (g.addEdge src dest).adjList.getD k [] = g.adjList.getD k [] := by
  have e : g.addEdge src dest = g := by
    unfold Graph.addEdge
    rw [if_pos]
    omega
  rw [e]
  exact ⟨rfl, rfl, fun _ => rfl⟩

theorem Graph.addEdge_out_of_range_witness :
    (((Graph.new 3).addEdge 0 1).addEdge 5 1 = (Graph.new 3).addEdge 0 1 ∧
      (((Graph.new 3).addEdge 0 1).addEdge 5 1).V = ((Graph.new 3).addEdge 0 1).V ∧
      ∀ k, (((Graph.new 3).addEdge 0 1).addEdge 5 1).adjList.getD k [] =
        ((Graph.new 3).addEdge 0 1).adjList.getD k []) :=
  Graph.addEdge_out_of_range ((Graph.new 3).addEdge 0 1) 5 1 (by decide)

/-- C10: in every state reached from `Graph(V)`, `V ≥ 0`, by a sequence of
`addEdge` calls with arbitrary integer arguments: the vertex count is `V`, there
are exactly `V` adjacency lists, every stored edge `(u, v)` has `0 ≤ u, v < V`, no
adjacency list holds a destination twice, and one more call leaves each list
unchanged or appends one element (the destination) at its end. -/
theorem Graph.invariant_reachable (V : Int) (hV : 0 ≤ V) (calls : List (Int × Int)) :
    ((Graph.new V).addEdges calls).V = V ∧
    ((Graph.new V).addEdges calls).adjList.length = V.toNat ∧
    (∀ e ∈ ((Graph.new V).addEdges calls).edges, 0 ≤ e.1 ∧ e.1 < V ∧ 0 ≤ e.2 ∧ e.2 < V) ∧
    (∀ l ∈ ((Graph.new V).addEdges calls).adjList, l.Nodup) ∧
    (∀ (src dest : Int) (k : Nat),
      (((Graph.new V).addEdges calls).addEdge src dest).adjList.getD k [] =
          ((Graph.new V).addEdges calls).adjList.getD k [] ∨
      (((Graph.new V).addEdges calls).addEdge src dest).adjList.getD k [] =
          ((Graph.new V).addEdges calls).adjList.getD k [] ++ [dest]) := by
  have hinv := Graph.addEdges_inv _ (Graph.new_inv V hV) calls
  have hVeq : ((Graph.new V).addEdges calls).V = V := by rw [Graph.addEdges_V]; rfl
  obtain ⟨h0, hlen, hrange, hnd⟩ := hinv
  rw [hVeq] at hlen hrange
  refine ⟨hVeq, hlen, ?_, hnd, ?_⟩
  · rintro ⟨u, v⟩ he
    rw [Graph.mem_edges] at he
    obtain ⟨hu0, hult, hv⟩ := he
    have hmem : ((Graph.new V).addEdges calls).adj u ∈ ((Graph.new V).addEdges calls).adjList := by
      unfold Graph.adj
      rw [List.getD_eq_getElem?_getD, List.getElem?_eq_getElem hult, Option.getD_some]
      exact List.getElem_mem hult
    have := hrange _ hmem v hv
    refine ⟨hu0, ?_, this.1, this.2⟩
    rw [hlen] at hult
    omega
  · intro src dest k
    rw [Graph.addEdge_getD]
    split
    · right; rfl
    · left; rfl

theorem Graph.invariant_reachable_witness :
    (((Graph.new 3).addEdges [(0, 1), (0, 1), (7, 2), (2, 0)]).V = 3 ∧
    ((Graph.new 3).addEdges [(0, 1), (0, 1), (7, 2), (2, 0)]).adjList.length = (3 : Int).toNat ∧
    (∀ e ∈ ((Graph.new 3).addEdges [(0, 1), (0, 1), (7, 2), (2, 0)]).edges,
      0 ≤ e.1 ∧ e.1 < 3 ∧ 0 ≤ e.2 ∧ e.2 < 3) ∧
    (∀ l ∈ ((Graph.new 3).addEdges [(0, 1), (0, 1), (7, 2), (2, 0)]).adjList, l.Nodup) ∧
    (∀ (src dest : Int) (k : Nat),
      (((Graph.new 3).addEdges [(0, 1), (0, 1), (7, 2), (2, 0)]).addEdge src dest).adjList.getD k [] =
          ((Graph.new 3).addEdges [(0, 1), (0, 1), (7, 2), (2, 0)]).adjList.getD k [] ∨
      (((Graph.new 3).addEdges [(0, 1), (0, 1), (7, 2), (2, 0)]).addEdge src dest).adjList.getD k [] =
          ((Graph.new 3).addEdges [(0, 1), (0, 1), (7, 2), (2, 0)]).adjList.getD k [] ++ [dest])) :=
  Graph.invariant_reachable 3 (by decide) [(0, 1), (0, 1), (7, 2), (2, 0)]

/-! ## Sequential traversal -/

theorem getD_set_true (vis : List Bool) (i k : Nat) :
    (vis.set i true).getD k false = true ↔
      (vis.getD k false = true ∨ (k = i ∧ i < vis.length)) := by
  simp only [List.getD_eq_getElem?_getD, List.getElem?_set]
  by_cases hik : i = k
  · subst hik
    by_cases hl : i < vis.length
    · simp [hl]
    · have hnone : vis[i]? = none := List.getElem?_eq_none (not_lt.1 hl)
      simp [hl, hnone]
  · simp [hik, Ne.symm hik]

theorem count_false_set (vis : List Bool) (i : Nat) (hi : i < vis.length)
    (hf : vis.getD i false = false) :
    (vis.set i true).count false + 1 = vis.count false := by
  induction vis generalizing i with
  | nil => simp at hi
  | cons b bs ih =>
    cases i with
    | zero =>
      simp only [List.getD_cons_zero] at hf
      subst hf
      simp
    | succ j =>
      simp only [List.getD_cons_succ] at hf
      simp only [List.length_cons, Nat.add_lt_add_iff_right] at hi
      have := ih j hi hf
      cases b <;> simp [List.set_cons_succ, List.count_cons] <;> omega

theorem bfsVisit_length (ns : List Int) (vis : List Bool) (q : List Int) :
    (bfsVisit ns vis q).1.length = vis.length := by
  induction ns generalizing vis q with
  | nil => rfl
  | cons n ns ih =>
    unfold bfsVisit
    split
    · exact ih _ _
    · rw [ih]; simp

theorem bfsVisit_flags (ns : List Int) (vis : List Bool) (q : List Int)
    (hns : ∀ n ∈ ns, n.toNat < vis.length) (k : Nat) :
    (bfsVisit ns vis q).1.getD k false = true ↔
      (vis.getD k false = true ∨ ∃ n ∈ ns, n.toNat = k) := by
  induction ns generalizing vis q with
  | nil => simp [bfsVisit]
  | cons n ns ih =>
    have hn := hns n (List.mem_cons_self _ _)
    have hns' : ∀ m ∈ ns, m.toNat < vis.length := fun m hm => hns m (List.mem_cons_of_mem _ hm)
    unfold bfsVisit
    split
    · next hv =>
      rw [ih vis q hns']
      constructor
      · rintro (h | ⟨m, hm, rfl⟩)
        · exact Or.inl h
        · exact Or.inr ⟨m, List.mem_cons_of_mem _ hm, rfl⟩
      · rintro (h | ⟨m, hm, rfl⟩)
        · exact Or.inl h
        · rcases List.mem_cons.1 hm with rfl | hm
          · exact Or.inl hv
          · exact Or.inr ⟨m, hm, rfl⟩
    · rw [ih (vis.set n.toNat true) (q ++ [n]) (by simpa using hns'), getD_set_true]
      constructor
      · rintro ((h | ⟨rfl, -⟩) | ⟨m, hm, rfl⟩)
        · exact Or.inl h
        · exact Or.inr ⟨n, List.mem_cons_self _ _, rfl⟩
        · exact Or.inr ⟨m, List.mem_cons_of_mem _ hm, rfl⟩
      · rintro (h | ⟨m, hm, rfl⟩)
        · exact Or.inl (Or.inl h)
        · rcases List.mem_cons.1 hm with rfl | hm
          · exact Or.inl (Or.inr ⟨rfl, hn⟩)
          · exact Or.inr ⟨m, hm, rfl⟩

theorem bfsVisit_queue_mono (ns : List Int) (vis : List Bool) (q : List Int) :
    ∀ n ∈ q, n ∈ (bfsVisit ns vis q).2 := by
  induction ns generalizing vis q with
  | nil => intro n hn; exact hn
  | cons m ns ih =>
    intro n hn
    unfold bfsVisit
    split
    · exact ih _ _ n hn
    · exact ih _ _ n (List.mem_append_left _ hn)

theorem bfsVisit_queue_new (ns : List Int) (vis : List Bool) (q : List Int)
    (h0 : ∀ n ∈ ns, 0 ≤ n) :
    ∀ n ∈ ns, vis.getD n.toNat false = false → n ∈ (bfsVisit ns vis q).2 := by
  induction ns generalizing vis q with
  | nil => intro n hn; cases hn
  | cons m ns ih =>
    have h0' : ∀ n ∈ ns, 0 ≤ n := fun n hn => h0 n (List.mem_cons_of_mem _ hn)
    intro n hn hf
    unfold bfsVisit
    split
    · next hv =>
      rcases List.mem_cons.1 hn with rfl | hn
      · rw [hv] at hf; cases hf
      · exact ih _ _ h0' n hn hf
    · rcases List.mem_cons.1 hn with rfl | hn
      · exact bfsVisit_queue_mono _ _ _ _ (by simp)
      · by_cases hnm : n.toNat = m.toNat
        · have hn0 := h0' n hn
          have hm0 := h0 m (List.mem_cons_self _ _)
          have : n = m := by omega
          subst this
          exact bfsVisit_queue_mono _ _ _ _ (by simp)
        · apply ih _ _ h0' n hn
          have : ¬ (vis.set m.toNat true).getD n.toNat false = true := by
            rw [getD_set_true]
            rintro (h | ⟨h, -⟩)
            · rw [hf] at h; cases h
            · exact hnm h
          simpa using this

theorem bfsVisit_queue_mem (ns : List Int) (vis : List Bool) (q : List Int) :
    ∀ n ∈ (bfsVisit ns vis q).2, n ∈ q ∨ n ∈ ns := by
  induction ns generalizing vis q with
  | nil => intro n hn; exact Or.inl hn
  | cons m ns ih =>
    intro n hn
    unfold bfsVisit at hn
    split at hn
    · rcases ih _ _ n hn with h | h
      · exact Or.inl h
      · exact Or.inr (List.mem_cons_of_mem _ h)
    · rcases ih _ _ n hn with h | h
      · rcases List.mem_append.1 h with h | h
        · exact Or.inl h
        · rw [List.mem_singleton] at h
          subst h
          exact Or.inr (List.mem_cons_self _ _)
      · exact Or.inr (List.mem_cons_of_mem _ h)

theorem bfsVisit_measure (ns : List Int) (vis : List Bool) (q : List Int)
    (hns : ∀ n ∈ ns, n.toNat < vis.length) :
    (bfsVisit ns vis q).1.count false + (bfsVisit ns vis q).2.length =
      vis.count false + q.length := by
  induction ns generalizing vis q with
  | nil => rfl
  | cons n ns ih =>
    have hn := hns n (List.mem_cons_self _ _)
    have hns' : ∀ m ∈ ns, m.toNat < vis.length := fun m hm => hns m (List.mem_cons_of_mem _ hm)
    unfold bfsVisit
    split
    · exact ih _ _ hns'
    · next hv =>
      rw [ih (vis.set n.toNat true) (q ++ [n]) (by simpa using hns')]
      have := count_false_set vis n.toNat hn (by simpa using hv)
      simp only [List.length_append, List.length_singleton]
      omega

theorem Graph.adj_mem (g : Graph) (u : Int) (h : u.toNat < g.adjList.length) :
    g.adj u ∈ g.adjList := by
  unfold Graph.adj
  rw [List.getD_eq_getElem?_getD, List.getElem?_eq_getElem h, Option.getD_some]
  exact List.getElem_mem h

theorem Graph.adj_range (g : Graph) (hg : g.Inv) (u v : Int) (hv : v ∈ g.adj u) :
    0 ≤ v ∧ v < g.V := by
  by_cases h : u.toNat < g.adjList.length
  · exact hg.2.2.1 _ (Graph.adj_mem g u h) v hv
  · unfold Graph.adj at hv
    rw [List.getD_eq_getElem?_getD, List.getElem?_eq_none (not_lt.1 h)] at hv
    cases hv

theorem BfsInv.step {g : Graph} (hg : g.Inv) {start : Int} {vis : List Bool} {u : Int}
    {q : List Int} (h : BfsInv g start vis (u :: q)) :
    BfsInv g start (bfsVisit (g.adj u) vis q).1 (bfsVisit (g.adj u) vis q).2 := by
  have hu := h.queued u (List.mem_cons_self _ _)
  have hrange : ∀ n ∈ g.adj u, 0 ≤ n ∧ n < g.V := fun n hn => Graph.adj_range g hg u n hn
  have hns : ∀ n ∈ g.adj u, n.toNat < vis.length := by
    intro n hn
    have := hrange n hn
    rw [h.len]
    omega
  have hflags := bfsVisit_flags (g.adj u) vis q hns
  have hreach_u : g.Reach start u := by
    have := h.sound u.toNat hu.2.2
    rwa [Int.toNat_of_nonneg hu.1] at this
  refine ⟨?_, ?_, ?_, ?_, ?_⟩
  · rw [bfsVisit_length, h.len]
  · intro n hn
    rcases bfsVisit_queue_mem _ _ _ n hn with hq | hnew
    · have := h.queued n (List.mem_cons_of_mem _ hq)
      exact ⟨this.1, this.2.1, (hflags _).2 (Or.inl this.2.2)⟩
    · exact ⟨(hrange n hnew).1, (hrange n hnew).2, (hflags _).2 (Or.inr ⟨n, hnew, rfl⟩)⟩
  · intro k hk
    rcases (hflags k).1 hk with hold | ⟨n, hn, rfl⟩
    · exact h.sound k hold
    · rw [Int.toNat_of_nonneg (hrange n hn).1]
      exact Graph.Reach.step hreach_u hn
  · exact (hflags _).2 (Or.inl h.start_mem)
  · intro k hk hkq v hv
    by_cases hku : (k : Int) = u
    · rw [hku] at hv
      exact (hflags _).2 (Or.inr ⟨v, hv, rfl⟩)
    · have hkq0 : (k : Int) ∉ q := fun hmem => hkq (bfsVisit_queue_mono _ _ _ _ hmem)
      rcases (hflags k).1 hk with hold | ⟨n, hn, hnk⟩
      · have hkq1 : (k : Int) ∉ u :: q := by
          rw [List.mem_cons]
          rintro (h1 | h1)
          · exact hku h1
          · exact hkq0 h1
        exact (hflags _).2 (Or.inl (h.closed k hold hkq1 v hv))
      · by_cases hold : vis.getD k false = true
        · have hkq1 : (k : Int) ∉ u :: q := by
            rw [List.mem_cons]
            rintro (h1 | h1)
            · exact hku h1
            · exact hkq0 h1
          exact (hflags _).2 (Or.inl (h.closed k hold hkq1 v hv))
        · exfalso
          apply hkq
          have hnk' : n = (k : Int) := by
            have := (hrange n hn).1
            omega
          rw [← hnk']
          apply bfsVisit_queue_new _ _ _ (fun m hm => (hrange m hm).1) n hn
          rw [hnk]
          simpa using hold

theorem BfsInv.complete {g : Graph} (hg : g.Inv) {start : Int} {vis : List Bool}
    (h : BfsInv g start vis []) (h0 : 0 ≤ start) :
    ∀ t, g.Reach start t → 0 ≤ t ∧ vis.getD t.toNat false = true := by
  intro t ht
  induction ht with
  | refl => exact ⟨h0, h.start_mem⟩
  | step hu hv ih =>
    rename_i u v
    refine ⟨(Graph.adj_range g hg u v hv).1, ?_⟩
    apply h.closed u.toNat ih.2 (List.not_mem_nil _)
    rwa [Int.toNat_of_nonneg ih.1]

theorem bfsLoop_correct (g : Graph) (hg : g.Inv) (start : Int) (h0 : 0 ≤ start) :
    ∀ (fuel : Nat) (vis : List Bool) (q : List Int), BfsInv g start vis q →
      vis.count false + q.length ≤ fuel →
      ∃ out, bfsLoop g.adjList fuel vis q = some out ∧ out.length = g.V.toNat ∧
        ∀ k : Nat, out.getD k false = true ↔ g.Reach start k := by
  intro fuel
  induction fuel with
  | zero =>
    intro vis q h hm
    have hq : q = [] := by
      cases q with
      | nil => rfl
      | cons a l => simp at hm
    subst hq
    refine ⟨vis, by simp [bfsLoop], h.len, fun k => ⟨h.sound k, fun hk => ?_⟩⟩
    simpa using (BfsInv.complete hg h h0 k hk).2
  | succ f ih =>
    intro vis q h hm
    cases q with
    | nil =>
      refine ⟨vis, by simp [bfsLoop], h.len, fun k => ⟨h.sound k, fun hk => ?_⟩⟩
      simpa using (BfsInv.complete hg h h0 k hk).2
    | cons u q =>
      have hstep := BfsInv.step hg h
      have hrange : ∀ n ∈ g.adj u, n.toNat < vis.length := by
        intro n hn
        have := Graph.adj_range g hg u n hn
        rw [h.len]
        omega
      have hmeas := bfsVisit_measure (g.adj u) vis q hrange
      have := ih _ _ hstep (by simp only [List.length_cons] at hm; omega)
      simpa [bfsLoop, Graph.adj] using this

/-- C7: for a graph satisfying the Graph invariant, `bfs(start)` with `start`
outside `[0, V)` returns with no vertex marked visited; with `start` in `[0, V)`
the queue loop terminates (after at most `V` iterations) and the vertices marked
visited are exactly those reachable from `start` along directed edges, `start`
included. -/
theorem Graph.bfs_visits_reachable (g : Graph) (hg : g.Inv) (start : Int) :
    ((start < 0 ∨ start ≥ g.V) → ∀ fuel, ∃ out, g.bfs start fuel = some out ∧
        ∀ k : Nat, out.getD k false = false) ∧
    ((0 ≤ start ∧ start < g.V) → ∀ fuel, g.V.toNat ≤ fuel →
      ∃ out, g.bfs start fuel = some out ∧ out.length = g.V.toNat ∧
        ∀ k : Nat, out.getD k false = true ↔ g.Reach start k) := by
  constructor
  · intro hs fuel
    refine ⟨List.replicate g.V.toNat false, by simp [Graph.bfs, hs], ?_⟩
    intro k
    rw [List.getD_eq_getElem?_getD, List.getElem?_replicate]
    split <;> rfl
  · rintro ⟨h0, hlt⟩ fuel hfuel
    have hs : ¬ (start < 0 ∨ start ≥ g.V) := by omega
    have hlt' : start.toNat < (List.replicate g.V.toNat false).length := by
      rw [List.length_replicate]; omega
    have hget : ∀ k, ¬ (List.replicate g.V.toNat false).getD k false = true := by
      intro k
      rw [List.getD_eq_getElem?_getD, List.getElem?_replicate]
      split <;> simp
    have hinv : BfsInv g start ((List.replicate g.V.toNat false).set start.toNat true) [start] := by
      refine ⟨by simp, ?_, ?_, ?_, ?_⟩
      · intro u hu
        rw [List.mem_singleton] at hu
        subst hu
        exact ⟨h0, hlt, (getD_set_true _ _ _).2 (Or.inr ⟨rfl, hlt'⟩)⟩
      · intro k hk
        rcases (getD_set_true _ _ _).1 hk with h | ⟨rfl, -⟩
        · exact absurd h (hget k)
        · rw [Int.toNat_of_nonneg h0]
          exact Graph.Reach.refl
      · exact (getD_set_true _ _ _).2 (Or.inr ⟨rfl, hlt'⟩)
      · intro k hk hkq
        rcases (getD_set_true _ _ _).1 hk with h | ⟨rfl, -⟩
        · exact absurd h (hget k)
        · exfalso
          apply hkq
          rw [Int.toNat_of_nonneg h0]
          exact List.mem_singleton_self _
    have hcount : ((List.replicate g.V.toNat false).set start.toNat true).count false + 1 =
        g.V.toNat := by
      rw [count_false_set _ _ hlt' (by simp)]
      simp
    have := bfsLoop_correct g hg start h0 fuel _ _ hinv
      (by simp only [List.length_singleton]; omega)
    simpa [Graph.bfs, hs] using this

theorem Graph.bfs_visits_reachable_witness :
    exampleCycle.Inv ∧ exampleCycle.bfs 0 3 = some [true, true, true] ∧
      ∀ k : Nat, [true, true, true].getD k false = true ↔ exampleCycle.Reach 0 k := by
  obtain ⟨out, ho, -, hr⟩ :=
    (Graph.bfs_visits_reachable exampleCycle (by decide) 0).2 ⟨by decide, by decide⟩ 3 (by decide)
  have he : exampleCycle.bfs 0 3 = some [true, true, true] := by decide
  rw [he] at ho
  cases ho
  exact ⟨by decide, he, hr⟩

/-! ## Level-synchronous traversal -/

theorem parallelLoop_done (adjList : List (List Int)) (T fuel : Nat) (vis : List Bool)
    (level next : List Int) : parallelLoop adjList T fuel vis level next 0 = some vis := by
  unfold parallelLoop
  simp

theorem parallelLoop_round (adjList : List (List Int)) (T fuel : Nat) (vis : List Bool)
    (level next : List Int) (n : Nat) :
    parallelLoop adjList T (fuel + 1) vis level next (n + 1) =
      parallelLoop adjList T fuel
        (runRound adjList level (n + 1) T ⟨vis, next, 0⟩).visited
        (runRound adjList level (n + 1) T ⟨vis, next, 0⟩).next_level level
        (runRound adjList level (n + 1) T ⟨vis, next, 0⟩).next_level_size := by
  rw [parallelLoop]
  simp

theorem job_single_first (adjList : List (List Int)) (level : List Int) (T : Nat) (s : Frontier) :
    job adjList level 1 (T + 1) 0 s =
      claimNeighbours (adjList.getD (level.getD 0 0).toNat []) s := by
  simp [job, jobFrom]

theorem job_single_rest (adjList : List (List Int)) (level : List Int) (T t : Nat) (s : Frontier) :
    job adjList level 1 T (t + 1) s = s := by
  simp [job, jobFrom]

/-- With a one-vertex frontier only worker `0` has an index to process. -/
theorem runRound_single (adjList : List (List Int)) (level : List Int) (T : Nat) (s : Frontier) :
    runRound adjList level 1 (T + 1) s =
      claimNeighbours (adjList.getD (level.getD 0 0).toNat []) s := by
  unfold runRound
  rw [List.range_succ_eq_map, List.foldl_cons, job_single_first, List.foldl_map]
  generalize claimNeighbours (adjList.getD (level.getD 0 0).toNat []) s = s1
  induction List.range T generalizing s1 with
  | nil => rfl
  | cons a l ih =>
    rw [List.foldl_cons, job_single_rest]
    exact ih s1

/-- C1 (fails on the code): on `V = 4` with edges `0→1`, `1→2` and start `0` the
sequential `bfs` marks `{0, 1, 2}`, whereas `parallelBFS`, for every worker count
`T + 1 ≥ 1`, terminates within three rounds with only `{1, 2}` marked: the start
vertex is never claimed, so the report lists vertices `0` and `3`. Every frontier
of this run holds one vertex, so only worker `0` ever executes the loop body and
the outcome does not depend on the schedule. -/
theorem Graph.parallelBFS_misses_start :
    examplePath.Inv ∧
    examplePath.bfs 0 4 = some [true, true, true, false] ∧
    (∀ T fuel : Nat, examplePath.parallelBFS (T + 1) 0 (fuel + 3) =
      some [false, true, true, false]) ∧
    visitedSet [true, true, true, false] = [0, 1, 2] ∧
    visitedSet [false, true, true, false] = [1, 2] ∧
    unvisitedReport [false, true, true, false] = [0, 3] := by
  refine ⟨by decide, by decide, ?_, by decide, by decide, by decide⟩
  intro T fuel
  have hadj : examplePath.adjList = [[1], [2], [], []] := by decide
  have hV : examplePath.V = 4 := by decide
  unfold Graph.parallelBFS
  rw [hadj, hV]
  simp only [Int.toNat_ofNat, List.replicate, List.set_cons_zero]
  rw [show fuel + 3 = (fuel + 2) + 1 from rfl, parallelLoop_round, runRound_single]
  simp only [claimNeighbours, List.getD_cons_zero, Int.toNat_zero, Int.toNat_one,
    List.getD_cons_succ, Bool.false_eq_true, if_false, List.set_cons_succ, List.set_cons_zero,
    Nat.zero_add]
  rw [show fuel + 2 = (fuel + 1) + 1 from rfl, parallelLoop_round, runRound_single]
  simp only [claimNeighbours, List.getD_cons_zero, Int.toNat_zero, Int.toNat_one,
    List.getD_cons_succ, Bool.false_eq_true, if_false, List.set_cons_succ, List.set_cons_zero,
    Nat.zero_add, show (2 : Int).toNat = 2 from rfl]
  rw [parallelLoop_round, runRound_single]
  simp only [claimNeighbours, List.getD_cons_zero, Int.toNat_zero, Int.toNat_one,
    List.getD_cons_succ, Bool.false_eq_true, if_false, List.set_cons_succ, List.set_cons_zero,
    Nat.zero_add, show (2 : Int).toNat = 2 from rfl]
  rw [parallelLoop_done]

/-! ## Generator : argument validation -/

theorem generateGraph_of_invalid {σ : Type} (R : RandomEngine σ) (hw fuel : Nat) (r : σ)
    (size numEdges : Int) (what : String) (h : validateArgs size numEdges = some what) :
    generateGraph R hw fuel r size numEdges = GenResult.invalidArgument what := by
  unfold generateGraph
  rw [h]

theorem generateGraph_of_valid {σ : Type} (R : RandomEngine σ) (hw fuel : Nat) (r : σ)
    (size numEdges : Int) (h : validateArgs size numEdges = none) :
    generateGraph R hw fuel r size numEdges = GenResult.outOfFuel ∨
      ∃ g, generateGraph R hw fuel r size numEdges = GenResult.ok g := by
  unfold generateGraph
  rw [h]
  dsimp only
  split
  · exact Or.inl rfl
  · exact Or.inr ⟨_, rfl⟩

theorem maxDirected_exact (size : Int) (h1 : 1 ≤ size) (h2 : size < 2147483648) :
    wrapInt64 (wrapInt64 (1 * size) * wrapInt32 (size - 1)) = size * (size - 1) ∧
      0 ≤ size * (size - 1) ∧ size * (size - 1) < 9223372036854775808 := by
  have e1 : wrapInt64 (1 * size) = size := by unfold wrapInt64; omega
  have e2 : wrapInt32 (size - 1) = size - 1 := by unfold wrapInt32; omega
  have hp0 : 0 ≤ size * (size - 1) := Int.mul_nonneg (by omega) (by omega)
  have hp1 : size * (size - 1) ≤ 2147483647 * 2147483646 :=
    Int.mul_le_mul (by omega) (by omega) (by omega) (by omega)
  rw [e1, e2]
  refine ⟨?_, hp0, by omega⟩
  generalize size * (size - 1) = p at hp0 hp1
  unfold wrapInt64
  omega

theorem validateArgs_eq_none_iff (size numEdges : Int)
    (hs : -2147483648 ≤ size ∧ size < 2147483648) :
    validateArgs size numEdges = none ↔
      1 ≤ size ∧ size - 1 ≤ numEdges ∧ numEdges ≤ size * (size - 1) := by
  unfold validateArgs
  by_cases h1 : size < 1
  · simp [h1]
  · have e2 : wrapInt32 (size - 1) = size - 1 := by unfold wrapInt32; omega
    have e3 := (maxDirected_exact size (by omega) hs.2).1
    rw [e2] at e3
    rw [if_neg h1, e2]
    by_cases h2 : numEdges < size - 1
    · rw [if_pos h2]
      constructor
      · intro h; cases h
      · intro h; omega
    · rw [if_neg h2]
      dsimp only
      rw [e3, Int.one_mul]
      by_cases h3 : numEdges > size * (size - 1)
      · simp [h3]
      · simp [h3]
        omega

/-- C4: for every 32-bit signed `size` and every `numEdges`, `generateGraph` fails
with the invalid-argument condition exactly when `size < 1`, or
`numEdges < size - 1`, or `numEdges > size * (size - 1)` with the product taken as
the exact integer (for `size ≥ 1` the 64-bit computation of the bound equals the
exact product); on failure no graph is produced. -/
theorem generateGraph_invalid_iff {σ : Type} (R : RandomEngine σ) (hw fuel : Nat) (r : σ)
    (size numEdges : Int)
    (hs : -2147483648 ≤ size ∧ size < 2147483648) :
    ((∃ what, generateGraph R hw fuel r size numEdges = GenResult.invalidArgument what) ↔
      (size < 1 ∨ numEdges < size - 1 ∨ numEdges > size * (size - 1))) ∧
    ((size < 1 ∨ numEdges < size - 1 ∨ numEdges > size * (size - 1)) →
      ∀ g, generateGraph R hw fuel r size numEdges ≠ GenResult.ok g) ∧
    (1 ≤ size →
      wrapInt64 (wrapInt64 (1 * size) * wrapInt32 (size - 1)) = size * (size - 1)) := by
  have hvalid := validateArgs_eq_none_iff size numEdges hs
  have hfail : (size < 1 ∨ numEdges < size - 1 ∨ numEdges > size * (size - 1)) →
      ∃ what, generateGraph R hw fuel r size numEdges = GenResult.invalidArgument what := by
    intro hc
    cases hv : validateArgs size numEdges with
    | none =>
      have := hvalid.1 hv
      omega
    | some what => exact ⟨what, generateGraph_of_invalid R hw fuel r size numEdges what hv⟩
  refine ⟨⟨?_, hfail⟩, ?_, fun h1 => (maxDirected_exact size h1 hs.2).1⟩
  · rintro ⟨what, hw'⟩
    by_contra hc
    have hv : validateArgs size numEdges = none := hvalid.2 (by omega)
    rcases generateGraph_of_valid R hw fuel r size numEdges hv with h | ⟨g, h⟩
    · rw [h] at hw'; cases hw'
    · rw [h] at hw'; cases hw'
  · intro hc g hg
    obtain ⟨what, hw'⟩ := hfail hc
    rw [hw'] at hg
    cases hg

theorem generateGraph_invalid_iff_witness :
    ((∃ what, generateGraph counterEngine 4 0 42 3 7 = GenResult.invalidArgument what) ↔
      ((3 : Int) < 1 ∨ (7 : Int) < 3 - 1 ∨ (7 : Int) > 3 * (3 - 1))) ∧
    (((3 : Int) < 1 ∨ (7 : Int) < 3 - 1 ∨ (7 : Int) > 3 * (3 - 1)) →
      ∀ g, generateGraph counterEngine 4 0 42 3 7 ≠ GenResult.ok g) ∧
    ((1 : Int) ≤ 3 → wrapInt64 (wrapInt64 (1 * 3) * wrapInt32 (3 - 1)) = 3 * (3 - 1)) :=
  generateGraph_invalid_iff counterEngine 4 0 42 3 7 (by decide)

/-! ## Generator : codec -/

theorem pack_eq (u v : Nat) (hu : u < 4294967296) (hv : v < 4294967296) :
    pack u v = 4294967296 * u + v := by
  unfold pack
  have h1 : u <<< 32 = 4294967296 * u := by
    rw [Nat.shiftLeft_eq, Nat.mul_comm]
  have h2 : (4294967296 * u) % 18446744073709551616 = 4294967296 * u :=
    Nat.mod_eq_of_lt (by omega)
  rw [h1, h2]
  exact (Nat.mul_add_lt_is_or (i := 32) (by simpa using hv) u).symm

theorem unpackU_pack (u v : Nat) (hu : u < 4294967296) (hv : v < 4294967296) :
    unpackU (pack u v) = u := by
  rw [pack_eq u v hu hv]
  unfold unpackU
  rw [Nat.shiftRight_eq_div_pow]
  omega

theorem unpackV_pack (u v : Nat) (hu : u < 4294967296) (hv : v < 4294967296) :
    unpackV (pack u v) = v := by
  rw [pack_eq u v hu hv]
  unfold unpackV
  have : (4294967296 * u + v) &&& 0xFFFFFFFF = (4294967296 * u + v) % 4294967296 :=
    Nat.and_pow_two_sub_one_eq_mod _ 32
  rw [this]
  omega

theorem pack_inj (u v u' v' : Nat) (hu : u < 4294967296) (hv : v < 4294967296)
    (hu' : u' < 4294967296) (hv' : v' < 4294967296) (h : pack u v = pack u' v') :
    u = u' ∧ v = v' := by
  rw [pack_eq u v hu hv, pack_eq u' v' hu' hv'] at h
  omega

theorem toUInt32_of_nonneg (x : Int) (h0 : 0 ≤ x) (h1 : x < 4294967296) :
    toUInt32 x = x.toNat := by
  unfold toUInt32
  rw [Int.emod_eq_of_lt h0 h1]

theorem toInt32_of_lt (x : Nat) (h : x < 2147483648) : toInt32 x = (x : Int) := by
  unfold toInt32
  have : x % 4294967296 = x := Nat.mod_eq_of_lt (by omega)
  rw [this, if_pos h]

/-! ## Generator : swaps -/

theorem swapAt_length {α : Type} [Inhabited α] (xs : List α) (i j : Nat) :
    (swapAt xs i j).length = xs.length := by
  simp [swapAt]

theorem swapAt_getElem? {α : Type} [Inhabited α] (xs : List α) (i j k : Nat)
    (hi : i < xs.length) (hj : j < xs.length) :
    (swapAt xs i j)[k]? = if k = j then xs[i]? else if k = i then xs[j]? else xs[k]? := by
  unfold swapAt
  rw [List.getElem?_set, List.getElem?_set]
  simp only [List.length_set, List.getD_eq_getElem?_getD, List.getElem?_eq_getElem hi,
    List.getElem?_eq_getElem hj, Option.getD_some]
  by_cases h1 : j = k
  · subst h1
    simp [hj]
  · by_cases h2 : i = k
    · subst h2
      simp [h1, hi, Ne.symm h1]
    · simp [h1, h2, Ne.symm h1, Ne.symm h2]

theorem swapAt_perm {α : Type} [Inhabited α] (xs : List α) (i j : Nat)
    (hi : i < xs.length) (hj : j < xs.length) : (swapAt xs i j).Perm xs := by
  have hnd : ((List.range xs.length).map (Equiv.swap i j)).Perm (List.range xs.length) := by
    rw [List.perm_ext_iff_of_nodup
      ((List.nodup_range _).map (Equiv.swap i j).injective) (List.nodup_range _)]
    intro a
    simp only [List.mem_map, List.mem_range]
    constructor
    · rintro ⟨b, hb, rfl⟩
      by_cases h1 : b = i
      · subst h1; simpa using hj
      · by_cases h2 : b = j
        · subst h2; simpa using hi
        · rwa [Equiv.swap_apply_of_ne_of_ne h1 h2]
    · intro ha
      refine ⟨Equiv.swap i j a, ?_, by simp⟩
      by_cases h1 : a = i
      · subst h1; simpa using hj
      · by_cases h2 : a = j
        · subst h2; simpa using hi
        · rwa [Equiv.swap_apply_of_ne_of_ne h1 h2]
  have e1 : xs = (List.range xs.length).map (fun k => xs.getD k default) := by
    apply List.ext_getElem?
    intro k
    by_cases hk : k < xs.length
    · simp [List.getElem?_eq_getElem, hk]
    · have : xs[k]? = none := List.getElem?_eq_none (not_lt.1 hk)
      have hr : (List.range xs.length)[k]? = none :=
        List.getElem?_eq_none (by simpa using not_lt.1 hk)
      simp [this, hr]
  have e2 : swapAt xs i j =
      ((List.range xs.length).map (Equiv.swap i j)).map (fun k => xs.getD k default) := by
    apply List.ext_getElem?
    intro k
    rw [swapAt_getElem? xs i j k hi hj]
    by_cases hk : k < xs.length
    · simp only [List.map_map, List.getElem?_map, List.getElem?_range hk, Option.map_some',
        Function.comp_apply]
      by_cases h1 : k = j
      · subst h1
        simp [List.getElem?_eq_getElem, hi]
      · by_cases h2 : k = i
        · subst h2
          simp [List.getElem?_eq_getElem, hj, h1]
        · rw [if_neg h1, if_neg h2, Equiv.swap_apply_of_ne_of_ne h2 h1]
          simp [List.getElem?_eq_getElem, hk]
    · have hk1 : k ≠ j := by omega
      have hk2 : k ≠ i := by omega
      have : xs[k]? = none := List.getElem?_eq_none (not_lt.1 hk)
      have hr : (List.range xs.length)[k]? = none :=
        List.getElem?_eq_none (by simpa using not_lt.1 hk)
      simp [hk1, hk2, this, hr]
  rw [e2]
  conv_rhs => rw [e1]
  exact hnd.map _

theorem swapAt_take {α : Type} [Inhabited α] (xs : List α) (i j m : Nat)
    (hi : i < m) (hj : j < m) (hm : m ≤ xs.length) :
    (swapAt xs i j).take m = swapAt (xs.take m) i j := by
  apply List.ext_getElem?
  intro k
  have hi' : i < (xs.take m).length := by rw [List.length_take]; omega
  have hj' : j < (xs.take m).length := by rw [List.length_take]; omega
  rw [List.getElem?_take, swapAt_getElem? _ _ _ _ (by omega) (by omega),
    swapAt_getElem? _ _ _ _ hi' hj']
  simp only [List.getElem?_take]
  by_cases hk : k < m
  · simp [hk, hi, hj]
  · have hk1 : k ≠ j := by omega
    have hk2 : k ≠ i := by omega
    simp [hk, hk1, hk2]

theorem swapAt_take_below {α : Type} [Inhabited α] (xs : List α) (i j p : Nat)
    (hi : p ≤ i) (hj : p ≤ j) (hil : i < xs.length) (hjl : j < xs.length) :
    (swapAt xs i j).take p = xs.take p := by
  apply List.ext_getElem?
  intro k
  rw [List.getElem?_take, List.getElem?_take, swapAt_getElem? _ _ _ _ hil hjl]
  by_cases hk : k < p
  · have hk1 : k ≠ j := by omega
    have hk2 : k ≠ i := by omega
    simp [hk, hk1, hk2]
  · simp [hk]

theorem swapAt_drop_above {α : Type} [Inhabited α] (xs : List α) (i j m : Nat)
    (hi : i < m) (hj : j < m) (hm : m ≤ xs.length) :
    (swapAt xs i j).drop m = xs.drop m := by
  apply List.ext_getElem?
  intro k
  rw [List.getElem?_drop, List.getElem?_drop, swapAt_getElem? _ _ _ _ (by omega) (by omega)]
  have hk1 : m + k ≠ j := by omega
  have hk2 : m + k ≠ i := by omega
  simp [hk1, hk2]

/-! ## Generator : permutation and chain -/


theorem shufflePerm_perm {σ : Type} (R : RandomEngine σ) (hR : R.Lawful) :
    ∀ (i : Nat) (r : σ) (perm : List Int), i < perm.length →
      (shufflePerm R i r perm).1.Perm perm := by
  intro i
  induction i with
  | zero => intro r perm _; exact List.Perm.refl _
  | succ i ih =>
    intro r perm hi
    unfold shufflePerm
    dsimp only
    have hj := hR.uniformInt_range 0 ((i + 1 : Nat) : Int) r (by omega)
    have hjl : (R.uniformInt 0 ((i + 1 : Nat) : Int) r).1.toNat < perm.length := by omega
    exact (ih _ _ (by rw [swapAt_length]; omega)).trans (swapAt_perm perm (i + 1) _ hi hjl)

theorem drawPerm_perm {σ : Type} (R : RandomEngine σ) (hR : R.Lawful) (r : σ) (size : Int)
    (hs : 1 ≤ size) : (drawPerm R r size).1.Perm (iota size) := by
  unfold drawPerm
  apply shufflePerm_perm R hR
  rw [iota, List.length_map, List.length_range]
  omega

theorem mem_iota (size x : Int) : x ∈ iota size ↔ 0 ≤ x ∧ x < size := by
  unfold iota
  simp only [List.mem_map, List.mem_range]
  constructor
  · rintro ⟨k, hk, rfl⟩
    omega
  · rintro ⟨h0, h1⟩
    exact ⟨x.toNat, by omega, Int.toNat_of_nonneg h0⟩

theorem nodup_iota (size : Int) : (iota size).Nodup := by
  unfold iota
  exact (List.nodup_range _).map (fun a b h => by simpa using h)

theorem length_iota (size : Int) : (iota size).length = size.toNat := by
  simp [iota]


theorem writeChain_length (perm : List Int) (n i : Nat) (keys : List Nat) :
    (writeChain perm n i keys).length = keys.length := by
  induction n generalizing i keys with
  | zero => rfl
  | succ n ih =>
    unfold writeChain
    rw [ih]
    simp

theorem writeChain_getElem? (perm : List Int) (n i : Nat) (keys : List Nat) (k : Nat) :
    (writeChain perm n (i + 1) keys)[k]? =
      if i ≤ k ∧ k < i + n ∧ k < keys.length then some (chainKey perm k) else keys[k]? := by
  induction n generalizing i keys with
  | zero =>
    simp only [writeChain]
    rw [if_neg]
    omega
  | succ n ih =>
    unfold writeChain
    rw [ih (i + 1)]
    simp only [Nat.add_sub_cancel, List.length_set, List.getElem?_set]
    split_ifs with h1 h2 h3 h4
    all_goals first
      | (exfalso; omega)
      | (subst h3; exact (List.getElem?_eq_none (by omega)).symm)
      | (subst h3; exact rfl)
      | exact rfl

theorem chainKeys_eq (perm : List Int) (size : Int) :
    chainKeys perm size = (List.range (size.toNat - 1)).map (chainKey perm) := by
  apply List.ext_getElem?
  intro k
  unfold chainKeys
  rw [writeChain_getElem? perm (size.toNat - 1) 0]
  simp only [List.length_replicate, List.getElem?_map, List.getElem?_replicate]
  by_cases hk : k < size.toNat - 1
  · rw [if_pos ⟨by omega, by omega, hk⟩, List.getElem?_range hk]
    rfl
  · rw [if_neg (by omega), if_neg hk, List.getElem?_eq_none (by simpa using hk)]
    rfl

theorem writeChain_initial (perm : List Int) (size : Int) (m : Nat) :
    writeChain perm (size.toNat - 1) 1 (List.replicate (size.toNat - 1 + m) 0) =
      chainKeys perm size ++ List.replicate m 0 := by
  apply List.ext_getElem?
  intro k
  rw [writeChain_getElem? perm (size.toNat - 1) 0, chainKeys_eq]
  simp only [List.length_replicate, List.getElem?_replicate]
  by_cases hk : k < size.toNat - 1
  · rw [if_pos ⟨by omega, by omega, by omega⟩, List.getElem?_append_left (by simpa using hk),
      List.getElem?_map, List.getElem?_range hk]
    rfl
  · rw [if_neg (by omega), List.getElem?_append_right (by simpa using hk)]
    simp only [List.length_map, List.length_range, List.getElem?_replicate]
    by_cases hk2 : k < size.toNat - 1 + m
    · rw [if_pos hk2, if_pos (by omega)]
    · rw [if_neg hk2, if_neg (by omega)]

/-! ## Generator : parallelFill -/

theorem sampledKey_valid {σ : Type} (R : RandomEngine σ) (hR : R.Lawful) (size : Int)
    (h2 : 2 ≤ size) (hs : size < 2147483648) (rnd : σ) :
    ValidKey size.toNat (sampledKey R size rnd) := by
  unfold sampledKey
  dsimp only
  have hu := hR.uniformInt_range 0 (size - 1) rnd (by omega)
  have hv := hR.uniformInt_range 0 (size - 2) (R.uniformInt 0 (size - 1) rnd).2 (by omega)
  generalize (R.uniformInt 0 (size - 1) rnd).1 = u at hu hv ⊢
  generalize (R.uniformInt 0 (size - 2) (R.uniformInt 0 (size - 1) rnd).2).1 = v at hv ⊢
  by_cases hc : v ≥ u
  · rw [if_pos hc, toUInt32_of_nonneg u (by omega) (by omega),
      toUInt32_of_nonneg (v + 1) (by omega) (by omega)]
    exact ⟨u.toNat, (v + 1).toNat, by omega, by omega, by omega, rfl⟩
  · rw [if_neg hc, toUInt32_of_nonneg u (by omega) (by omega),
      toUInt32_of_nonneg v (by omega) (by omega)]
    exact ⟨u.toNat, v.toNat, by omega, by omega, by omega, rfl⟩

theorem fillRange_step {σ : Type} (R : RandomEngine σ) (size : Int) (n i : Nat) (rnd : σ)
    (keys : List Nat) :
    fillRange R size (n + 1) i rnd keys =
      fillRange R size n (i + 1)
        (R.uniformInt 0 (size - 2) (R.uniformInt 0 (size - 1) rnd).2).2
        (keys.set i (sampledKey R size rnd)) := rfl

theorem fillRange_length {σ : Type} (R : RandomEngine σ) (size : Int) (n i : Nat) (rnd : σ)
    (keys : List Nat) : (fillRange R size n i rnd keys).length = keys.length := by
  induction n generalizing i rnd keys with
  | zero => rfl
  | succ n ih => rw [fillRange_step, ih, List.length_set]

theorem fillRange_outside {σ : Type} (R : RandomEngine σ) (size : Int) (n i : Nat) (rnd : σ)
    (keys : List Nat) (k : Nat) (hk : k < i ∨ i + n ≤ k) :
    (fillRange R size n i rnd keys)[k]? = keys[k]? := by
  induction n generalizing i rnd keys with
  | zero => rfl
  | succ n ih =>
    rw [fillRange_step, ih _ _ _ (by omega), List.getElem?_set, if_neg (by omega)]

theorem fillRange_inside {σ : Type} (R : RandomEngine σ) (size : Int) (n i : Nat) (rnd : σ)
    (keys : List Nat) (k : Nat) (h1 : i ≤ k) (h2 : k < i + n) (h3 : k < keys.length) :
    ∃ rnd', (fillRange R size n i rnd keys)[k]? = some (sampledKey R size rnd') := by
  induction n generalizing i rnd keys with
  | zero => omega
  | succ n ih =>
    rw [fillRange_step]
    by_cases hik : i = k
    · subst hik
      refine ⟨rnd, ?_⟩
      rw [fillRange_outside _ _ _ _ _ _ _ (by omega), List.getElem?_set, if_pos rfl, if_pos h3]
    · exact ih _ _ _ (by omega) (by omega) (by rw [List.length_set]; exact h3)

theorem fillWorker_length {σ : Type} (R : RandomEngine σ) (offset count chunk : Nat) (size : Int)
    (baseSeed t : Nat) (keys : List Nat) :
    (fillWorker R offset count chunk size baseSeed t keys).length = keys.length := by
  unfold fillWorker
  dsimp only
  split
  · rfl
  · exact fillRange_length _ _ _ _ _ _

theorem fillWorker_outside {σ : Type} (R : RandomEngine σ) (offset count chunk : Nat) (size : Int)
    (baseSeed t : Nat) (keys : List Nat) (k : Nat)
    (hk : k < offset + t * chunk ∨ min (offset + count) (offset + t * chunk + chunk) ≤ k) :
    (fillWorker R offset count chunk size baseSeed t keys)[k]? = keys[k]? := by
  unfold fillWorker
  dsimp only
  split
  · rfl
  · exact fillRange_outside _ _ _ _ _ _ _ (by omega)

theorem fillWorker_inside {σ : Type} (R : RandomEngine σ) (offset count chunk : Nat) (size : Int)
    (baseSeed t : Nat) (keys : List Nat) (k : Nat)
    (h1 : offset + t * chunk ≤ k) (h2 : k < offset + t * chunk + chunk)
    (h3 : k < offset + count) (h4 : k < keys.length) :
    ∃ rnd, (fillWorker R offset count chunk size baseSeed t keys)[k]? =
      some (sampledKey R size rnd) := by
  unfold fillWorker
  dsimp only
  split
  · omega
  · exact fillRange_inside _ _ _ _ _ _ _ h1 (by omega) h4

/-- The effect of the first `m` workers of `parallelFill`. -/
theorem fillWorkers_spec {σ : Type} (R : RandomEngine σ) (offset count chunk : Nat) (size : Int)
    (baseSeed : Nat) (keys : List Nat) (hlen : offset + count ≤ keys.length) (m : Nat) :
    ((List.range m).foldl
        (fun ks t => fillWorker R offset count chunk size baseSeed t ks) keys).length =
      keys.length ∧
    (∀ k, k < offset ∨ offset + count ≤ k →
      ((List.range m).foldl
        (fun ks t => fillWorker R offset count chunk size baseSeed t ks) keys)[k]? = keys[k]?) ∧
    (∀ k, offset ≤ k → k < offset + m * chunk → k < offset + count →
      ∃ rnd, ((List.range m).foldl
        (fun ks t => fillWorker R offset count chunk size baseSeed t ks) keys)[k]? =
          some (sampledKey R size rnd)) := by
  induction m with
  | zero =>
    refine ⟨rfl, fun _ _ => rfl, ?_⟩
    intro k h1 h2 h3
    omega
  | succ m ih =>
    obtain ⟨ihl, iho, ihi⟩ := ih
    rw [List.range_succ, List.foldl_append]
    simp only [List.foldl_cons, List.foldl_nil]
    have hmul : (m + 1) * chunk = m * chunk + chunk := Nat.succ_mul m chunk
    refine ⟨?_, ?_, ?_⟩
    · rw [fillWorker_length, ihl]
    · intro k hk
      rw [fillWorker_outside _ _ _ _ _ _ _ _ _ (by omega), iho k hk]
    · intro k h1 h2 h3
      by_cases hk : k < offset + m * chunk
      · rw [fillWorker_outside _ _ _ _ _ _ _ _ _ (Or.inl hk)]
        exact ihi k h1 hk h3
      · exact fillWorker_inside _ _ _ _ _ _ _ _ _ (by omega) (by omega) h3 (by omega)

theorem ceil_chunk_covers (count threads : Nat) (ht : 0 < threads) :
    count ≤ threads * ((count + threads - 1) / threads) := by
  have h := Nat.lt_mul_div_succ (count + threads - 1) ht
  rw [Nat.mul_add, Nat.mul_one] at h
  omega

/-- What `parallelFill` does to the buffer: the length is kept, every slot outside
`[offset, offset + count)` is kept, and every slot inside holds a sampled key. -/
theorem parallelFill_spec {σ : Type} (R : RandomEngine σ) (keys : List Nat)
    (offset count threads : Nat) (size : Int) (baseSeed : Nat)
    (hlen : offset + count ≤ keys.length) (ht : 0 < threads) :
    (parallelFill R keys offset count threads size baseSeed).length = keys.length ∧
    (∀ k, k < offset ∨ offset + count ≤ k →
      (parallelFill R keys offset count threads size baseSeed)[k]? = keys[k]?) ∧
    (∀ k, offset ≤ k → k < offset + count →
      ∃ rnd, (parallelFill R keys offset count threads size baseSeed)[k]? =
        some (sampledKey R size rnd)) := by
  obtain ⟨h1, h2, h3⟩ := fillWorkers_spec R offset count ((count + threads - 1) / threads)
    size baseSeed keys hlen threads
  refine ⟨h1, h2, ?_⟩
  intro k hk1 hk2
  have := ceil_chunk_covers count threads ht
  exact h3 k hk1 (by omega) hk2

/-! ## Generator : sort and in-place dedup -/

theorem getD_set_nat (l : List Nat) (w a k : Nat) :
    (l.set w a).getD k 0 = if k = w ∧ w < l.length then a else l.getD k 0 := by
  simp only [List.getD_eq_getElem?_getD, List.getElem?_set]
  by_cases h1 : w = k
  · subst h1
    by_cases h2 : w < l.length
    · simp [h2]
    · have : l[w]? = none := List.getElem?_eq_none (not_lt.1 h2)
      simp [h2, this]
  · have h1' : ¬ k = w := fun h => h1 h.symm
    simp [h1, h1']

theorem getD_eq_getElem_nat (l : List Nat) (k : Nat) (hk : k < l.length) :
    l.getD k 0 = l[k] := by
  rw [List.getD_eq_getElem?_getD, List.getElem?_eq_getElem hk, Option.getD_some]

theorem mem_take_iff_getD (l : List Nat) (w : Nat) (hw : w ≤ l.length) (x : Nat) :
    x ∈ l.take w ↔ ∃ a, a < w ∧ l.getD a 0 = x := by
  rw [List.mem_iff_getElem]
  constructor
  · rintro ⟨a, ha, rfl⟩
    rw [List.length_take] at ha
    refine ⟨a, by omega, ?_⟩
    rw [List.getElem_take, getD_eq_getElem_nat]
  · rintro ⟨a, ha, rfl⟩
    have ha' : a < (l.take w).length := by rw [List.length_take]; omega
    refine ⟨a, ha', ?_⟩
    rw [List.getElem_take, getD_eq_getElem_nat]

theorem nodup_take_of_strict (l : List Nat) (w : Nat) (hw : w ≤ l.length)
    (h : ∀ a b, a < b → b < w → l.getD a 0 < l.getD b 0) : (l.take w).Nodup := by
  rw [List.Nodup, List.pairwise_iff_getElem]
  intro a b ha hb hab
  rw [List.length_take] at ha hb
  rw [List.getElem_take, List.getElem_take]
  have := h a b hab (by omega)
  rw [getD_eq_getElem_nat l a (by omega), getD_eq_getElem_nat l b (by omega)] at this
  omega

theorem sorted_getD (s : List Nat) (hs : s.Pairwise (· ≤ ·)) (a b : Nat) (hab : a ≤ b)
    (hb : b < s.length) : s.getD a 0 ≤ s.getD b 0 := by
  rw [getD_eq_getElem_nat s a (by omega), getD_eq_getElem_nat s b hb]
  rcases Nat.lt_or_ge a b with h | h
  · exact (List.pairwise_iff_getElem.1 hs) a b (by omega) hb h
  · have : a = b := by omega
    subst this
    exact le_refl _

/-- The invariant of the in-place dedup pass over a sorted array `s`. -/
theorem dedupLoop_spec (s : List Nat) (hs : s.Pairwise (· ≤ ·)) :
    ∀ (n i w : Nat) (keys : List Nat), i + n = s.length → 1 ≤ w → w ≤ i →
      keys.length = s.length →
      (∀ k, i - 1 ≤ k → keys.getD k 0 = s.getD k 0) →
      (∀ a b, a < b → b < w → keys.getD a 0 < keys.getD b 0) →
      (∀ a, a < w → ∃ b, b < i ∧ keys.getD a 0 = s.getD b 0) →
      (∀ b, b < i → ∃ a, a < w ∧ keys.getD a 0 = s.getD b 0) →
      (dedupLoop n i w keys).1.length = s.length ∧ 1 ≤ (dedupLoop n i w keys).2 ∧
      (dedupLoop n i w keys).2 ≤ s.length ∧
      (∀ a b, a < b → b < (dedupLoop n i w keys).2 →
        (dedupLoop n i w keys).1.getD a 0 < (dedupLoop n i w keys).1.getD b 0) ∧
      (∀ a, a < (dedupLoop n i w keys).2 →
        ∃ b, b < s.length ∧ (dedupLoop n i w keys).1.getD a 0 = s.getD b 0) ∧
      (∀ b, b < s.length →
        ∃ a, a < (dedupLoop n i w keys).2 ∧ (dedupLoop n i w keys).1.getD a 0 = s.getD b 0) := by
  intro n
  induction n with
  | zero =>
    intro i w keys hi hw1 hwi hlen _ hstrict hm1 hm2
    have hi' : i = s.length := by omega
    subst hi'
    exact ⟨hlen, hw1, hwi, hstrict, hm1, hm2⟩
  | succ n ih =>
    intro i w keys hi hw1 hwi hlen heq hstrict hm1 hm2
    have hiL : i < s.length := by omega
    have e1 : keys.getD i 0 = s.getD i 0 := heq i (by omega)
    have e2 : keys.getD (i - 1) 0 = s.getD (i - 1) 0 := heq (i - 1) (le_refl _)
    have hle : s.getD (i - 1) 0 ≤ s.getD i 0 := sorted_getD s hs _ _ (by omega) hiL
    unfold dedupLoop
    by_cases hne : keys.getD i 0 ≠ keys.getD (i - 1) 0
    · rw [if_pos hne]
      have hlt : s.getD (i - 1) 0 < s.getD i 0 := by
        rw [e1, e2] at hne
        omega
      have hset : ∀ k, (keys.set w (keys.getD i 0)).getD k 0 =
          if k = w then s.getD i 0 else keys.getD k 0 := by
        intro k
        rw [getD_set_nat, e1]
        by_cases hk : k = w
        · rw [if_pos ⟨hk, by omega⟩, if_pos hk]
        · rw [if_neg (fun h => hk h.1), if_neg hk]
      apply ih (i + 1) (w + 1) _ (by omega) (by omega) (by omega) (by simpa using hlen)
      · intro k hk
        rw [hset]
        split
        · next h =>
          have : k = i := by omega
          rw [this]
        · exact heq k (by omega)
      · intro a b hab hb
        rw [hset a, hset b, if_neg (by omega)]
        by_cases hbw : b = w
        · rw [if_pos hbw]
          obtain ⟨b0, hb0, hb0e⟩ := hm1 a (by omega)
          rw [hb0e]
          have := sorted_getD s hs b0 (i - 1) (by omega) (by omega)
          omega
        · rw [if_neg hbw]
          exact hstrict a b hab (by omega)
      · intro a ha
        rw [hset a]
        by_cases haw : a = w
        · rw [if_pos haw]
          exact ⟨i, by omega, rfl⟩
        · rw [if_neg haw]
          obtain ⟨b0, hb0, hb0e⟩ := hm1 a (by omega)
          exact ⟨b0, by omega, hb0e⟩
      · intro b hb
        by_cases hbi : b = i
        · subst hbi
          exact ⟨w, by omega, by rw [hset, if_pos rfl]⟩
        · obtain ⟨a0, ha0, ha0e⟩ := hm2 b (by omega)
          exact ⟨a0, by omega, by rw [hset, if_neg (by omega)]; exact ha0e⟩
    · rw [if_neg hne]
      have heq' : s.getD i 0 = s.getD (i - 1) 0 := by
        rw [← e1, ← e2]
        exact not_not.1 hne
      apply ih (i + 1) w keys (by omega) hw1 (by omega) hlen
      · intro k hk
        exact heq k (by omega)
      · exact hstrict
      · intro a ha
        obtain ⟨b0, hb0, hb0e⟩ := hm1 a ha
        exact ⟨b0, by omega, hb0e⟩
      · intro b hb
        by_cases hbi : b = i
        · subst hbi
          obtain ⟨a0, ha0, ha0e⟩ := hm2 (b - 1) (by omega)
          exact ⟨a0, ha0, by rw [ha0e, heq']⟩
        · exact hm2 b (by omega)

/-- After `std::sort` and the dedup pass the first `w` slots hold each key of the
input exactly once. -/
theorem sortDedup_spec (keys : List Nat) (hne : 1 ≤ keys.length) :
    (sortDedup keys).1.length = keys.length ∧ 1 ≤ (sortDedup keys).2 ∧
    (sortDedup keys).2 ≤ keys.length ∧
    ((sortDedup keys).1.take (sortDedup keys).2).Nodup ∧
    (∀ x, x ∈ (sortDedup keys).1.take (sortDedup keys).2 ↔ x ∈ keys) := by
  have hsorted : (keys.insertionSort (· ≤ ·)).Pairwise (· ≤ ·) :=
    List.sorted_insertionSort (· ≤ ·) keys
  have hperm := List.perm_insertionSort (· ≤ ·) keys
  have hL : (keys.insertionSort (· ≤ ·)).length = keys.length := hperm.length_eq
  obtain ⟨h1, h2, h3, h4, h5, h6⟩ := dedupLoop_spec _ hsorted (keys.length - 1) 1 1
    (keys.insertionSort (· ≤ ·)) (by omega) (le_refl _) (le_refl _) rfl
    (fun _ _ => rfl) (fun a b hab hb => by omega)
    (fun a ha => ⟨0, by omega, by have : a = 0 := by omega
                                  rw [this]⟩)
    (fun b hb => ⟨0, by omega, by have : b = 0 := by omega
                                  rw [this]⟩)
  have hw : (sortDedup keys).2 ≤ (sortDedup keys).1.length := by
    unfold sortDedup
    rw [h1]
    exact h3
  refine ⟨by unfold sortDedup; rw [h1, hL], h2, by unfold sortDedup; exact le_of_le_of_eq h3 hL,
    nodup_take_of_strict _ _ hw h4, ?_⟩
  intro x
  rw [mem_take_iff_getD _ _ hw, ← hperm.mem_iff]
  constructor
  · rintro ⟨a, ha, rfl⟩
    obtain ⟨b, hb, hbe⟩ := h5 a ha
    unfold sortDedup
    rw [hbe, getD_eq_getElem_nat _ _ hb]
    exact List.getElem_mem hb
  · intro hx
    obtain ⟨b, hb, rfl⟩ := List.getElem_of_mem hx
    obtain ⟨a, ha, hae⟩ := h6 b hb
    exact ⟨a, ha, by unfold sortDedup; rw [hae, getD_eq_getElem_nat _ _ hb]⟩

/-! ## Generator : pulling the chain to the front -/

theorem swapAt_getD (xs : List Nat) (i j k : Nat) (hi : i < xs.length) (hj : j < xs.length) :
    (swapAt xs i j).getD k 0 =
      if k = j then xs.getD i 0 else if k = i then xs.getD j 0 else xs.getD k 0 := by
  simp only [List.getD_eq_getElem?_getD, swapAt_getElem? xs i j k hi hj]
  split_ifs <;> rfl

theorem nodup_take_of_le (l : List Nat) (p u : Nat) (hpu : p ≤ u) (h : (l.take u).Nodup) :
    (l.take p).Nodup := by
  have : l.take p = (l.take u).take p := by rw [List.take_take, Nat.min_eq_left hpu]
  rw [this]
  exact h.sublist (List.take_sublist _ _)

theorem mem_take_of_le (l : List Nat) (p u : Nat) (hpu : p ≤ u) (x : Nat) (h : x ∈ l.take p) :
    x ∈ l.take u := by
  have : l.take p = (l.take u).take p := by rw [List.take_take, Nat.min_eq_left hpu]
  rw [this] at h
  exact List.mem_of_mem_take h

theorem pullChain_spec (chain keys0 : List Nat) (U : Nat) (hU : U ≤ keys0.length)
    (hnd : (keys0.take U).Nodup) (hchain : ∀ c ∈ chain, c ∈ keys0.take U) :
    ∀ (n i p : Nat) (cs keys : List Nat), i + n = U → p ≤ i → keys.length = keys0.length →
      (keys.take U).Perm (keys0.take U) →
      (∀ x ∈ keys.take p, x ∈ chain) →
      (∀ c ∈ chain, c ∈ keys.take p ∨ c ∈ cs) →
      (∀ k, p ≤ k → k < i → keys.getD k 0 ∉ cs) →
      (∀ c ∈ cs, c ∈ chain) →
      (pullChain chain.length n i p cs keys).1.length = keys0.length ∧
      ((pullChain chain.length n i p cs keys).1.take U).Perm (keys0.take U) ∧
      (pullChain chain.length n i p cs keys).2 ≤ U ∧
      (∀ x ∈ (pullChain chain.length n i p cs keys).1.take (pullChain chain.length n i p cs keys).2,
        x ∈ chain) ∧
      (∀ c ∈ chain,
        c ∈ (pullChain chain.length n i p cs keys).1.take
          (pullChain chain.length n i p cs keys).2) := by
  intro n
  induction n with
  | zero =>
    intro i p cs keys hi hpi hlen hperm h3 h4 h5 _
    have hiU : i = U := by omega
    subst hiU
    refine ⟨hlen, hperm, hpi, h3, ?_⟩
    intro c hc
    rcases h4 c hc with h | h
    · exact h
    · have hcU : c ∈ keys.take i := hperm.mem_iff.2 (hchain c hc)
      obtain ⟨k, hk, rfl⟩ := (mem_take_iff_getD keys i (by omega) c).1 hcU
      by_cases hkp : k < p
      · exact (mem_take_iff_getD keys p (by omega) _).2 ⟨k, hkp, rfl⟩
      · exact absurd h (h5 k (by omega) hk)
  | succ n ih =>
    intro i p cs keys hi hpi hlen hperm h3 h4 h5 h6
    have hiU : i < U := by omega
    have hndU : (keys.take U).Nodup := hperm.nodup_iff.2 hnd
    unfold pullChain
    by_cases hp : p < chain.length
    · rw [if_pos hp]
      by_cases hin : keys.getD i 0 ∈ cs
      · rw [if_pos hin]
        dsimp only
        have hget := swapAt_getD keys p i
        have hpl : p < keys.length := by omega
        have hil : i < keys.length := by omega
        have hxp : (swapAt keys p i).getD p 0 = keys.getD i 0 := by
          rw [hget p hpl hil]
          by_cases hpi' : p = i
          · rw [if_pos hpi']
            subst hpi'
            rfl
          · rw [if_neg hpi', if_pos rfl]
        have hlow : ∀ a, a < p → (swapAt keys p i).getD a 0 = keys.getD a 0 := by
          intro a ha
          rw [hget a hpl hil, if_neg (by omega), if_neg (by omega)]
        have hslen : (swapAt keys p i).length = keys.length := swapAt_length _ _ _
        apply ih (i + 1) (p + 1) _ _ (by omega) (by omega) (by rw [hslen, hlen])
        · rw [swapAt_take keys p i U (by omega) hiU (by omega)]
          exact (swapAt_perm _ _ _ (by rw [List.length_take]; omega)
            (by rw [List.length_take]; omega)).trans hperm
        · intro x hx
          obtain ⟨a, ha, rfl⟩ := (mem_take_iff_getD _ _ (by rw [hslen]; omega) x).1 hx
          by_cases hap : a < p
          · rw [hlow a hap]
            exact h3 _ ((mem_take_iff_getD keys p (by omega) _).2 ⟨a, hap, rfl⟩)
          · have : a = p := by omega
            subst this
            rw [hxp]
            exact h6 _ hin
        · intro c hc
          rcases h4 c hc with h | h
          · left
            obtain ⟨a, ha, rfl⟩ := (mem_take_iff_getD keys p (by omega) c).1 h
            exact (mem_take_iff_getD _ _ (by rw [hslen]; omega) _).2
              ⟨a, by omega, hlow a ha⟩
          · by_cases hcx : c = keys.getD i 0
            · left
              exact (mem_take_iff_getD _ _ (by rw [hslen]; omega) _).2
                ⟨p, by omega, by rw [hxp, hcx]⟩
            · right
              rw [List.mem_filter]
              exact ⟨h, by rw [hxp]; simpa using hcx⟩
        · intro k hk1 hk2 hmem
          rw [List.mem_filter] at hmem
          have hmem1 := hmem.1
          by_cases hki : k = i
          · have hpi2 : p < i := by omega
            rw [hget k hpl hil, if_pos hki] at hmem1
            exact h5 p (le_refl _) hpi2 hmem1
          · rw [hget k hpl hil, if_neg hki, if_neg (by omega)] at hmem1
            exact h5 k (by omega) (by omega) hmem1
        · intro c hc
          exact h6 c (List.mem_filter.1 hc).1
      · rw [if_neg hin]
        apply ih (i + 1) p cs keys (by omega) (by omega) hlen hperm h3 h4 _ h6
        intro k hk1 hk2
        by_cases hki : k = i
        · rw [hki]; exact hin
        · exact h5 k hk1 (by omega)
    · rw [if_neg hp]
      have hndp : (keys.take p).Nodup := nodup_take_of_le keys p U (by omega) hndU
      have hsub : (keys.take p).Subperm chain := List.subperm_of_subset hndp h3
      have hlenp : (keys.take p).length = p := by rw [List.length_take]; omega
      have hpm : (keys.take p).Perm chain := hsub.perm_of_length_le (by rw [hlenp]; omega)
      exact ⟨hlen, hperm, by omega, h3, fun c hc => hpm.mem_iff.2 hc⟩

/-! ## Generator : partial shuffle -/

theorem partialShuffle_spec {σ : Type} (R : RandomEngine σ) (hR : R.Lawful) (U : Nat) :
    ∀ (n i : Nat) (shuf : σ) (keys : List Nat), i + n ≤ U → U ≤ keys.length →
      (partialShuffle R U n i shuf keys).length = keys.length ∧
      ((partialShuffle R U n i shuf keys).take U).Perm (keys.take U) ∧
      ∀ p, p ≤ i → (partialShuffle R U n i shuf keys).take p = keys.take p := by
  intro n
  induction n with
  | zero =>
    intro i shuf keys _ _
    exact ⟨rfl, List.Perm.refl _, fun _ _ => rfl⟩
  | succ n ih =>
    intro i shuf keys hi hU
    unfold partialShuffle
    dsimp only
    have hj := hR.uniformSize_range i (U - 1) shuf (by omega)
    have hslen : (swapAt keys i (R.uniformSize i (U - 1) shuf).1).length = keys.length :=
      swapAt_length _ _ _
    obtain ⟨h1, h2, h3⟩ := ih (i + 1) (R.uniformSize i (U - 1) shuf).2
      (swapAt keys i (R.uniformSize i (U - 1) shuf).1) (by omega) (by rw [hslen]; exact hU)
    refine ⟨by rw [h1, hslen], ?_, ?_⟩
    · refine h2.trans ?_
      rw [swapAt_take keys i _ U (by omega) (by omega) hU]
      exact swapAt_perm _ _ _ (by rw [List.length_take]; omega) (by rw [List.length_take]; omega)
    · intro p hp
      rw [h3 p (by omega)]
      exact swapAt_take_below keys i _ p hp (by omega) (by omega) (by omega)

/-! ## Generator : assembly -/

theorem Graph.mem_edges_addEdge (g : Graph) (hg : g.Inv) (u v : Int)
    (hu : 0 ≤ u ∧ u < g.V) (hv : 0 ≤ v ∧ v < g.V) (a b : Int) :
    (a, b) ∈ (g.addEdge u v).edges ↔ (a, b) ∈ g.edges ∨ (a, b) = (u, v) := by
  rw [Graph.mem_edges, Graph.mem_edges, Graph.addEdge_length]
  unfold Graph.adj
  rw [Graph.addEdge_getD]
  have hlen := hg.2.1
  constructor
  · rintro ⟨h0, hl, hb⟩
    split at hb
    · next hc =>
      rcases List.mem_append.1 hb with h | h
      · exact Or.inl ⟨h0, hl, h⟩
      · rw [List.mem_singleton] at h
        right
        have : a = u := by
          have := hc.2.2.2.2.1
          omega
        rw [this, h]
    · exact Or.inl ⟨h0, hl, hb⟩
  · rintro (⟨h0, hl, hb⟩ | h)
    · refine ⟨h0, hl, ?_⟩
      split
      · exact List.mem_append_left _ hb
      · exact hb
    · rw [Prod.mk.injEq] at h
      obtain ⟨rfl, rfl⟩ := h
      refine ⟨hu.1, by omega, ?_⟩
      split
      · simp
      · next hc =>
        by_contra hcon
        exact hc ⟨hu.1, hv.1, hu.2, hv.2, rfl, by omega, hcon⟩

theorem sum_length_set (l : List (List Int)) (k : Nat) (d : Int) (hk : k < l.length) :
    ((l.set k (l.getD k [] ++ [d])).map List.length).sum = (l.map List.length).sum + 1 := by
  induction l generalizing k with
  | nil => simp at hk
  | cons x xs ih =>
    cases k with
    | zero =>
      simp only [List.set_cons_zero, List.getD_cons_zero, List.map_cons, List.length_append,
        List.length_singleton, List.sum_cons]
      omega
    | succ j =>
      simp only [List.length_cons, Nat.add_lt_add_iff_right] at hk
      simp only [List.set_cons_succ, List.getD_cons_succ, List.map_cons, List.sum_cons]
      rw [ih j hk]
      omega

theorem Graph.edgeCount_addEdge (g : Graph) (hg : g.Inv) (u v : Int)
    (hu : 0 ≤ u ∧ u < g.V) (hv : 0 ≤ v ∧ v < g.V) (hnew : (u, v) ∉ g.edges) :
    (g.addEdge u v).edgeCount = g.edgeCount + 1 := by
  have hlen := hg.2.1
  have hul : u.toNat < g.adjList.length := by omega
  have hnot : v ∉ g.adjList.getD u.toNat [] := by
    intro h
    exact hnew ((Graph.mem_edges g u v).2 ⟨hu.1, hul, h⟩)
  unfold Graph.edgeCount Graph.addEdge
  rw [if_neg (by omega)]
  dsimp only
  rw [if_neg hnot]
  exact sum_length_set g.adjList u.toNat v hul

theorem Graph.edgeCount_new (V : Int) : (Graph.new V).edgeCount = 0 := by
  unfold Graph.edgeCount Graph.new
  simp

theorem Graph.edges_new (V : Int) (e : Int × Int) : e ∉ (Graph.new V).edges := by
  obtain ⟨a, b⟩ := e
  rw [Graph.mem_edges]
  rintro ⟨_, hl, hb⟩
  unfold Graph.adj Graph.new at hb
  simp only [List.getD_eq_getElem?_getD, List.getElem?_replicate] at hb
  split at hb <;> simp at hb

/-- A batch of in-range insertions adds exactly its pairs to the edge set. -/
theorem Graph.mem_edges_addEdges (g : Graph) (hg : g.Inv) (ps : List (Int × Int))
    (hps : ∀ e ∈ ps, (0 ≤ e.1 ∧ e.1 < g.V) ∧ (0 ≤ e.2 ∧ e.2 < g.V)) (a b : Int) :
    (a, b) ∈ (g.addEdges ps).edges ↔ (a, b) ∈ g.edges ∨ (a, b) ∈ ps := by
  induction ps generalizing g with
  | nil => simp [Graph.addEdges]
  | cons e es ih =>
    have he := hps e (List.mem_cons_self _ _)
    show (a, b) ∈ ((g.addEdge e.1 e.2).addEdges es).edges ↔ _
    rw [ih (g.addEdge e.1 e.2) (Graph.addEdge_inv g hg _ _)
      (by intro x hx; rw [Graph.addEdge_V]; exact hps x (List.mem_cons_of_mem _ hx)),
      Graph.mem_edges_addEdge g hg e.1 e.2 he.1 he.2, List.mem_cons]
    tauto

/-- A batch of pairwise distinct, in-range, new pairs grows the edge count by its
length. -/
theorem Graph.edgeCount_addEdges (g : Graph) (hg : g.Inv) (ps : List (Int × Int))
    (hps : ∀ e ∈ ps, (0 ≤ e.1 ∧ e.1 < g.V) ∧ (0 ≤ e.2 ∧ e.2 < g.V))
    (hnd : ps.Nodup) (hnew : ∀ e ∈ ps, e ∉ g.edges) :
    (g.addEdges ps).edgeCount = g.edgeCount + ps.length := by
  induction ps generalizing g with
  | nil => rfl
  | cons e es ih =>
    have he := hps e (List.mem_cons_self _ _)
    rw [List.nodup_cons] at hnd
    show ((g.addEdge e.1 e.2).addEdges es).edgeCount = _
    rw [ih (g.addEdge e.1 e.2) (Graph.addEdge_inv g hg _ _)
      (by intro x hx; rw [Graph.addEdge_V]; exact hps x (List.mem_cons_of_mem _ hx)) hnd.2,
      Graph.edgeCount_addEdge g hg e.1 e.2 he.1 he.2 (hnew e (List.mem_cons_self _ _)),
      List.length_cons]
    · omega
    · intro x hx hmem
      obtain ⟨a, b⟩ := x
      rw [Graph.mem_edges_addEdge g hg e.1 e.2 he.1 he.2] at hmem
      rcases hmem with h | h
      · exact hnew _ (List.mem_cons_of_mem _ hx) h
      · have : (a, b) = e := h
        rw [this] at hx
        exact hnd.1 hx

theorem assemble_eq_addEdges (keys : List Nat) (n i : Nat) (g : Graph)
    (h : i + n ≤ keys.length) :
    assemble keys n i g = g.addEdges (((keys.drop i).take n).map decodeKey) := by
  induction n generalizing i g with
  | zero => simp [assemble, Graph.addEdges]
  | succ n ih =>
    unfold assemble
    dsimp only
    rw [ih (i + 1) _ (by omega)]
    have hi : i < keys.length := by omega
    rw [List.drop_eq_getElem_cons hi, List.take_succ_cons, List.map_cons]
    have : keys.getD i 0 = keys[i] := by
      rw [List.getD_eq_getElem?_getD, List.getElem?_eq_getElem hi, Option.getD_some]
    rw [this]
    rfl

/-! ## Generator : the chain keys -/

theorem perm_length {perm : List Int} {size : Int} (hp : perm.Perm (iota size)) :
    perm.length = size.toNat := by
  rw [hp.length_eq, length_iota]

theorem perm_getD_mem {perm : List Int} {size : Int} (hp : perm.Perm (iota size)) (k : Nat)
    (hk : k < size.toNat) : perm.getD k 0 ∈ perm := by
  have hk' : k < perm.length := by rw [perm_length hp]; exact hk
  rw [List.getD_eq_getElem?_getD, List.getElem?_eq_getElem hk', Option.getD_some]
  exact List.getElem_mem hk'

theorem perm_getD_range {perm : List Int} {size : Int} (hp : perm.Perm (iota size)) (k : Nat)
    (hk : k < size.toNat) : 0 ≤ perm.getD k 0 ∧ perm.getD k 0 < size :=
  (mem_iota size _).1 (hp.mem_iff.1 (perm_getD_mem hp k hk))

theorem perm_getD_inj {perm : List Int} {size : Int} (hp : perm.Perm (iota size)) (a b : Nat)
    (ha : a < size.toNat) (hb : b < size.toNat) (h : perm.getD a 0 = perm.getD b 0) : a = b := by
  have ha' : a < perm.length := by rw [perm_length hp]; exact ha
  have hb' : b < perm.length := by rw [perm_length hp]; exact hb
  have hnd : perm.Nodup := hp.nodup_iff.2 (nodup_iota size)
  rw [List.getD_eq_getElem?_getD, List.getElem?_eq_getElem ha', Option.getD_some,
    List.getD_eq_getElem?_getD, List.getElem?_eq_getElem hb', Option.getD_some] at h
  exact (List.Nodup.getElem_inj_iff hnd).1 h

theorem perm_exists_index {perm : List Int} {size : Int} (hp : perm.Perm (iota size)) (x : Int)
    (hx : 0 ≤ x ∧ x < size) : ∃ k, k < size.toNat ∧ perm.getD k 0 = x := by
  have hmem : x ∈ perm := hp.mem_iff.2 ((mem_iota size x).2 hx)
  obtain ⟨k, hk, rfl⟩ := List.getElem_of_mem hmem
  refine ⟨k, by rw [← perm_length hp]; exact hk, ?_⟩
  rw [List.getD_eq_getElem?_getD, List.getElem?_eq_getElem hk, Option.getD_some]

theorem chainKey_eq {perm : List Int} {size : Int} (hp : perm.Perm (iota size))
    (hs : size < 2147483648) (k : Nat) (hk : k + 1 < size.toNat) :
    chainKey perm k = pack (perm.getD k 0).toNat (perm.getD (k + 1) 0).toNat := by
  have h1 := perm_getD_range hp k (by omega)
  have h2 := perm_getD_range hp (k + 1) hk
  unfold chainKey
  rw [toUInt32_of_nonneg _ h1.1 (by omega), toUInt32_of_nonneg _ h2.1 (by omega)]

theorem chainKey_valid {perm : List Int} {size : Int} (hp : perm.Perm (iota size))
    (hs : size < 2147483648) (k : Nat) (hk : k + 1 < size.toNat) :
    ValidKey size.toNat (chainKey perm k) := by
  have h1 := perm_getD_range hp k (by omega)
  have h2 := perm_getD_range hp (k + 1) hk
  have hne : perm.getD k 0 ≠ perm.getD (k + 1) 0 := by
    intro h
    have := perm_getD_inj hp k (k + 1) (by omega) hk h
    omega
  exact ⟨_, _, by omega, by omega, by omega, chainKey_eq hp hs k hk⟩

theorem chainKey_inj {perm : List Int} {size : Int} (hp : perm.Perm (iota size))
    (hs : size < 2147483648) (a b : Nat) (ha : a + 1 < size.toNat) (hb : b + 1 < size.toNat)
    (h : chainKey perm a = chainKey perm b) : a = b := by
  have h1 := perm_getD_range hp a (by omega)
  have h2 := perm_getD_range hp (a + 1) ha
  have h3 := perm_getD_range hp b (by omega)
  have h4 := perm_getD_range hp (b + 1) hb
  rw [chainKey_eq hp hs a ha, chainKey_eq hp hs b hb] at h
  have := (pack_inj _ _ _ _ (by omega) (by omega) (by omega) (by omega) h).1
  exact perm_getD_inj hp a b (by omega) (by omega) (by omega)

theorem chainKeys_length (perm : List Int) (size : Int) :
    (chainKeys perm size).length = size.toNat - 1 := by
  rw [chainKeys_eq, List.length_map, List.length_range]

theorem mem_chainKeys (perm : List Int) (size : Int) (c : Nat) :
    c ∈ chainKeys perm size ↔ ∃ k, k + 1 < size.toNat ∧ chainKey perm k = c := by
  rw [chainKeys_eq]
  simp only [List.mem_map, List.mem_range]
  constructor
  · rintro ⟨k, hk, rfl⟩
    exact ⟨k, by omega, rfl⟩
  · rintro ⟨k, hk, rfl⟩
    exact ⟨k, by omega, rfl⟩

theorem chainKeys_nodup {perm : List Int} {size : Int} (hp : perm.Perm (iota size))
    (hs : size < 2147483648) : (chainKeys perm size).Nodup := by
  rw [chainKeys_eq]
  apply List.Nodup.map_on _ (List.nodup_range _)
  intro a ha b hb h
  rw [List.mem_range] at ha hb
  exact chainKey_inj hp hs a b (by omega) (by omega) h

theorem chainKeys_valid {perm : List Int} {size : Int} (hp : perm.Perm (iota size))
    (hs : size < 2147483648) : ∀ c ∈ chainKeys perm size, ValidKey size.toNat c := by
  intro c hc
  obtain ⟨k, hk, rfl⟩ := (mem_chainKeys perm size c).1 hc
  exact chainKey_valid hp hs k hk

theorem decodeKey_pack (u v : Nat) (hu : u < 2147483648) (hv : v < 2147483648) :
    decodeKey (pack u v) = ((u : Int), (v : Int)) := by
  unfold decodeKey
  rw [unpackU_pack u v (by omega) (by omega), unpackV_pack u v (by omega) (by omega),
    toInt32_of_lt u hu, toInt32_of_lt v hv]

theorem decodeKey_chainKey {perm : List Int} {size : Int} (hp : perm.Perm (iota size))
    (hs : size < 2147483648) (k : Nat) (hk : k + 1 < size.toNat) :
    decodeKey (chainKey perm k) = (perm.getD k 0, perm.getD (k + 1) 0) := by
  have h1 := perm_getD_range hp k (by omega)
  have h2 := perm_getD_range hp (k + 1) hk
  rw [chainKey_eq hp hs k hk, decodeKey_pack _ _ (by omega) (by omega),
    Int.toNat_of_nonneg h1.1, Int.toNat_of_nonneg h2.1]

/-! ## Generator : the key pool -/

/-- Filling `count` fresh slots behind a valid prefix and running sort + dedup
leaves a pool. -/
theorem fill_pool {σ : Type} (R : RandomEngine σ) (hR : R.Lawful) (size : Int) (h2 : 2 ≤ size)
    (hs : size < 2147483648) (chain pre : List Nat) (count threads seed : Nat)
    (hcount : 1 ≤ count) (ht : 0 < threads)
    (hpre : ∀ x ∈ pre, ValidKey size.toNat x) (hch : ∀ c ∈ chain, c ∈ pre) :
    Pool size.toNat chain
      (sortDedup (parallelFill R (pre ++ List.replicate count 0) pre.length count threads
        size seed)).1
      (sortDedup (parallelFill R (pre ++ List.replicate count 0) pre.length count threads
        size seed)).2 := by
  have hlen0 : (pre ++ List.replicate count 0).length = pre.length + count := by simp
  obtain ⟨f1, f2, f3⟩ := parallelFill_spec R (pre ++ List.replicate count 0) pre.length count
    threads size seed (by omega) ht
  generalize parallelFill R (pre ++ List.replicate count 0) pre.length count threads size seed
    = filled at f1 f2 f3
  have hfl : filled.length = pre.length + count := by rw [f1, hlen0]
  have hvalid : ∀ x ∈ filled, ValidKey size.toNat x := by
    intro x hx
    obtain ⟨k, hk, rfl⟩ := List.getElem_of_mem hx
    by_cases hkp : k < pre.length
    · have e := f2 k (Or.inl hkp)
      rw [List.getElem?_eq_getElem hk, List.getElem?_append_left hkp,
        List.getElem?_eq_getElem hkp] at e
      rw [Option.some.inj e]
      exact hpre _ (List.getElem_mem hkp)
    · obtain ⟨rnd, e⟩ := f3 k (by omega) (by omega)
      rw [List.getElem?_eq_getElem hk] at e
      rw [Option.some.inj e]
      exact sampledKey_valid R hR size h2 hs rnd
  have hpremem : ∀ x ∈ pre, x ∈ filled := by
    intro x hx
    obtain ⟨k, hk, rfl⟩ := List.getElem_of_mem hx
    have e := f2 k (Or.inl hk)
    rw [List.getElem?_append_left hk, List.getElem?_eq_getElem hk] at e
    exact List.mem_iff_getElem?.2 ⟨k, e⟩
  obtain ⟨s1, s2, s3, s4, s5⟩ := sortDedup_spec filled (by omega)
  exact ⟨by rw [s1]; exact s3, s2, s4, fun x hx => hvalid x ((s5 x).1 hx),
    fun c hc => (s5 c).2 (hpremem c (hch c hc))⟩

theorem topUp_done {σ : Type} (R : RandomEngine σ) (threads : Nat) (size : Int)
    (numEdges baseSeed fuel : Nat) (keys : List Nat) (unique : Nat) (h : ¬ unique < numEdges) :
    topUp R threads size numEdges baseSeed fuel keys unique = some (keys, unique) := by
  unfold topUp
  rw [if_neg h]

theorem topUp_zero {σ : Type} (R : RandomEngine σ) (threads : Nat) (size : Int)
    (numEdges baseSeed : Nat) (keys : List Nat) (unique : Nat) (h : unique < numEdges) :
    topUp R threads size numEdges baseSeed 0 keys unique = none := by
  unfold topUp
  rw [if_pos h]

theorem topUp_succ {σ : Type} (R : RandomEngine σ) (threads : Nat) (size : Int)
    (numEdges baseSeed fuel : Nat) (keys : List Nat) (unique : Nat) (h : unique < numEdges) :
    topUp R threads size numEdges baseSeed (fuel + 1) keys unique =
      topUp R threads size numEdges baseSeed fuel
        (sortDedup (parallelFill R
          (keys.take unique ++
            List.replicate (numEdges - unique + max ((numEdges - unique) / 2) 10000) 0)
          unique (numEdges - unique + max ((numEdges - unique) / 2) 10000) threads size
          (splitmix64 (baseSeed ^^^ 0xBF58476D1CE4E5B9)))).1
        (sortDedup (parallelFill R
          (keys.take unique ++
            List.replicate (numEdges - unique + max ((numEdges - unique) / 2) 10000) 0)
          unique (numEdges - unique + max ((numEdges - unique) / 2) 10000) threads size
          (splitmix64 (baseSeed ^^^ 0xBF58476D1CE4E5B9)))).2 := by
  rw [topUp]
  rw [if_pos h]

/-- The top-up loop keeps the pool and, when it returns, has reached `numEdges`. -/
theorem topUp_pool {σ : Type} (R : RandomEngine σ) (hR : R.Lawful) (size : Int) (h2 : 2 ≤ size)
    (hs : size < 2147483648) (chain : List Nat) (threads numEdges baseSeed : Nat)
    (ht : 0 < threads) :
    ∀ (fuel : Nat) (keys : List Nat) (unique : Nat) (out : List Nat × Nat),
      Pool size.toNat chain keys unique →
      topUp R threads size numEdges baseSeed fuel keys unique = some out →
      Pool size.toNat chain out.1 out.2 ∧ numEdges ≤ out.2 := by
  intro fuel
  induction fuel with
  | zero =>
    intro keys unique out hpool h
    by_cases hlt : unique < numEdges
    · rw [topUp_zero _ _ _ _ _ _ _ hlt] at h
      cases h
    · rw [topUp_done _ _ _ _ _ _ _ _ hlt] at h
      cases h
      exact ⟨hpool, by omega⟩
  | succ fuel ih =>
    intro keys unique out hpool h
    by_cases hlt : unique < numEdges
    · rw [topUp_succ _ _ _ _ _ _ _ _ hlt] at h
      refine ih _ _ out ?_ h
      have hl : (keys.take unique).length = unique := by
        rw [List.length_take]
        exact Nat.min_eq_left hpool.le_len
      have := fill_pool R hR size h2 hs chain (keys.take unique)
        (numEdges - unique + max ((numEdges - unique) / 2) 10000) threads
        (splitmix64 (baseSeed ^^^ 0xBF58476D1CE4E5B9)) (by omega) ht hpool.valid hpool.chain_mem
      rw [hl] at this
      exact this
    · rw [topUp_done _ _ _ _ _ _ _ _ hlt] at h
      cases h
      exact ⟨hpool, by omega⟩

/-! ## Generator : the phases together -/

theorem generateGraph_phases {σ : Type} (R : RandomEngine σ) (hw fuel : Nat) (r : σ)
    (size numEdges : Int) (hv : validateArgs size numEdges = none) :
    generateGraph R hw fuel r size numEdges =
      match topUp R (genThreads hw) size numEdges.toNat (genBaseSeed R r size) fuel
          (sortDedup (initialKeys R hw r size numEdges)).1
          (sortDedup (initialKeys R hw r size numEdges)).2 with
      | none => GenResult.outOfFuel
      | some out =>
        GenResult.ok (assemble (finishKeys R r size numEdges out.1 out.2) numEdges.toNat 0
          (Graph.new size)) := by
  unfold generateGraph
  rw [hv]
  unfold genThreads genBaseSeed initialKeys finishKeys toGenerate genBaseSeed genThreads
  dsimp only
  split
  · next heq => rw [heq]
  · next heq => rw [heq]


theorem validateArgs_of_valid (size numEdges : Int) (h1 : 1 ≤ size) (hs : size < 2147483648)
    (h2 : size - 1 ≤ numEdges) (h3 : numEdges ≤ size * (size - 1)) :
    validateArgs size numEdges = none :=
  (validateArgs_eq_none_iff size numEdges ⟨by omega, hs⟩).2 ⟨h1, h2, h3⟩

theorem genThreads_pos (hw : Nat) : 0 < genThreads hw := by
  unfold genThreads
  split <;> omega

theorem toGenerate_pos (size numEdges : Int) : 1 ≤ toGenerate size numEdges := by
  unfold toGenerate
  have : (100000 : Int) ≤ max ((numEdges - (size - 1)) / 50) 100000 := le_max_right _ _
  omega

/-- After steps 1 to 4 the array is a pool that holds every chain key. -/
theorem initial_pool {σ : Type} (R : RandomEngine σ) (hR : R.Lawful) (hw : Nat) (r : σ)
    (size numEdges : Int) (h2 : 2 ≤ size) (hs : size < 2147483648) :
    Pool size.toNat (chainKeys (drawPerm R r size).1 size)
      (sortDedup (initialKeys R hw r size numEdges)).1
      (sortDedup (initialKeys R hw r size numEdges)).2 := by
  have hp := drawPerm_perm R hR r size (by omega)
  have e : (size - 1).toNat = size.toNat - 1 := by omega
  unfold initialKeys
  rw [e, writeChain_initial]
  have := fill_pool R hR size h2 hs (chainKeys (drawPerm R r size).1 size)
    (chainKeys (drawPerm R r size).1 size) (toGenerate size numEdges) (genThreads hw)
    (genBaseSeed R r size) (toGenerate_pos size numEdges) (genThreads_pos hw)
    (chainKeys_valid hp hs) (fun c hc => hc)
  rw [chainKeys_length] at this
  exact this

/-- Step 6 keeps the first `numEdges` keys distinct and valid and puts exactly the
chain keys into the first `size - 1` slots. -/
theorem finishKeys_spec {σ : Type} (R : RandomEngine σ) (hR : R.Lawful) (r : σ)
    (size numEdges : Int) (h1 : 1 ≤ size) (hs : size < 2147483648) (keys : List Nat)
    (unique : Nat)
    (hpool : Pool size.toNat (chainKeys (drawPerm R r size).1 size) keys unique)
    (hN : numEdges.toNat ≤ unique) (hch : size.toNat - 1 ≤ numEdges.toNat) :
    numEdges.toNat ≤ (finishKeys R r size numEdges keys unique).length ∧
    ((finishKeys R r size numEdges keys unique).take numEdges.toNat).Nodup ∧
    (∀ x ∈ (finishKeys R r size numEdges keys unique).take numEdges.toNat,
      ValidKey size.toNat x) ∧
    (∀ c ∈ chainKeys (drawPerm R r size).1 size,
      c ∈ (finishKeys R r size numEdges keys unique).take (size.toNat - 1)) ∧
    (∀ x ∈ (finishKeys R r size numEdges keys unique).take (size.toNat - 1),
      x ∈ chainKeys (drawPerm R r size).1 size) := by
  have hp := drawPerm_perm R hR r size h1
  have hcnd := chainKeys_nodup hp hs
  have hclen := chainKeys_length (drawPerm R r size).1 size
  obtain ⟨q1, q2, q3, q4, q5⟩ := pullChain_spec (chainKeys (drawPerm R r size).1 size) keys
    unique hpool.le_len hpool.nodup hpool.chain_mem unique 0 0
    (chainKeys (drawPerm R r size).1 size) keys (by omega) (le_refl _) rfl (List.Perm.refl _)
    (by intro x hx; simp at hx) (fun c hc => Or.inr hc) (by intro k _ hk; omega)
    (fun c hc => hc)
  unfold finishKeys
  generalize pullChain (chainKeys (drawPerm R r size).1 size).length unique 0 0
    (chainKeys (drawPerm R r size).1 size) keys = pulled at q1 q2 q3 q4 q5 ⊢
  have hle := hpool.le_len
  have hplen : (pulled.1.take pulled.2).length = pulled.2 := by
    rw [List.length_take]
    omega
  have hpnd : (pulled.1.take pulled.2).Nodup :=
    nodup_take_of_le _ _ _ q3 (q2.nodup_iff.2 hpool.nodup)
  have hp1 : pulled.2 ≤ size.toNat - 1 := by
    have := (List.subperm_of_subset hpnd q4).length_le
    omega
  have hp2 : size.toNat - 1 ≤ pulled.2 := by
    have := (List.subperm_of_subset hcnd q5).length_le
    omega
  have hpe : pulled.2 = size.toNat - 1 := by omega
  obtain ⟨s1, s2, s3⟩ := partialShuffle_spec R hR unique (numEdges.toNat - pulled.2) pulled.2
    (R.seed (splitmix64 (genBaseSeed R r size ^^^ 0x94D049BB133111EB))) pulled.1
    (by omega) (by omega)
  generalize partialShuffle R unique (numEdges.toNat - pulled.2) pulled.2
    (R.seed (splitmix64 (genBaseSeed R r size ^^^ 0x94D049BB133111EB))) pulled.1 = k5
    at s1 s2 s3 ⊢
  have hUnd : (k5.take unique).Nodup := (s2.trans q2).nodup_iff.2 hpool.nodup
  have hfront : k5.take (size.toNat - 1) = pulled.1.take (size.toNat - 1) := by
    rw [← hpe]
    exact s3 pulled.2 (le_refl _)
  refine ⟨by omega, nodup_take_of_le _ _ _ hN hUnd, ?_, ?_, ?_⟩
  · intro x hx
    exact hpool.valid x ((s2.trans q2).mem_iff.1 (mem_take_of_le _ _ _ hN x hx))
  · intro c hc
    rw [hfront, ← hpe]
    exact q5 c hc
  · intro x hx
    rw [hfront, ← hpe] at hx
    exact q4 x hx

/-- The graph assembled from a prefix of distinct valid keys stores exactly the
decoded pairs, one edge per key. -/
theorem assemble_spec (size : Int) (h1 : 1 ≤ size) (hs : size < 2147483648) (keys : List Nat)
    (N : Nat) (hN : N ≤ keys.length) (hnd : (keys.take N).Nodup)
    (hvalid : ∀ x ∈ keys.take N, ValidKey size.toNat x) :
    (assemble keys N 0 (Graph.new size)).edgeCount = N ∧
    (assemble keys N 0 (Graph.new size)).V = size ∧
    ∀ a b, (a, b) ∈ (assemble keys N 0 (Graph.new size)).edges ↔
      ∃ x ∈ keys.take N, decodeKey x = (a, b) := by
  rw [assemble_eq_addEdges keys N 0 _ (by omega), List.drop_zero]
  have hinv := Graph.new_inv size (by omega)
  have hdec : ∀ x ∈ keys.take N, ∃ u v : Nat, u < size.toNat ∧ v < size.toNat ∧ u ≠ v ∧
      x = pack u v ∧ decodeKey x = ((u : Int), (v : Int)) := by
    intro x hx
    obtain ⟨u, v, hu, hv, huv, rfl⟩ := hvalid x hx
    exact ⟨u, v, hu, hv, huv, rfl, decodeKey_pack u v (by omega) (by omega)⟩
  have hps : ∀ e ∈ (keys.take N).map decodeKey,
      (0 ≤ e.1 ∧ e.1 < (Graph.new size).V) ∧ (0 ≤ e.2 ∧ e.2 < (Graph.new size).V) := by
    intro e he
    obtain ⟨x, hx, rfl⟩ := List.mem_map.1 he
    obtain ⟨u, v, hu, hv, -, -, hd⟩ := hdec x hx
    rw [hd]
    show (0 ≤ (u : Int) ∧ (u : Int) < size) ∧ (0 ≤ (v : Int) ∧ (v : Int) < size)
    omega
  have hpnd : ((keys.take N).map decodeKey).Nodup := by
    apply List.Nodup.map_on _ hnd
    intro x hx y hy hxy
    obtain ⟨u, v, -, -, -, rfl, hd⟩ := hdec x hx
    obtain ⟨u', v', -, -, -, rfl, hd'⟩ := hdec y hy
    rw [hd, hd', Prod.mk.injEq] at hxy
    have e1 : u = u' := by omega
    have e2 : v = v' := by omega
    rw [e1, e2]
  refine ⟨?_, ?_, ?_⟩
  · rw [Graph.edgeCount_addEdges _ hinv _ hps hpnd (fun e _ => Graph.edges_new size e),
      Graph.edgeCount_new, List.length_map, List.length_take]
    omega
  · rw [Graph.addEdges_V]
    rfl
  · intro a b
    rw [Graph.mem_edges_addEdges _ hinv _ hps, List.mem_map]
    constructor
    · rintro (h | h)
      · exact absurd h (Graph.edges_new size _)
      · exact h
    · intro h
      exact Or.inr h

/-- For `size ≥ 2`: a returned graph is assembled from `numEdges` distinct valid
keys whose first `size - 1` are exactly the chain keys. -/
theorem generateGraph_ok_spec {σ : Type} (R : RandomEngine σ) (hR : R.Lawful) (hw fuel : Nat)
    (r : σ) (size numEdges : Int) (h2 : 2 ≤ size) (hs : size < 2147483648)
    (hlo : size - 1 ≤ numEdges) (hhi : numEdges ≤ size * (size - 1)) (g : Graph)
    (hg : generateGraph R hw fuel r size numEdges = GenResult.ok g) :
    ∃ keys : List Nat, g = assemble keys numEdges.toNat 0 (Graph.new size) ∧
      numEdges.toNat ≤ keys.length ∧ (keys.take numEdges.toNat).Nodup ∧
      (∀ x ∈ keys.take numEdges.toNat, ValidKey size.toNat x) ∧
      (∀ c ∈ chainKeys (drawPerm R r size).1 size, c ∈ keys.take (size.toNat - 1)) ∧
      (∀ x ∈ keys.take (size.toNat - 1), x ∈ chainKeys (drawPerm R r size).1 size) := by
  rw [generateGraph_phases R hw fuel r size numEdges
    (validateArgs_of_valid size numEdges (by omega) hs hlo hhi)] at hg
  have hpool0 := initial_pool R hR hw r size numEdges h2 hs
  cases ht : topUp R (genThreads hw) size numEdges.toNat (genBaseSeed R r size) fuel
      (sortDedup (initialKeys R hw r size numEdges)).1
      (sortDedup (initialKeys R hw r size numEdges)).2 with
  | none =>
    rw [ht] at hg
    cases hg
  | some out =>
    rw [ht] at hg
    simp only [GenResult.ok.injEq] at hg
    obtain ⟨hpool, hN⟩ := topUp_pool R hR size h2 hs _ (genThreads hw) numEdges.toNat
      (genBaseSeed R r size) (genThreads_pos hw) fuel _ _ out hpool0 ht
    obtain ⟨f1, f2, f3, f4, f5⟩ := finishKeys_spec R hR r size numEdges (by omega) hs out.1
      out.2 hpool hN (by omega)
    exact ⟨_, hg.symm, f1, f2, f3, f4, f5⟩

/-- With `numEdges = size - 1` the top-up loop is never entered: the call returns
a graph whatever the fuel. -/
theorem generateGraph_chain_returns {σ : Type} (R : RandomEngine σ) (hR : R.Lawful)
    (hw fuel : Nat) (r : σ) (size : Int) (h1 : 1 ≤ size) (hs : size < 2147483648) :
    ∃ g, generateGraph R hw fuel r size (size - 1) = GenResult.ok g := by
  have hhi : size - 1 ≤ size * (size - 1) := by nlinarith
  rw [generateGraph_phases R hw fuel r size (size - 1)
    (validateArgs_of_valid size (size - 1) h1 hs (le_refl _) hhi)]
  have hdone : ¬ (sortDedup (initialKeys R hw r size (size - 1))).2 < (size - 1).toNat := by
    by_cases h2 : 2 ≤ size
    · have hpool := initial_pool R hR hw r size (size - 1) h2 hs
      have hp := drawPerm_perm R hR r size h1
      have := (List.subperm_of_subset (chainKeys_nodup hp hs) hpool.chain_mem).length_le
      rw [chainKeys_length, List.length_take] at this
      omega
    · have : (size - 1).toNat = 0 := by omega
      rw [this]
      omega
  rw [topUp_done _ _ _ _ _ _ _ _ hdone]
  exact ⟨_, rfl⟩

/-- The minimal input: one vertex, no edge. -/
theorem generateGraph_single {σ : Type} (R : RandomEngine σ) (hw fuel : Nat) (r : σ) :
    generateGraph R hw fuel r 1 0 = GenResult.ok (Graph.new 1) := by
  rw [generateGraph_phases R hw fuel r 1 0 (by decide)]
  rw [topUp_done _ _ _ _ _ _ _ _ (by simp)]
  rfl

theorem counterEngine_lawful : counterEngine.Lawful := by
  refine ⟨?_, ?_, ?_⟩
  · intro s
    exact Nat.mod_lt _ (by decide)
  · intro a b s hab
    show a ≤ a + ((s % ((b - a).toNat + 1) : Nat) : Int) ∧
      a + ((s % ((b - a).toNat + 1) : Nat) : Int) ≤ b
    have := Nat.mod_lt s (show 0 < (b - a).toNat + 1 by omega)
    omega
  · intro a b s hab
    show a ≤ a + s % (b - a + 1) ∧ a + s % (b - a + 1) ≤ b
    have := Nat.mod_lt s (show 0 < b - a + 1 by omega)
    omega

/-! ## Generator : a run with sampled edges -/

theorem lowEngine_lawful : lowEngine.Lawful := by
  refine ⟨?_, ?_, ?_⟩
  · intro s
    show (0 : Nat) < 18446744073709551616
    decide
  · intro a b s hab
    exact ⟨le_refl a, hab⟩
  · intro a b s hab
    exact ⟨le_refl a, hab⟩

/-- The first slot behind the chain holds a sampled key. -/
theorem initialKeys_sampled {σ : Type} (R : RandomEngine σ) (hw : Nat) (r : σ)
    (size numEdges : Int) :
    ∃ rnd, sampledKey R size rnd ∈ initialKeys R hw r size numEdges := by
  unfold initialKeys
  obtain ⟨-, -, f3⟩ := parallelFill_spec R
    (writeChain (drawPerm R r size).1 (size.toNat - 1) 1
      (List.replicate ((size - 1).toNat + toGenerate size numEdges) 0))
    (size - 1).toNat (toGenerate size numEdges) (genThreads hw) size (genBaseSeed R r size)
    (by rw [writeChain_length, List.length_replicate]) (genThreads_pos hw)
  have hpos := toGenerate_pos size numEdges
  obtain ⟨rnd, e⟩ := f3 (size - 1).toNat (le_refl _) (by omega)
  exact ⟨rnd, List.mem_iff_getElem?.2 ⟨_, e⟩⟩

/-- With the engine `lowEngine`, two vertices and two requested edges, the first
fill already yields both edges `1 → 0` (chain) and `0 → 1` (sampled), so the call
returns a graph whatever the fuel. -/
theorem generateGraph_low_returns (hw fuel : Nat) :
    ∃ g, generateGraph lowEngine hw fuel () 2 2 = GenResult.ok g := by
  rw [generateGraph_phases lowEngine hw fuel () 2 2 (by decide)]
  have hpool := initial_pool lowEngine lowEngine_lawful hw () 2 2 (by decide) (by decide)
  obtain ⟨s1, s2, s3, s4, s5⟩ := sortDedup_spec (initialKeys lowEngine hw () 2 2) (by
    unfold initialKeys
    rw [(parallelFill_spec lowEngine _ _ _ _ _ _
      (by rw [writeChain_length, List.length_replicate]) (genThreads_pos hw)).1,
      writeChain_length, List.length_replicate]
    have := toGenerate_pos 2 2
    omega)
  have hchain : 4294967296 ∈ (sortDedup (initialKeys lowEngine hw () 2 2)).1.take
      (sortDedup (initialKeys lowEngine hw () 2 2)).2 :=
    hpool.chain_mem _ (by decide)
  have hsample : 1 ∈ (sortDedup (initialKeys lowEngine hw () 2 2)).1.take
      (sortDedup (initialKeys lowEngine hw () 2 2)).2 := by
    obtain ⟨rnd, hr⟩ := initialKeys_sampled lowEngine hw () 2 2
    have e : sampledKey lowEngine 2 rnd = 1 := by cases rnd; decide
    rw [e] at hr
    exact (s5 1).2 hr
  have hsub : [4294967296, 1].Subperm ((sortDedup (initialKeys lowEngine hw () 2 2)).1.take
      (sortDedup (initialKeys lowEngine hw () 2 2)).2) := by
    apply List.subperm_of_subset (by decide)
    intro x hx
    rcases List.mem_cons.1 hx with rfl | hx
    · exact hchain
    · rw [List.mem_singleton] at hx
      rw [hx]
      exact hsample
  have hlen := hsub.length_le
  rw [List.length_take] at hlen
  have hdone : ¬ (sortDedup (initialKeys lowEngine hw () 2 2)).2 < (2 : Int).toNat := by
    have : (2 : Int).toNat = 2 := rfl
    rw [this]
    simp only [List.length_cons, List.length_nil] at hlen
    omega
  rw [topUp_done _ _ _ _ _ _ _ _ hdone]
  exact ⟨_, rfl⟩

/-! ## Generator : the returned graph -/

theorem numEdges_zero_of_single (numEdges : Int) (hlo : (1 : Int) - 1 ≤ numEdges)
    (hhi : numEdges ≤ 1 * (1 - 1)) : numEdges = 0 := by
  omega

/-- C2: for valid `(size, numEdges)` (`size ≥ 1`, `size - 1 ≤ numEdges ≤
size * (size - 1)`, `size` a 32-bit value) and every state `r` of the supplied
engine, a graph returned by `generateGraph` (the top-up loop finished) stores
exactly `numEdges` edges, summed over all adjacency lists. -/
theorem generateGraph_edge_count {σ : Type} (R : RandomEngine σ) (hR : R.Lawful)
    (hw fuel : Nat) (r : σ) (size numEdges : Int) (h1 : 1 ≤ size) (hs : size < 2147483648)
    (hlo : size - 1 ≤ numEdges) (hhi : numEdges ≤ size * (size - 1)) (g : Graph)
    (hg : generateGraph R hw fuel r size numEdges = GenResult.ok g) :
    (g.edgeCount : Int) = numEdges := by
  by_cases h2 : 2 ≤ size
  · obtain ⟨keys, rfl, k1, k2, k3, -, -⟩ :=
      generateGraph_ok_spec R hR hw fuel r size numEdges h2 hs hlo hhi g hg
    rw [(assemble_spec size h1 hs keys numEdges.toNat k1 k2 k3).1]
    omega
  · have hsize : size = 1 := by omega
    subst hsize
    have hn := numEdges_zero_of_single numEdges hlo hhi
    subst hn
    rw [generateGraph_single] at hg
    cases hg
    rw [Graph.edgeCount_new]
    rfl

theorem generateGraph_edge_count_witness :
    (∃ g, generateGraph lowEngine 4 0 () 2 2 = GenResult.ok g ∧ (g.edgeCount : Int) = 2) ∧
    (∃ g, generateGraph counterEngine 4 0 42 5 4 = GenResult.ok g ∧
      (g.edgeCount : Int) = 4) := by
  obtain ⟨g, hg⟩ := generateGraph_low_returns 4 0
  obtain ⟨g', hg'⟩ := generateGraph_chain_returns counterEngine counterEngine_lawful 4 0 42 5
    (by decide) (by decide)
  exact ⟨⟨g, hg, generateGraph_edge_count lowEngine lowEngine_lawful 4 0 () 2 2
      (by decide) (by decide) (by decide) (by decide) g hg⟩,
    ⟨g', hg', generateGraph_edge_count counterEngine counterEngine_lawful 4 0 42 5 4
      (by decide) (by decide) (by decide) (by decide) g' hg'⟩⟩

/-- C5: for valid `(size, numEdges)` and every state of the supplied engine, no edge
`(u, v)` stored in a graph returned by `generateGraph` has `u = v`; and for
`size ≥ 2` every chain key built from the permutation and every key the sampling
loop of `parallelFill` writes encodes a pair of distinct vertices below `size`. -/
theorem generateGraph_no_self_loop {σ : Type} (R : RandomEngine σ) (hR : R.Lawful)
    (hw fuel : Nat) (r : σ) (size numEdges : Int) (h1 : 1 ≤ size) (hs : size < 2147483648)
    (hlo : size - 1 ≤ numEdges) (hhi : numEdges ≤ size * (size - 1)) (g : Graph)
    (hg : generateGraph R hw fuel r size numEdges = GenResult.ok g) :
    (∀ u v, (u, v) ∈ g.edges → u ≠ v) ∧
    (2 ≤ size →
      (∀ c ∈ chainKeys (drawPerm R r size).1 size, ValidKey size.toNat c) ∧
      (∀ rnd, ValidKey size.toNat (sampledKey R size rnd))) := by
  refine ⟨?_, fun h2 => ⟨chainKeys_valid (drawPerm_perm R hR r size h1) hs,
    fun rnd => sampledKey_valid R hR size h2 hs rnd⟩⟩
  intro u v huv
  by_cases h2 : 2 ≤ size
  · obtain ⟨keys, rfl, k1, k2, k3, -, -⟩ :=
      generateGraph_ok_spec R hR hw fuel r size numEdges h2 hs hlo hhi g hg
    obtain ⟨x, hx, hd⟩ :=
      ((assemble_spec size h1 hs keys numEdges.toNat k1 k2 k3).2.2 u v).1 huv
    obtain ⟨a, b, ha, hb, hab, rfl⟩ := k3 x hx
    rw [decodeKey_pack a b (by omega) (by omega), Prod.mk.injEq] at hd
    omega
  · have hsize : size = 1 := by omega
    subst hsize
    have hn := numEdges_zero_of_single numEdges hlo hhi
    subst hn
    rw [generateGraph_single] at hg
    cases hg
    exact absurd huv (Graph.edges_new 1 _)

theorem generateGraph_no_self_loop_witness :
    ∃ g, generateGraph lowEngine 4 0 () 2 2 = GenResult.ok g ∧
      (∀ u v, (u, v) ∈ g.edges → u ≠ v) ∧
      (∀ c ∈ chainKeys (drawPerm lowEngine () 2).1 2, ValidKey 2 c) ∧
      (∀ rnd, ValidKey 2 (sampledKey lowEngine 2 rnd)) := by
  obtain ⟨g, hg⟩ := generateGraph_low_returns 4 0
  have h := generateGraph_no_self_loop lowEngine lowEngine_lawful 4 0 () 2 2
    (by decide) (by decide) (by decide) (by decide) g hg
  exact ⟨g, hg, h.1, h.2 (by decide)⟩

theorem Graph.linked_symm (g : Graph) : Symmetric g.Linked := fun _ _ h => Or.symm h

/-- Along the permutation every entry is weakly reachable from the first one,
once every chain edge is stored. -/
theorem weakReach_along_perm (g : Graph) (perm : List Int) (n : Nat)
    (hchain : ∀ k, k + 1 < n → (perm.getD k 0, perm.getD (k + 1) 0) ∈ g.edges) :
    ∀ k, k < n → g.WeakReach (perm.getD 0 0) (perm.getD k 0) := by
  intro k
  induction k with
  | zero => intro _; exact Relation.ReflTransGen.refl
  | succ k ih =>
    intro hk
    exact Relation.ReflTransGen.tail (ih (by omega)) (Or.inl (hchain k hk))

/-- Connectivity of a returned graph: for valid `(size, numEdges)` and every state
of the supplied engine, whenever `generateGraph` returns a graph it is weakly
connected: with every stored edge read as undirected, each vertex of `[0, size)` is
reachable from each other one. Whether a graph is returned is not part of this
statement. -/
theorem generateGraph_weakly_connected {σ : Type} (R : RandomEngine σ) (hR : R.Lawful)
    (hw fuel : Nat) (r : σ) (size numEdges : Int) (h1 : 1 ≤ size) (hs : size < 2147483648)
    (hlo : size - 1 ≤ numEdges) (hhi : numEdges ≤ size * (size - 1)) (g : Graph)
    (hg : generateGraph R hw fuel r size numEdges = GenResult.ok g) :
    ∀ a b : Int, 0 ≤ a ∧ a < size → 0 ≤ b ∧ b < size → g.WeakReach a b := by
  intro a b ha hb
  by_cases h2 : 2 ≤ size
  · obtain ⟨keys, rfl, k1, k2, k3, k4, -⟩ :=
      generateGraph_ok_spec R hR hw fuel r size numEdges h2 hs hlo hhi g hg
    have hp := drawPerm_perm R hR r size h1
    have hedges := (assemble_spec size h1 hs keys numEdges.toNat k1 k2 k3).2.2
    have hchain : ∀ k, k + 1 < size.toNat →
        ((drawPerm R r size).1.getD k 0, (drawPerm R r size).1.getD (k + 1) 0) ∈
          (assemble keys numEdges.toNat 0 (Graph.new size)).edges := by
      intro k hk
      rw [hedges]
      refine ⟨chainKey (drawPerm R r size).1 k, ?_, decodeKey_chainKey hp hs k hk⟩
      apply mem_take_of_le keys (size.toNat - 1) numEdges.toNat (by omega)
      exact k4 _ ((mem_chainKeys _ _ _).2 ⟨k, hk, rfl⟩)
    have hreach := weakReach_along_perm _ (drawPerm R r size).1 size.toNat hchain
    obtain ⟨i, hi, rfl⟩ := perm_exists_index hp a ha
    obtain ⟨j, hj, rfl⟩ := perm_exists_index hp b hb
    exact Relation.ReflTransGen.trans
      (Relation.ReflTransGen.symmetric (Graph.linked_symm _) (hreach i hi)) (hreach j hj)
  · have hab : a = b := by omega
    rw [hab]
    exact Relation.ReflTransGen.refl

theorem generateGraph_weakly_connected_witness :
    ∃ g, generateGraph counterEngine 4 0 42 5 4 = GenResult.ok g ∧
      ∀ a b : Int, 0 ≤ a ∧ a < 5 → 0 ≤ b ∧ b < 5 → g.WeakReach a b := by
  obtain ⟨g, hg⟩ := generateGraph_chain_returns counterEngine counterEngine_lawful 4 0 42 5
    (by decide) (by decide)
  exact ⟨g, hg, generateGraph_weakly_connected counterEngine counterEngine_lawful 4 0 42 5 4
    (by decide) (by decide) (by decide) (by decide) g hg⟩

/-- C6: for every `size ≥ 2` (a 32-bit value) and every state of the supplied engine,
`generateGraph` with `numEdges = size - 1` returns a graph, whatever the fuel, whose
edges are exactly the `size - 1` chain edges `perm[i-1] → perm[i]`, `1 ≤ i < size`,
of the drawn permutation `perm` of `0 .. size - 1`: a single directed Hamiltonian
path and nothing else. -/
theorem generateGraph_chain_only {σ : Type} (R : RandomEngine σ) (hR : R.Lawful)
    (hw fuel : Nat) (r : σ) (size : Int) (h2 : 2 ≤ size) (hs : size < 2147483648) :
    ∃ g, generateGraph R hw fuel r size (size - 1) = GenResult.ok g ∧
      (g.edgeCount : Int) = size - 1 ∧
      ((drawPerm R r size).1).Perm (iota size) ∧
      ∀ a b : Int, (a, b) ∈ g.edges ↔
        ∃ i, 1 ≤ i ∧ i < size.toNat ∧
          a = (drawPerm R r size).1.getD (i - 1) 0 ∧ b = (drawPerm R r size).1.getD i 0 := by
  obtain ⟨g, hg⟩ := generateGraph_chain_returns R hR hw fuel r size (by omega) hs
  have hhi : size - 1 ≤ size * (size - 1) := by nlinarith
  have hp := drawPerm_perm R hR r size (by omega)
  obtain ⟨keys, hgk, k1, k2, k3, k4, k5⟩ :=
    generateGraph_ok_spec R hR hw fuel r size (size - 1) h2 hs (le_refl _) hhi g hg
  have hN : (size - 1).toNat = size.toNat - 1 := by omega
  obtain ⟨a1, -, a3⟩ := assemble_spec size (by omega) hs keys (size - 1).toNat k1 k2 k3
  rw [← hgk] at a1 a3
  refine ⟨g, hg, by rw [a1]; omega, hp, ?_⟩
  intro a b
  rw [a3, hN]
  constructor
  · rintro ⟨x, hx, hd⟩
    obtain ⟨k, hk, rfl⟩ := (mem_chainKeys _ _ _).1 (k5 x hx)
    rw [decodeKey_chainKey hp hs k hk, Prod.mk.injEq] at hd
    exact ⟨k + 1, by omega, hk, hd.1.symm, hd.2.symm⟩
  · rintro ⟨i, hi1, hi2, rfl, rfl⟩
    refine ⟨chainKey (drawPerm R r size).1 (i - 1),
      k4 _ ((mem_chainKeys _ _ _).2 ⟨i - 1, by omega, rfl⟩), ?_⟩
    rw [decodeKey_chainKey hp hs (i - 1) (by omega)]
    have : i - 1 + 1 = i := by omega
    rw [this]

theorem generateGraph_chain_only_witness :
    ∃ g, generateGraph counterEngine 4 0 42 5 (5 - 1) = GenResult.ok g ∧
      (g.edgeCount : Int) = 5 - 1 ∧
      ((drawPerm counterEngine 42 5).1).Perm (iota 5) ∧
      ∀ a b : Int, (a, b) ∈ g.edges ↔
        ∃ i, 1 ≤ i ∧ i < (5 : Int).toNat ∧
          a = (drawPerm counterEngine 42 5).1.getD (i - 1) 0 ∧
          b = (drawPerm counterEngine 42 5).1.getD i 0 :=
  generateGraph_chain_only counterEngine counterEngine_lawful 4 0 42 5 (by decide) (by decide)

/-! ## Codec : round trips and order -/

theorem unpackU_eq_div (k : Nat) (hk : k < 18446744073709551616) :
    unpackU k = k / 4294967296 := by
  unfold unpackU
  rw [Nat.shiftRight_eq_div_pow]
  have : k / 2 ^ 32 < 4294967296 := by
    rw [Nat.div_lt_iff_lt_mul (by decide)]
    exact hk
  exact Nat.mod_eq_of_lt this

theorem unpackV_eq_mod (k : Nat) : unpackV k = k % 4294967296 := by
  unfold unpackV
  have : k &&& 0xFFFFFFFF = k % 4294967296 := Nat.and_pow_two_sub_one_eq_mod k 32
  rw [this, Nat.mod_mod]

/-- C11: the key codec is a bijection between pairs of 32-bit values and 64-bit
keys: for 32-bit `u`, `v`, `pack(u, v)` is a 64-bit key with
`unpackU(pack(u, v)) = u` and `unpackV(pack(u, v)) = v`; and for every 64-bit key
`k`, `unpackU(k)` and `unpackV(k)` are 32-bit values with
`pack(unpackU(k), unpackV(k)) = k`. -/
theorem codec_bijection (u v k : Nat) (hu : u < 4294967296) (hv : v < 4294967296)
    (hk : k < 18446744073709551616) :
    (unpackU (pack u v) = u ∧ unpackV (pack u v) = v ∧ pack u v < 18446744073709551616) ∧
    (pack (unpackU k) (unpackV k) = k ∧ unpackU k < 4294967296 ∧ unpackV k < 4294967296) := by
  have hU : unpackU k < 4294967296 := by
    rw [unpackU_eq_div k hk]
    omega
  have hV : unpackV k < 4294967296 := by
    rw [unpackV_eq_mod]
    omega
  refine ⟨⟨unpackU_pack u v hu hv, unpackV_pack u v hu hv, ?_⟩, ?_, hU, hV⟩
  · rw [pack_eq u v hu hv]
    omega
  · rw [pack_eq _ _ hU hV, unpackU_eq_div k hk, unpackV_eq_mod]
    omega

theorem codec_bijection_witness :
    (unpackU (pack 7 4294967295) = 7 ∧ unpackV (pack 7 4294967295) = 4294967295 ∧
      pack 7 4294967295 < 18446744073709551616) ∧
    (pack (unpackU 18446744073709551615) (unpackV 18446744073709551615) =
        18446744073709551615 ∧
      unpackU 18446744073709551615 < 4294967296 ∧
      unpackV 18446744073709551615 < 4294967296) :=
  codec_bijection 7 4294967295 18446744073709551615 (by decide) (by decide) (by decide)

/-- C12: `pack` is strictly order-preserving: for 32-bit unsigned `u1`, `v1`, `u2`,
`v2`, `pack(u1, v1) < pack(u2, v2)` as unsigned 64-bit integers exactly when
`u1 < u2`, or `u1 = u2` and `v1 < v2`. -/
theorem pack_lt_iff_lex (u1 v1 u2 v2 : Nat) (hu1 : u1 < 4294967296) (hv1 : v1 < 4294967296)
    (hu2 : u2 < 4294967296) (hv2 : v2 < 4294967296) :
    pack u1 v1 < pack u2 v2 ↔ (u1 < u2 ∨ (u1 = u2 ∧ v1 < v2)) := by
  rw [pack_eq u1 v1 hu1 hv1, pack_eq u2 v2 hu2 hv2]
  omega

theorem pack_lt_iff_lex_witness :
    pack 1 4294967295 < pack 2 0 ↔ ((1 : Nat) < 2 ∨ ((1 : Nat) = 2 ∧ 4294967295 < 0)) :=
  pack_lt_iff_lex 1 4294967295 2 0 (by decide) (by decide) (by decide) (by decide)


/-! ## Generator : the length of the first array -/

theorem initialKeys_length {σ : Type} (R : RandomEngine σ) (hw : Nat) (r : σ)
    (size numEdges : Int) :
    (initialKeys R hw r size numEdges).length = (size - 1).toNat + toGenerate size numEdges := by
  unfold initialKeys
  rw [(parallelFill_spec R _ _ _ _ _ _
    (by rw [writeChain_length, List.length_replicate]) (genThreads_pos hw)).1,
    writeChain_length, List.length_replicate]

/-! ## parallelFill : the worker seed -/

theorem fillWorker_seed {σ : Type} (R : RandomEngine σ) (offset count chunk : Nat) (size : Int)
    (baseSeed t : Nat) (keys : List Nat) :
    fillWorker R offset count chunk size baseSeed t keys =
      if offset + t * chunk ≥ min (offset + count) (offset + t * chunk + chunk) then keys
      else fillRange R size
        (min (offset + count) (offset + t * chunk + chunk) - (offset + t * chunk))
        (offset + t * chunk) (R.seed (workerSeed baseSeed t)) keys := rfl

/-- C14 (as the code has it): the seed with which worker `t` of `parallelFill`
initialises its engine is `splitmix64((baseSeed + 0x9E3779B97F4A7C15 * t) mod 2^64)`:
the worker index enters before the mixing, by addition of a multiple of the golden
constant. -/
theorem worker_seed_formula {σ : Type} (R : RandomEngine σ) (offset count chunk : Nat)
    (size : Int) (baseSeed t : Nat) (keys : List Nat) :
    workerSeed baseSeed t =
      splitmix64 ((baseSeed + 0x9E3779B97F4A7C15 * t) % 18446744073709551616) ∧
    fillWorker R offset count chunk size baseSeed t keys =
      if offset + t * chunk ≥ min (offset + count) (offset + t * chunk + chunk) then keys
      else fillRange R size
        (min (offset + count) (offset + t * chunk + chunk) - (offset + t * chunk))
        (offset + t * chunk)
        (R.seed (splitmix64 ((baseSeed + 0x9E3779B97F4A7C15 * t) % 18446744073709551616)))
        keys := by
  have e : workerSeed baseSeed t =
      splitmix64 ((baseSeed + 0x9E3779B97F4A7C15 * t) % 18446744073709551616) := by
    unfold workerSeed
    rw [Nat.add_mod_mod]
  refine ⟨e, ?_⟩
  rw [fillWorker_seed, e]

/-- C14 (as stated, refuted): for base seed `0` and worker `1` the seed in the code
is `splitmix64(0x9E3779B97F4A7C15)`, which differs from `0 XOR splitmix64(1)`. -/
theorem worker_seed_not_xor :
    workerSeed 0 1 = 7960286522194355700 ∧ 0 ^^^ splitmix64 1 = 10451216379200822465 ∧
    workerSeed 0 1 ≠ 0 ^^^ splitmix64 1 := by
  decide

/-! ## Generator : the seeds of the top-up loop -/

theorem topUpSeeds_done {σ : Type} (R : RandomEngine σ) (threads : Nat) (size : Int)
    (numEdges baseSeed fuel : Nat) (keys : List Nat) (unique : Nat) (h : ¬ unique < numEdges) :
    topUpSeeds R threads size numEdges baseSeed fuel keys unique = [] := by
  unfold topUpSeeds
  rw [if_neg h]

theorem topUpSeeds_zero {σ : Type} (R : RandomEngine σ) (threads : Nat) (size : Int)
    (numEdges baseSeed : Nat) (keys : List Nat) (unique : Nat) :
    topUpSeeds R threads size numEdges baseSeed 0 keys unique = [] := by
  unfold topUpSeeds
  split <;> rfl

theorem topUpSeeds_succ {σ : Type} (R : RandomEngine σ) (threads : Nat) (size : Int)
    (numEdges baseSeed fuel : Nat) (keys : List Nat) (unique : Nat) (h : unique < numEdges) :
    topUpSeeds R threads size numEdges baseSeed (fuel + 1) keys unique =
      splitmix64 (baseSeed ^^^ 0xBF58476D1CE4E5B9) ::
      topUpSeeds R threads size numEdges baseSeed fuel
        (sortDedup (parallelFill R
          (keys.take unique ++
            List.replicate (numEdges - unique + max ((numEdges - unique) / 2) 10000) 0)
          unique (numEdges - unique + max ((numEdges - unique) / 2) 10000) threads size
          (splitmix64 (baseSeed ^^^ 0xBF58476D1CE4E5B9)))).1
        (sortDedup (parallelFill R
          (keys.take unique ++
            List.replicate (numEdges - unique + max ((numEdges - unique) / 2) 10000) 0)
          unique (numEdges - unique + max ((numEdges - unique) / 2) 10000) threads size
          (splitmix64 (baseSeed ^^^ 0xBF58476D1CE4E5B9)))).2 := by
  rw [topUpSeeds]
  rw [if_pos h]

/-- Every iteration of the top-up loop passes the same base seed. -/
theorem topUpSeeds_const {σ : Type} (R : RandomEngine σ) (threads : Nat) (size : Int)
    (numEdges baseSeed : Nat) :
    ∀ (fuel : Nat) (keys : List Nat) (unique : Nat),
      topUpSeeds R threads size numEdges baseSeed fuel keys unique =
        List.replicate (topUpSeeds R threads size numEdges baseSeed fuel keys unique).length
          (splitmix64 (baseSeed ^^^ 0xBF58476D1CE4E5B9)) := by
  intro fuel
  induction fuel with
  | zero =>
    intro keys unique
    rw [topUpSeeds_zero]
    rfl
  | succ fuel ih =>
    intro keys unique
    by_cases h : unique < numEdges
    · rw [topUpSeeds_succ _ _ _ _ _ _ _ _ h, List.length_cons, List.replicate_succ]
      congr 1
      exact ih _ _
    · rw [topUpSeeds_done _ _ _ _ _ _ _ _ h]
      rfl

/-- The keys in the dedup prefix after a fill come from the kept prefix or from
the sampling loop. -/
theorem fill_members {σ : Type} (R : RandomEngine σ) (size : Int) (pre : List Nat)
    (count threads seed : Nat) (hcount : 1 ≤ count) (ht : 0 < threads) :
    (sortDedup (parallelFill R (pre ++ List.replicate count 0) pre.length count threads
        size seed)).2 ≤
      (sortDedup (parallelFill R (pre ++ List.replicate count 0) pre.length count threads
        size seed)).1.length ∧
    ((sortDedup (parallelFill R (pre ++ List.replicate count 0) pre.length count threads
        size seed)).1.take
      (sortDedup (parallelFill R (pre ++ List.replicate count 0) pre.length count threads
        size seed)).2).Nodup ∧
    ∀ x ∈ (sortDedup (parallelFill R (pre ++ List.replicate count 0) pre.length count threads
        size seed)).1.take
      (sortDedup (parallelFill R (pre ++ List.replicate count 0) pre.length count threads
        size seed)).2,
      x ∈ pre ∨ ∃ rnd, x = sampledKey R size rnd := by
  have hlen0 : (pre ++ List.replicate count 0).length = pre.length + count := by simp
  obtain ⟨f1, f2, f3⟩ := parallelFill_spec R (pre ++ List.replicate count 0) pre.length count
    threads size seed (by omega) ht
  generalize parallelFill R (pre ++ List.replicate count 0) pre.length count threads size seed
    = filled at f1 f2 f3
  have hfl : filled.length = pre.length + count := by rw [f1, hlen0]
  obtain ⟨s1, s2, s3, s4, s5⟩ := sortDedup_spec filled (by omega)
  refine ⟨by rw [s1]; exact s3, s4, ?_⟩
  intro x hx
  obtain ⟨k, hk, rfl⟩ := List.getElem_of_mem ((s5 x).1 hx)
  by_cases hkp : k < pre.length
  · have e := f2 k (Or.inl hkp)
    rw [List.getElem?_eq_getElem hk, List.getElem?_append_left hkp,
      List.getElem?_eq_getElem hkp] at e
    rw [Option.some.inj e]
    exact Or.inl (List.getElem_mem hkp)
  · obtain ⟨rnd, e⟩ := f3 k (by omega) (by omega)
    rw [List.getElem?_eq_getElem hk] at e
    exact Or.inr ⟨rnd, Option.some.inj e⟩

/-- A pool whose distinct keys all lie in a fixed list of three keys. -/
theorem small_pool_bound (keys : List Nat) (unique : Nat) (hle : unique ≤ keys.length)
    (hnd : (keys.take unique).Nodup)
    (hmem : ∀ x ∈ keys.take unique, x ∈ [4294967298, 8589934592, 1]) : unique ≤ 3 := by
  have h := (List.subperm_of_subset hnd hmem).length_le
  rw [List.length_take] at h
  simp only [List.length_cons, List.length_nil] at h
  omega

theorem lowEngine_sampledKey (rnd : Unit) : sampledKey lowEngine 3 rnd = 1 := by
  cases rnd
  decide

/-- With `lowEngine`, three vertices and six requested edges no round of the
top-up loop gains a key: the pool keeps at most three distinct keys. -/
theorem lowEngine_topUp_stuck (threads baseSeed : Nat) (ht : 0 < threads) :
    ∀ (fuel : Nat) (keys : List Nat) (unique : Nat), unique ≤ keys.length →
      (keys.take unique).Nodup →
      (∀ x ∈ keys.take unique, x ∈ [4294967298, 8589934592, 1]) →
      topUp lowEngine threads 3 6 baseSeed fuel keys unique = none ∧
      topUpSeeds lowEngine threads 3 6 baseSeed fuel keys unique =
        List.replicate fuel (splitmix64 (baseSeed ^^^ 0xBF58476D1CE4E5B9)) := by
  intro fuel
  induction fuel with
  | zero =>
    intro keys unique hle hnd hmem
    have hb := small_pool_bound keys unique hle hnd hmem
    exact ⟨topUp_zero _ _ _ _ _ _ _ (by omega), topUpSeeds_zero _ _ _ _ _ _ _⟩
  | succ fuel ih =>
    intro keys unique hle hnd hmem
    have hb := small_pool_bound keys unique hle hnd hmem
    have hlt : unique < 6 := by omega
    have hl : (keys.take unique).length = unique := by
      rw [List.length_take]
      exact Nat.min_eq_left hle
    obtain ⟨m1, m2, m3⟩ := fill_members lowEngine 3 (keys.take unique)
      (6 - unique + max ((6 - unique) / 2) 10000) threads
      (splitmix64 (baseSeed ^^^ 0xBF58476D1CE4E5B9)) (by omega) ht
    rw [hl] at m1 m2 m3
    have hmem' : ∀ x ∈ (sortDedup (parallelFill lowEngine
        (keys.take unique ++ List.replicate (6 - unique + max ((6 - unique) / 2) 10000) 0)
        unique (6 - unique + max ((6 - unique) / 2) 10000) threads 3
        (splitmix64 (baseSeed ^^^ 0xBF58476D1CE4E5B9)))).1.take
        (sortDedup (parallelFill lowEngine
        (keys.take unique ++ List.replicate (6 - unique + max ((6 - unique) / 2) 10000) 0)
        unique (6 - unique + max ((6 - unique) / 2) 10000) threads 3
        (splitmix64 (baseSeed ^^^ 0xBF58476D1CE4E5B9)))).2,
        x ∈ [4294967298, 8589934592, 1] := by
      intro x hx
      rcases m3 x hx with h | ⟨rnd, h⟩
      · exact hmem x h
      · rw [h, lowEngine_sampledKey]
        simp
    obtain ⟨i1, i2⟩ := ih _ _ m1 m2 hmem'
    rw [topUp_succ _ _ _ _ _ _ _ _ hlt, topUpSeeds_succ _ _ _ _ _ _ _ _ hlt, i1, i2]
    exact ⟨rfl, rfl⟩

/-- The pool after the first fill of the run `lowEngine`, `size = 3`,
`numEdges = 6`. -/
theorem lowEngine_initial_small (hw : Nat) :
    (sortDedup (initialKeys lowEngine hw () 3 6)).2 ≤
      (sortDedup (initialKeys lowEngine hw () 3 6)).1.length ∧
    ((sortDedup (initialKeys lowEngine hw () 3 6)).1.take
      (sortDedup (initialKeys lowEngine hw () 3 6)).2).Nodup ∧
    ∀ x ∈ (sortDedup (initialKeys lowEngine hw () 3 6)).1.take
      (sortDedup (initialKeys lowEngine hw () 3 6)).2, x ∈ [4294967298, 8589934592, 1] := by
  have e : ((3 : Int) - 1).toNat = (3 : Int).toNat - 1 := rfl
  have hc : chainKeys (drawPerm lowEngine () 3).1 3 = [4294967298, 8589934592] := by decide
  obtain ⟨m1, m2, m3⟩ := fill_members lowEngine 3 (chainKeys (drawPerm lowEngine () 3).1 3)
    (toGenerate 3 6) (genThreads hw) (genBaseSeed lowEngine () 3) (toGenerate_pos 3 6)
    (genThreads_pos hw)
  rw [chainKeys_length, ← writeChain_initial, ← e] at m1 m2 m3
  refine ⟨m1, m2, ?_⟩
  intro x hx
  rcases m3 x hx with h | ⟨rnd, h⟩
  · rw [hc] at h
    simp only [List.mem_cons, List.mem_singleton, List.not_mem_nil, or_false] at h ⊢
    tauto
  · rw [h, lowEngine_sampledKey]
    simp

/-- C15 (fails on the code): the base seed of a top-up iteration is
`splitmix64(baseSeed XOR 0xBF58476D1CE4E5B9)` computed from the unchanged
`baseSeed`, so the list of seeds of any run is one value repeated; on the run
`lowEngine`, `size = 3`, `numEdges = 6` every iteration passes
`16481712997681181849` (two iterations with fuel `2`), and the loop is still
running whenever the fuel is spent. -/
theorem topUp_reuses_seed :
    (∀ (σ : Type) (R : RandomEngine σ) (threads : Nat) (size : Int)
        (numEdges baseSeed fuel : Nat) (keys : List Nat) (unique : Nat),
      topUpSeeds R threads size numEdges baseSeed fuel keys unique =
        List.replicate (topUpSeeds R threads size numEdges baseSeed fuel keys unique).length
          (splitmix64 (baseSeed ^^^ 0xBF58476D1CE4E5B9))) ∧
    topUpSeeds lowEngine (genThreads 4) 3 6 (genBaseSeed lowEngine () 3) 2
        (sortDedup (initialKeys lowEngine 4 () 3 6)).1
        (sortDedup (initialKeys lowEngine 4 () 3 6)).2 =
      [16481712997681181849, 16481712997681181849] ∧
    (∀ fuel : Nat,
      topUpSeeds lowEngine (genThreads 4) 3 6 (genBaseSeed lowEngine () 3) fuel
          (sortDedup (initialKeys lowEngine 4 () 3 6)).1
          (sortDedup (initialKeys lowEngine 4 () 3 6)).2 =
        List.replicate fuel 16481712997681181849) ∧
    (∀ fuel : Nat, generateGraph lowEngine 4 fuel () 3 6 = GenResult.outOfFuel) := by
  obtain ⟨m1, m2, m3⟩ := lowEngine_initial_small 4
  have hstuck := fun fuel => lowEngine_topUp_stuck (genThreads 4) (genBaseSeed lowEngine () 3)
    (genThreads_pos 4) fuel _ _ m1 m2 m3
  have hseed : splitmix64 (genBaseSeed lowEngine () 3 ^^^ 0xBF58476D1CE4E5B9) =
      16481712997681181849 := by decide
  refine ⟨fun σ R threads size numEdges baseSeed fuel keys unique =>
    topUpSeeds_const R threads size numEdges baseSeed fuel keys unique, ?_, ?_, ?_⟩
  · rw [(hstuck 2).2, hseed]
    rfl
  · intro fuel
    rw [(hstuck fuel).2, hseed]
  · intro fuel
    rw [generateGraph_phases lowEngine 4 fuel () 3 6 (by decide),
      show (6 : Int).toNat = 6 from rfl, (hstuck fuel).1]

/-! ## Generator : the chain survives -/

/-- On a pool, the pull-to-front pass ends with `p = size - 1` and the first
`size - 1` slots a rearrangement of the chain keys. -/
theorem pullChain_pool {σ : Type} (R : RandomEngine σ) (hR : R.Lawful) (r : σ) (size : Int)
    (h1 : 1 ≤ size) (hs : size < 2147483648) (keys : List Nat) (unique : Nat)
    (hpool : Pool size.toNat (chainKeys (drawPerm R r size).1 size) keys unique) :
    (pullChain (chainKeys (drawPerm R r size).1 size).length unique 0 0
      (chainKeys (drawPerm R r size).1 size) keys).2 = size.toNat - 1 ∧
    ((pullChain (chainKeys (drawPerm R r size).1 size).length unique 0 0
      (chainKeys (drawPerm R r size).1 size) keys).1.take (size.toNat - 1)).Perm
      (chainKeys (drawPerm R r size).1 size) ∧
    (pullChain (chainKeys (drawPerm R r size).1 size).length unique 0 0
      (chainKeys (drawPerm R r size).1 size) keys).1.length = keys.length ∧
    size.toNat - 1 ≤ unique := by
  have hp := drawPerm_perm R hR r size h1
  have hcnd := chainKeys_nodup hp hs
  have hclen := chainKeys_length (drawPerm R r size).1 size
  obtain ⟨q1, q2, q3, q4, q5⟩ := pullChain_spec (chainKeys (drawPerm R r size).1 size) keys
    unique hpool.le_len hpool.nodup hpool.chain_mem unique 0 0
    (chainKeys (drawPerm R r size).1 size) keys (by omega) (le_refl _) rfl (List.Perm.refl _)
    (by intro x hx; simp at hx) (fun c hc => Or.inr hc) (by intro k _ hk; omega)
    (fun c hc => hc)
  generalize pullChain (chainKeys (drawPerm R r size).1 size).length unique 0 0
    (chainKeys (drawPerm R r size).1 size) keys = pulled at q1 q2 q3 q4 q5 ⊢
  have hle := hpool.le_len
  have hplen : (pulled.1.take pulled.2).length = pulled.2 := by
    rw [List.length_take]
    omega
  have hpnd : (pulled.1.take pulled.2).Nodup :=
    nodup_take_of_le _ _ _ q3 (q2.nodup_iff.2 hpool.nodup)
  have hp1 : pulled.2 ≤ size.toNat - 1 := by
    have := (List.subperm_of_subset hpnd q4).length_le
    omega
  have hp2 : size.toNat - 1 ≤ pulled.2 := by
    have := (List.subperm_of_subset hcnd q5).length_le
    omega
  have hpe : pulled.2 = size.toNat - 1 := by omega
  refine ⟨hpe, ?_, q1, by omega⟩
  rw [← hpe]
  exact (List.perm_ext_iff_of_nodup hpnd hcnd).2 (fun a => ⟨q4 a, q5 a⟩)

theorem pullChain_empty_chain (n i p : Nat) (cs keys : List Nat) :
    pullChain 0 n i p cs keys = (keys, p) := by
  cases n with
  | zero => rfl
  | succ n =>
    unfold pullChain
    rw [if_neg (Nat.not_lt_zero p)]

/-- The chain in a returned graph: for valid `(size, numEdges)` and every state of
the supplied engine, whenever `generateGraph` returns a graph, every chain edge
`perm[i-1] → perm[i]`, `1 ≤ i < size`, is one of its edges: on the array the top-up
loop returned, the pull-to-front pass ends with `p = size - 1` and the first
`size - 1` slots holding exactly the chain keys, and the partial shuffle leaves
those slots as they are. Whether a graph is returned is not part of this
statement. -/
theorem generateGraph_keeps_chain {σ : Type} (R : RandomEngine σ) (hR : R.Lawful)
    (hw fuel : Nat) (r : σ) (size numEdges : Int) (h1 : 1 ≤ size) (hs : size < 2147483648)
    (hlo : size - 1 ≤ numEdges) (hhi : numEdges ≤ size * (size - 1)) (g : Graph)
    (hg : generateGraph R hw fuel r size numEdges = GenResult.ok g) :
    (∀ i, 1 ≤ i → i < size.toNat →
      ((drawPerm R r size).1.getD (i - 1) 0, (drawPerm R r size).1.getD i 0) ∈ g.edges) ∧
    ∃ keys unique,
      topUp R (genThreads hw) size numEdges.toNat (genBaseSeed R r size) fuel
        (sortDedup (initialKeys R hw r size numEdges)).1
        (sortDedup (initialKeys R hw r size numEdges)).2 = some (keys, unique) ∧
      g = assemble (finishKeys R r size numEdges keys unique) numEdges.toNat 0
        (Graph.new size) ∧
      (pullChain (chainKeys (drawPerm R r size).1 size).length unique 0 0
        (chainKeys (drawPerm R r size).1 size) keys).2 = size.toNat - 1 ∧
      ((pullChain (chainKeys (drawPerm R r size).1 size).length unique 0 0
        (chainKeys (drawPerm R r size).1 size) keys).1.take (size.toNat - 1)).Perm
        (chainKeys (drawPerm R r size).1 size) ∧
      (finishKeys R r size numEdges keys unique).take (size.toNat - 1) =
        (pullChain (chainKeys (drawPerm R r size).1 size).length unique 0 0
          (chainKeys (drawPerm R r size).1 size) keys).1.take (size.toNat - 1) := by
  have hg0 := hg
  rw [generateGraph_phases R hw fuel r size numEdges
    (validateArgs_of_valid size numEdges h1 hs hlo hhi)] at hg
  cases ht : topUp R (genThreads hw) size numEdges.toNat (genBaseSeed R r size) fuel
      (sortDedup (initialKeys R hw r size numEdges)).1
      (sortDedup (initialKeys R hw r size numEdges)).2 with
  | none =>
    rw [ht] at hg
    cases hg
  | some out =>
    rw [ht] at hg
    simp only [GenResult.ok.injEq] at hg
    by_cases h2 : 2 ≤ size
    · have hp := drawPerm_perm R hR r size h1
      obtain ⟨hpool, hN⟩ := topUp_pool R hR size h2 hs _ (genThreads hw) numEdges.toNat
        (genBaseSeed R r size) (genThreads_pos hw) fuel _ _ out
        (initial_pool R hR hw r size numEdges h2 hs) ht
      obtain ⟨p1, p2, p3, p4⟩ := pullChain_pool R hR r size h1 hs out.1 out.2 hpool
      obtain ⟨f1, f2, f3, f4, -⟩ := finishKeys_spec R hR r size numEdges h1 hs out.1 out.2
        hpool hN (by omega)
      have hfront : (finishKeys R r size numEdges out.1 out.2).take (size.toNat - 1) =
          (pullChain (chainKeys (drawPerm R r size).1 size).length out.2 0 0
            (chainKeys (drawPerm R r size).1 size) out.1).1.take (size.toNat - 1) := by
        unfold finishKeys
        rw [p1]
        exact (partialShuffle_spec R hR out.2 (numEdges.toNat - (size.toNat - 1))
          (size.toNat - 1) _ _ (by omega) (by rw [p3]; exact hpool.le_len)).2.2
          (size.toNat - 1) (le_refl _)
      refine ⟨?_, out.1, out.2, rfl, hg.symm, p1, p2, hfront⟩
      intro i hi1 hi2
      rw [← hg, (assemble_spec size h1 hs _ numEdges.toNat f1 f2 f3).2.2]
      refine ⟨chainKey (drawPerm R r size).1 (i - 1), ?_, ?_⟩
      · apply mem_take_of_le _ (size.toNat - 1) numEdges.toNat (by omega)
        exact f4 _ ((mem_chainKeys _ _ _).2 ⟨i - 1, by omega, rfl⟩)
      · rw [decodeKey_chainKey hp hs (i - 1) (by omega)]
        have : i - 1 + 1 = i := by omega
        rw [this]
    · have hsize : size = 1 := by omega
      subst hsize
      have hc : chainKeys (drawPerm R r 1).1 1 = [] := by
        rw [chainKeys_eq]
        rfl
      refine ⟨?_, out.1, out.2, rfl, hg.symm, ?_, ?_, ?_⟩
      · intro i hi1 hi2
        have : (1 : Int).toNat = 1 := rfl
        omega
      · rw [hc]
        exact congrArg Prod.snd (pullChain_empty_chain out.2 0 0 [] out.1)
      · rw [hc]
        exact List.Perm.refl _
      · rfl

theorem generateGraph_keeps_chain_witness :
    ∃ g, generateGraph lowEngine 4 0 () 2 2 = GenResult.ok g ∧
      (∀ i, 1 ≤ i → i < (2 : Int).toNat →
        ((drawPerm lowEngine () 2).1.getD (i - 1) 0, (drawPerm lowEngine () 2).1.getD i 0) ∈
          g.edges) := by
  obtain ⟨g, hg⟩ := generateGraph_low_returns 4 0
  exact ⟨g, hg, (generateGraph_keeps_chain lowEngine lowEngine_lawful 4 0 () 2 2
    (by decide) (by decide) (by decide) (by decide) g hg).1⟩

/-! ## parallelFill : the skip-over step -/

theorem sampledKey_skipOver {σ : Type} (R : RandomEngine σ) (size : Int) (rnd : σ) :
    sampledKey R size rnd =
      pack (toUInt32 (R.uniformInt 0 (size - 1) rnd).1)
        (toUInt32 (skipOver (R.uniformInt 0 (size - 1) rnd).1
          (R.uniformInt 0 (size - 2) (R.uniformInt 0 (size - 1) rnd).2).1)) := rfl

theorem skipOver_range (size u v : Int) (hv : 0 ≤ v ∧ v < size - 1) :
    0 ≤ skipOver u v ∧ skipOver u v < size ∧ skipOver u v ≠ u := by
  unfold skipOver
  split <;> omega

theorem skipOver_inj (u v w : Int) (h : skipOver u v = skipOver u w) : v = w := by
  unfold skipOver at h
  split at h <;> split at h <;> omega

theorem skipOver_preimage (size u t : Int) (hu : 0 ≤ u ∧ u < size) (ht : 0 ≤ t ∧ t < size)
    (htu : t ≠ u) :
    ∃ v, (0 ≤ v ∧ v < size - 1) ∧ skipOver u v = t := by
  by_cases h : t < u
  · refine ⟨t, by omega, ?_⟩
    unfold skipOver
    rw [if_neg (by omega)]
  · refine ⟨t - 1, by omega, ?_⟩
    unfold skipOver
    rw [if_pos (by omega)]
    omega

theorem skipOver_count (size u t : Int) (h2 : 2 ≤ size) (hu : 0 ≤ u ∧ u < size)
    (ht : 0 ≤ t ∧ t < size) (htu : t ≠ u) :
    (List.range (size - 1).toNat).countP (fun v : Nat => decide (skipOver u (v : Int) = t)) = 1 := by
  obtain ⟨v0, hv0, he⟩ := skipOver_preimage size u t hu ht htu
  have hcongr : (List.range (size - 1).toNat).countP (fun v : Nat => decide (skipOver u (v : Int) = t))
      = (List.range (size - 1).toNat).countP (fun v : Nat => v == v0.toNat) := by
    apply List.countP_congr
    intro v _
    simp only [decide_eq_true_eq, beq_iff_eq]
    constructor
    · intro hv
      have := skipOver_inj u v v0 (by rw [hv, he])
      omega
    · intro hv
      rw [hv, Int.toNat_of_nonneg hv0.1]
      exact he
  rw [hcongr]
  exact List.count_eq_one_of_mem (List.nodup_range _) (List.mem_range.2 (by omega))

/-- C17: for `size ≥ 2` and `u` in `[0, size)` the skip-over map
`v ↦ (if v ≥ u then v + 1 else v)` sends `[0, size - 1)` into `[0, size) \ {u}`, is
one-to-one, and hits every target `t ≠ u` of `[0, size)` from exactly one `v` (so a
uniform `v` gives a uniform `v'`); and every key `parallelFill` writes into
`[offset, offset + count)` encodes a pair `(u, v')` with `u, v' < size`, `v' ≠ u`. -/
theorem skipOver_bijection {σ : Type} (R : RandomEngine σ) (hR : R.Lawful) (size u : Int)
    (h2 : 2 ≤ size) (hs : size < 2147483648) (hu : 0 ≤ u ∧ u < size) :
    (∀ v, 0 ≤ v ∧ v < size - 1 → 0 ≤ skipOver u v ∧ skipOver u v < size ∧ skipOver u v ≠ u) ∧
    (∀ v w, skipOver u v = skipOver u w → v = w) ∧
    (∀ t, 0 ≤ t ∧ t < size → t ≠ u → ∃! v, (0 ≤ v ∧ v < size - 1) ∧ skipOver u v = t) ∧
    (∀ t, 0 ≤ t ∧ t < size → t ≠ u →
      (List.range (size - 1).toNat).countP (fun v : Nat => decide (skipOver u (v : Int) = t)) = 1) ∧
    (∀ rnd, sampledKey R size rnd =
      pack (toUInt32 (R.uniformInt 0 (size - 1) rnd).1)
        (toUInt32 (skipOver (R.uniformInt 0 (size - 1) rnd).1
          (R.uniformInt 0 (size - 2) (R.uniformInt 0 (size - 1) rnd).2).1))) ∧
    (∀ (keys : List Nat) (offset count threads baseSeed k : Nat),
      offset + count ≤ keys.length → 0 < threads → offset ≤ k → k < offset + count →
      ∃ a b : Nat, a < size.toNat ∧ b < size.toNat ∧ b ≠ a ∧
        (parallelFill R keys offset count threads size baseSeed)[k]? = some (pack a b)) := by
  refine ⟨fun v hv => skipOver_range size u v hv, fun v w h => skipOver_inj u v w h, ?_,
    fun t ht htu => skipOver_count size u t h2 hu ht htu,
    fun rnd => sampledKey_skipOver R size rnd, ?_⟩
  · intro t ht htu
    obtain ⟨v, hv, he⟩ := skipOver_preimage size u t hu ht htu
    refine ⟨v, ⟨hv, he⟩, ?_⟩
    rintro w ⟨-, hw⟩
    exact skipOver_inj u w v (by rw [hw, he])
  · intro keys offset count threads baseSeed k hlen hthreads hk1 hk2
    obtain ⟨rnd, e⟩ := (parallelFill_spec R keys offset count threads size baseSeed hlen
      hthreads).2.2 k hk1 hk2
    obtain ⟨a, b, ha, hb, hab, hkey⟩ := sampledKey_valid R hR size h2 hs rnd
    exact ⟨a, b, ha, hb, fun h => hab h.symm, by rw [e, hkey]⟩

theorem skipOver_bijection_witness :
    (∀ v, 0 ≤ v ∧ v < (5 : Int) - 1 →
      0 ≤ skipOver 2 v ∧ skipOver 2 v < 5 ∧ skipOver 2 v ≠ 2) ∧
    (∀ t, 0 ≤ t ∧ t < (5 : Int) → t ≠ 2 →
      ∃! v, (0 ≤ v ∧ v < (5 : Int) - 1) ∧ skipOver 2 v = t) ∧
    List.map (skipOver 2) [0, 1, 2, 3] = [0, 1, 3, 4] := by
  have h := skipOver_bijection counterEngine counterEngine_lawful 5 2 (by decide) (by decide)
    (by decide)
  exact ⟨h.1, h.2.2.1, by decide⟩

/-! ## parallelFill : the chunks -/

theorem parallelFill_chunks {σ : Type} (R : RandomEngine σ) (keys : List Nat)
    (offset count threads : Nat) (size : Int) (baseSeed : Nat) :
    parallelFill R keys offset count threads size baseSeed =
      (List.range threads).foldl
        (fun ks t => fillWorker R offset count (chunkSize count threads) size baseSeed t ks)
        keys := rfl

theorem fillWorker_frame {σ : Type} (R : RandomEngine σ) (offset count chunk : Nat) (size : Int)
    (baseSeed t : Nat) (keys : List Nat) (k : Nat)
    (hk : k < (workerRange offset count chunk t).1 ∨ (workerRange offset count chunk t).2 ≤ k) :
    (fillWorker R offset count chunk size baseSeed t keys)[k]? = keys[k]? :=
  fillWorker_outside R offset count chunk size baseSeed t keys k hk

theorem chunkSize_ceil (count threads : Nat) (ht : 1 ≤ threads) :
    count ≤ threads * chunkSize count threads ∧
      threads * chunkSize count threads < count + threads := by
  unfold chunkSize
  refine ⟨ceil_chunk_covers count threads ht, ?_⟩
  have := Nat.mul_div_le (count + threads - 1) threads
  omega

theorem workerRange_union (offset count threads : Nat) (ht : 1 ≤ threads) (k : Nat) :
    (offset ≤ k ∧ k < offset + count) ↔
      ∃ t, t < threads ∧ (workerRange offset count (chunkSize count threads) t).1 ≤ k ∧
        k < (workerRange offset count (chunkSize count threads) t).2 := by
  have hceil := (chunkSize_ceil count threads ht).1
  generalize chunkSize count threads = chunk at hceil
  unfold workerRange
  dsimp only
  constructor
  · rintro ⟨h1, h2⟩
    have hcpos : 0 < chunk := by
      rcases Nat.eq_zero_or_pos chunk with h | h
      · rw [h, Nat.mul_zero] at hceil
        omega
      · exact h
    refine ⟨(k - offset) / chunk, ?_, ?_, ?_⟩
    · rw [Nat.div_lt_iff_lt_mul hcpos]
      omega
    · have := Nat.div_mul_le_self (k - offset) chunk
      omega
    · have := Nat.lt_mul_div_succ (k - offset) hcpos
      rw [Nat.mul_add, Nat.mul_one, Nat.mul_comm] at this
      omega
  · rintro ⟨t, -, h1, h2⟩
    omega

theorem workerRange_disjoint (offset count chunk t1 t2 k : Nat) (hne : t1 ≠ t2)
    (h1 : (workerRange offset count chunk t1).1 ≤ k ∧ k < (workerRange offset count chunk t1).2)
    (h2 : (workerRange offset count chunk t2).1 ≤ k ∧ k < (workerRange offset count chunk t2).2) :
    False := by
  unfold workerRange at h1 h2
  dsimp only at h1 h2
  rcases Nat.lt_or_gt_of_ne hne with h | h
  · have := Nat.mul_le_mul_right chunk (show t1 + 1 ≤ t2 from h)
    rw [Nat.succ_mul] at this
    omega
  · have := Nat.mul_le_mul_right chunk (show t2 + 1 ≤ t1 from h)
    rw [Nat.succ_mul] at this
    omega

theorem workerRange_contiguous (offset count chunk t : Nat)
    (h : (workerRange offset count chunk (t + 1)).1 < (workerRange offset count chunk (t + 1)).2) :
    (workerRange offset count chunk t).2 = (workerRange offset count chunk (t + 1)).1 := by
  unfold workerRange at h ⊢
  dsimp only at h ⊢
  have : (t + 1) * chunk = t * chunk + chunk := Nat.succ_mul t chunk
  omega

/-- C18: the chunking of `parallelFill` is an exact partition of the target range.
For `threads ≥ 1` and `offset + count` within the buffer, with
`chunk = ceil(count / threads)`, the worker ranges
`[offset + t*chunk, min(offset+count, offset + (t+1)*chunk))`, `t < threads`, cover
exactly `[offset, offset + count)`, are pairwise disjoint, and each non-empty range
starts where the previous one ends; worker `t` writes inside its range only, and
`parallelFill` keeps the length of the buffer and every slot outside
`[offset, offset + count)`, the slots before `offset` among them. -/
theorem parallelFill_partition {σ : Type} (R : RandomEngine σ) (keys : List Nat)
    (offset count threads : Nat) (size : Int) (baseSeed : Nat) (ht : 1 ≤ threads)
    (hlen : offset + count ≤ keys.length) :
    (count ≤ threads * chunkSize count threads ∧
      threads * chunkSize count threads < count + threads) ∧
    (∀ k, (offset ≤ k ∧ k < offset + count) ↔
      ∃ t, t < threads ∧ (workerRange offset count (chunkSize count threads) t).1 ≤ k ∧
        k < (workerRange offset count (chunkSize count threads) t).2) ∧
    (∀ t1 t2 k, t1 ≠ t2 →
      ¬ (((workerRange offset count (chunkSize count threads) t1).1 ≤ k ∧
          k < (workerRange offset count (chunkSize count threads) t1).2) ∧
        ((workerRange offset count (chunkSize count threads) t2).1 ≤ k ∧
          k < (workerRange offset count (chunkSize count threads) t2).2))) ∧
    (∀ t, (workerRange offset count (chunkSize count threads) (t + 1)).1 <
        (workerRange offset count (chunkSize count threads) (t + 1)).2 →
      (workerRange offset count (chunkSize count threads) t).2 =
        (workerRange offset count (chunkSize count threads) (t + 1)).1) ∧
    (∀ (t : Nat) (ks : List Nat) (k : Nat),
      k < (workerRange offset count (chunkSize count threads) t).1 ∨
        (workerRange offset count (chunkSize count threads) t).2 ≤ k →
      (fillWorker R offset count (chunkSize count threads) size baseSeed t ks)[k]? = ks[k]?) ∧
    parallelFill R keys offset count threads size baseSeed =
      (List.range threads).foldl
        (fun ks t => fillWorker R offset count (chunkSize count threads) size baseSeed t ks)
        keys ∧
    (parallelFill R keys offset count threads size baseSeed).length = keys.length ∧
    (∀ k, k < offset ∨ offset + count ≤ k →
      (parallelFill R keys offset count threads size baseSeed)[k]? = keys[k]?) ∧
    (∀ k, offset ≤ k → k < offset + count →
      ∃ rnd, (parallelFill R keys offset count threads size baseSeed)[k]? =
        some (sampledKey R size rnd)) := by
  obtain ⟨p1, p2, p3⟩ := parallelFill_spec R keys offset count threads size baseSeed hlen ht
  exact ⟨chunkSize_ceil count threads ht, fun k => workerRange_union offset count threads ht k,
    fun t1 t2 k hne h => workerRange_disjoint offset count _ t1 t2 k hne h.1 h.2,
    fun t h => workerRange_contiguous offset count _ t h,
    fun t ks k hk => fillWorker_frame R offset count _ size baseSeed t ks k hk,
    parallelFill_chunks R keys offset count threads size baseSeed, p1, p2, p3⟩

theorem parallelFill_partition_witness :
    chunkSize 9 4 = 3 ∧
    List.map (workerRange 2 9 3) [0, 1, 2, 3] = [(2, 5), (5, 8), (8, 11), (11, 11)] ∧
    (parallelFill counterEngine (List.replicate 12 0) 2 9 4 5 99).length = 12 ∧
    (∀ k, k < 2 ∨ 2 + 9 ≤ k →
      (parallelFill counterEngine (List.replicate 12 0) 2 9 4 5 99)[k]? =
        (List.replicate 12 0)[k]?) := by
  have h := parallelFill_partition counterEngine (List.replicate 12 0) 2 9 4 5 99
    (by decide) (by decide)
  exact ⟨by decide, by decide, h.2.2.2.2.2.2.1, h.2.2.2.2.2.2.2.1⟩

/-! ## Level-synchronous traversal : claims -/

theorem count_true_set (vis : List Bool) (i : Nat) (hi : i < vis.length)
    (hf : vis.getD i false = false) :
    (vis.set i true).count true = vis.count true + 1 := by
  induction vis generalizing i with
  | nil => simp at hi
  | cons b bs ih =>
    cases i with
    | zero =>
      simp only [List.getD_cons_zero] at hf
      subst hf
      simp
    | succ j =>
      simp only [List.getD_cons_succ] at hf
      simp only [List.length_cons, Nat.add_lt_add_iff_right] at hi
      have := ih j hi hf
      cases b <;> simp [List.set_cons_succ, List.count_cons] <;> omega

theorem count_true_lt (vis : List Bool) (i : Nat) (hi : i < vis.length)
    (hf : vis.getD i false = false) : vis.count true < vis.length := by
  have h1 := count_true_set vis i hi hf
  have h2 : (vis.set i true).count true ≤ (vis.set i true).length := List.count_le_length _ _
  rw [List.length_set] at h2
  omega

theorem take_set_succ (l : List Int) (m : Nat) (n : Int) (hm : m < l.length) :
    (l.set m n).take (m + 1) = l.take m ++ [n] := by
  apply List.ext_getElem?
  intro k
  rw [List.getElem?_take, List.getElem?_set]
  by_cases hk : k < m
  · rw [if_pos (by omega), if_neg (by omega), List.getElem?_append_left
      (by rw [List.length_take]; omega), List.getElem?_take, if_pos hk]
  · by_cases hkm : k = m
    · subst hkm
      rw [if_pos (by omega), if_pos rfl, if_pos hm, List.getElem?_append_right
        (by rw [List.length_take]; omega)]
      simp [List.length_take, Nat.min_eq_left (Nat.le_of_lt hm)]
    · rw [if_neg (by omega), List.getElem?_append_right (by rw [List.length_take]; omega)]
      have hl : (l.take m).length = m := by rw [List.length_take]; omega
      rw [hl]
      have : k - m = (k - m - 1) + 1 := by omega
      rw [this]
      rfl

/-- A successful claim finds a free slot: its reserved index is below `V`. -/
theorem RoundInv.slot_lt {V : Nat} {vis0 : List Bool} {s : Frontier} (h : RoundInv V vis0 s)
    (n : Int) (hn : n.toNat < V) (hf : s.visited.getD n.toNat false = false) :
    s.next_level_size < V := by
  have hlt := count_true_lt s.visited n.toNat (by rw [h.vlen]; exact hn) hf
  have hc := h.count
  rw [h.vlen] at hlt
  omega

theorem RoundInv.size_le {V : Nat} {vis0 : List Bool} {s : Frontier} (h : RoundInv V vis0 s) :
    s.next_level_size ≤ V := by
  have h1 : s.visited.count true ≤ s.visited.length := List.count_le_length _ _
  have hc := h.count
  rw [h.vlen] at h1
  omega

/-- One claim attempt keeps the round invariant. -/
theorem RoundInv.claim {V : Nat} {vis0 : List Bool} {s : Frontier} (h : RoundInv V vis0 s)
    (n : Int) (hn0 : 0 ≤ n) (hn : n.toNat < V) (hf : s.visited.getD n.toNat false = false) :
    RoundInv V vis0
      { visited := s.visited.set n.toNat true
        next_level := s.next_level.set s.next_level_size n
        next_level_size := s.next_level_size + 1 } := by
  have hslot := h.slot_lt n hn hf
  have hslots : Frontier.slots
      { visited := s.visited.set n.toNat true
        next_level := s.next_level.set s.next_level_size n
        next_level_size := s.next_level_size + 1 } = s.slots ++ [n] := by
    unfold Frontier.slots
    exact take_set_succ _ _ _ (by rw [h.nlen]; exact hslot)
  have hnl : n.toNat < s.visited.length := by rw [h.vlen]; exact hn
  have hnslot : n ∉ s.slots := by
    intro hmem
    have := (h.slots_new n hmem).2.2.2
    rw [hf] at this
    cases this
  refine ⟨h.vis0_len, by simp [h.vlen], by simp [h.nlen], ?_, ?_, ?_, ?_, ?_⟩
  · intro k hk
    exact (getD_set_true _ _ _).2 (Or.inl (h.mono k hk))
  · show s.next_level_size + 1 + vis0.count true = (s.visited.set n.toNat true).count true
    rw [count_true_set _ _ hnl hf]
    have := h.count
    omega
  · rw [hslots, List.nodup_append]
    refine ⟨h.slots_nodup, List.nodup_singleton _, ?_⟩
    intro a ha hb
    rw [List.mem_singleton] at hb
    subst hb
    exact hnslot ha
  · intro m hm
    rw [hslots, List.mem_append, List.mem_singleton] at hm
    rcases hm with hm | rfl
    · obtain ⟨a, b, c, d⟩ := h.slots_new m hm
      exact ⟨a, b, c, (getD_set_true _ _ _).2 (Or.inl d)⟩
    · refine ⟨hn0, hn, ?_, (getD_set_true _ _ _).2 (Or.inr ⟨rfl, hnl⟩)⟩
      by_contra hc
      have := h.mono m.toNat (by simpa using hc)
      rw [hf] at this
      cases this
  · intro k hk0 hk
    rw [hslots, List.mem_append, List.mem_singleton]
    rcases (getD_set_true _ _ _).1 hk with hold | ⟨rfl, -⟩
    · exact Or.inl (h.new_slots k hk0 hold)
    · exact Or.inr (Int.toNat_of_nonneg hn0)

theorem claimNeighbours_inv (V : Nat) (vis0 : List Bool) :
    ∀ (ns : List Int) (s : Frontier), (∀ n ∈ ns, 0 ≤ n ∧ n.toNat < V) → RoundInv V vis0 s →
      RoundInv V vis0 (claimNeighbours ns s) := by
  intro ns
  induction ns with
  | nil => intro s _ h; exact h
  | cons n ns ih =>
    intro s hns h
    have hn := hns n (List.mem_cons_self _ _)
    have hns' : ∀ m ∈ ns, 0 ≤ m ∧ m.toNat < V := fun m hm => hns m (List.mem_cons_of_mem _ hm)
    unfold claimNeighbours
    split
    · exact ih s hns' h
    · next hv =>
      exact ih _ hns' (h.claim n hn.1 hn.2 (by simpa using hv))

theorem Graph.adjList_getD_range (g : Graph) (hg : g.Inv) (k : Nat) :
    ∀ n ∈ g.adjList.getD k [], 0 ≤ n ∧ n.toNat < g.V.toNat := by
  intro n hn
  have h : n ∈ g.adj (k : Int) := by
    unfold Graph.adj
    simpa using hn
  have := Graph.adj_range g hg _ n h
  omega

theorem jobFrom_inv (g : Graph) (hg : g.Inv) (vis0 : List Bool) (level : List Int)
    (level_size T : Nat) :
    ∀ (fuel i : Nat) (s : Frontier), RoundInv g.V.toNat vis0 s →
      RoundInv g.V.toNat vis0 (jobFrom g.adjList level level_size T fuel i s) := by
  intro fuel
  induction fuel with
  | zero => intro i s h; exact h
  | succ fuel ih =>
    intro i s h
    unfold jobFrom
    split
    · exact ih _ _ (claimNeighbours_inv _ _ _ _ (Graph.adjList_getD_range g hg _) h)
    · exact h

theorem runRound_inv (g : Graph) (hg : g.Inv) (vis0 : List Bool) (level : List Int)
    (level_size T : Nat) (s : Frontier) (h : RoundInv g.V.toNat vis0 s) :
    RoundInv g.V.toNat vis0 (runRound g.adjList level level_size T s) := by
  unfold runRound
  induction List.range T generalizing s with
  | nil => exact h
  | cons t ts ih =>
    rw [List.foldl_cons]
    exact ih _ (jobFrom_inv g hg vis0 level level_size T _ _ _ h)

theorem RoundInv.start (V : Nat) (visited : List Bool) (next_level : List Int)
    (hv : visited.length = V) (hn : next_level.length = V) :
    RoundInv V visited { visited := visited, next_level := next_level, next_level_size := 0 } := by
  refine ⟨hv, hv, hn, fun _ h => h, by simp, ?_, ?_, ?_⟩
  · simp [Frontier.slots]
  · intro n hmem
    simp [Frontier.slots] at hmem
  · intro k h0 h1
    rw [h0] at h1
    cases h1

theorem parallelRounds_done (adjList : List (List Int)) (T fuel : Nat) (vis : List Bool)
    (level next : List Int) : parallelRounds adjList T fuel vis level next 0 = [] := by
  unfold parallelRounds
  simp

theorem parallelRounds_zero (adjList : List (List Int)) (T : Nat) (vis : List Bool)
    (level next : List Int) (n : Nat) : parallelRounds adjList T 0 vis level next n = [] := by
  unfold parallelRounds
  split <;> rfl

theorem parallelRounds_round (adjList : List (List Int)) (T fuel : Nat) (vis : List Bool)
    (level next : List Int) (n : Nat) :
    parallelRounds adjList T (fuel + 1) vis level next (n + 1) =
      (vis, runRound adjList level (n + 1) T ⟨vis, next, 0⟩) ::
      parallelRounds adjList T fuel
        (runRound adjList level (n + 1) T ⟨vis, next, 0⟩).visited
        (runRound adjList level (n + 1) T ⟨vis, next, 0⟩).next_level level
        (runRound adjList level (n + 1) T ⟨vis, next, 0⟩).next_level_size := by
  rw [parallelRounds]
  simp

/-- Every round keeps the invariant, and no vertex is written into a slot twice
over the rounds. -/
theorem parallelRounds_inv (g : Graph) (hg : g.Inv) (T : Nat) :
    ∀ (fuel : Nat) (visited : List Bool) (level next_level : List Int) (level_size : Nat),
      visited.length = g.V.toNat → next_level.length = g.V.toNat → level.length = g.V.toNat →
      (∀ e ∈ parallelRounds g.adjList T fuel visited level next_level level_size,
        RoundInv g.V.toNat e.1 e.2) ∧
      ((parallelRounds g.adjList T fuel visited level next_level level_size).flatMap
        (fun e => e.2.slots)).Nodup ∧
      (∀ n ∈ (parallelRounds g.adjList T fuel visited level next_level level_size).flatMap
        (fun e => e.2.slots), visited.getD n.toNat false = false) := by
  intro fuel
  induction fuel with
  | zero =>
    intro visited level next_level level_size _ _ _
    rw [parallelRounds_zero]
    simp
  | succ fuel ih =>
    intro visited level next_level level_size hv hn hl
    cases level_size with
    | zero =>
      rw [parallelRounds_done]
      simp
    | succ m =>
      rw [parallelRounds_round]
      have hs := runRound_inv g hg visited level (m + 1) T _
        (RoundInv.start g.V.toNat visited next_level hv hn)
      generalize runRound g.adjList level (m + 1) T ⟨visited, next_level, 0⟩ = s at hs ⊢
      obtain ⟨i1, i2, i3⟩ := ih s.visited s.next_level level s.next_level_size hs.vlen hl hs.nlen
      refine ⟨?_, ?_, ?_⟩
      · intro e he
        rcases List.mem_cons.1 he with rfl | he
        · exact hs
        · exact i1 e he
      · rw [List.flatMap_cons, List.nodup_append]
        refine ⟨hs.slots_nodup, i2, ?_⟩
        intro a ha hb
        have h1 := (hs.slots_new a ha).2.2.2
        rw [i3 a hb] at h1
        cases h1
      · intro n hmem
        rw [List.flatMap_cons, List.mem_append] at hmem
        rcases hmem with h | h
        · exact (hs.slots_new n h).2.2.1
        · by_contra hc
          have := hs.mono n.toNat (by simpa using hc)
          rw [i3 n h] at this
          cases this

/-- The flags `parallelLoop` returns are those of the last executed round. -/
theorem parallelLoop_last (adjList : List (List Int)) (T : Nat) :
    ∀ (fuel : Nat) (visited : List Bool) (level next_level : List Int) (level_size : Nat)
      (out : List Bool),
      parallelLoop adjList T fuel visited level next_level level_size = some out →
      out = (((parallelRounds adjList T fuel visited level next_level level_size).getLast?).map
        (fun e => e.2.visited)).getD visited := by
  intro fuel
  induction fuel with
  | zero =>
    intro visited level next_level level_size out h
    rw [parallelRounds_zero]
    cases level_size with
    | zero =>
      rw [parallelLoop_done] at h
      exact (Option.some.inj h).symm
    | succ m =>
      unfold parallelLoop at h
      simp at h
  | succ fuel ih =>
    intro visited level next_level level_size out h
    cases level_size with
    | zero =>
      rw [parallelLoop_done] at h
      rw [parallelRounds_done]
      exact (Option.some.inj h).symm
    | succ m =>
      rw [parallelLoop_round] at h
      rw [parallelRounds_round]
      have := ih _ _ _ _ out h
      rw [this, List.getLast?_cons]
      cases hl : (parallelRounds adjList T fuel
        (runRound adjList level (m + 1) T ⟨visited, next_level, 0⟩).visited
        (runRound adjList level (m + 1) T ⟨visited, next_level, 0⟩).next_level level
        (runRound adjList level (m + 1) T ⟨visited, next_level, 0⟩).next_level_size).getLast? with
      | none => rfl
      | some e => rfl

/-- C19: in `parallelBFS` on a graph satisfying the Graph invariant, for every start
vertex and worker count (in particular `V ≥ 1`, `start` in `[0, V)`, at least one
worker) and in every round: the next-frontier buffer has `V` slots, the slot
counter never exceeds `V` and equals the number of flags switched in the round,
the written slots hold pairwise distinct vertices of `[0, V)`, namely exactly those
whose flag was switched in the round; over the whole traversal no vertex is written
into a slot twice; and whenever a claim succeeds the reserved slot index is below
`V`. Each clause is kept by every single claim attempt, whatever the order in which
the attempts of the workers are taken. -/
theorem Graph.parallelBFS_claims_once (g : Graph) (hg : g.Inv) (T : Nat) (start : Int)
    (fuel : Nat) :
    (∀ e ∈ g.parallelRounds T start fuel,
      e.2.next_level.length = g.V.toNat ∧ e.2.next_level_size ≤ g.V.toNat ∧
      e.2.next_level_size + e.1.count true = e.2.visited.count true ∧
      e.2.slots.Nodup ∧
      (∀ n ∈ e.2.slots, 0 ≤ n ∧ n < g.V ∧ e.1.getD n.toNat false = false ∧
        e.2.visited.getD n.toNat false = true) ∧
      (∀ k : Nat, e.1.getD k false = false → e.2.visited.getD k false = true →
        (k : Int) ∈ e.2.slots)) ∧
    ((g.parallelRounds T start fuel).flatMap (fun e => e.2.slots)).Nodup ∧
    (∀ (vis0 : List Bool) (s : Frontier) (n : Int), RoundInv g.V.toNat vis0 s →
      (∀ ns, (∀ m ∈ ns, 0 ≤ m ∧ m.toNat < g.V.toNat) →
        RoundInv g.V.toNat vis0 (claimNeighbours ns s)) ∧
      (n.toNat < g.V.toNat → s.visited.getD n.toNat false = false →
        s.next_level_size < g.V.toNat)) := by
  obtain ⟨r1, r2, -⟩ := parallelRounds_inv g hg T fuel (List.replicate g.V.toNat false)
    ((List.replicate g.V.toNat (0 : Int)).set 0 start) (List.replicate g.V.toNat (0 : Int)) 1
    (by simp) (by simp) (by simp)
  refine ⟨?_, r2, ?_⟩
  · intro e he
    have h := r1 e he
    refine ⟨h.nlen, h.size_le, h.count, h.slots_nodup, ?_, h.new_slots⟩
    intro n hn
    obtain ⟨a, b, c, d⟩ := h.slots_new n hn
    exact ⟨a, by omega, c, d⟩
  · intro vis0 s n h
    exact ⟨fun ns hns => claimNeighbours_inv _ _ ns s hns h, fun hn hf => h.slot_lt n hn hf⟩

theorem Graph.parallelBFS_claims_once_witness :
    exampleCycle.Inv ∧
    List.map (fun e => e.2.slots) (exampleCycle.parallelRounds 2 0 5) = [[1], [2], [0], []] ∧
    (∀ e ∈ exampleCycle.parallelRounds 2 0 5,
      e.2.next_level.length = exampleCycle.V.toNat ∧
      e.2.next_level_size ≤ exampleCycle.V.toNat ∧
      e.2.next_level_size + e.1.count true = e.2.visited.count true ∧
      e.2.slots.Nodup ∧
      (∀ n ∈ e.2.slots, 0 ≤ n ∧ n < exampleCycle.V ∧ e.1.getD n.toNat false = false ∧
        e.2.visited.getD n.toNat false = true) ∧
      (∀ k : Nat, e.1.getD k false = false → e.2.visited.getD k false = true →
        (k : Int) ∈ e.2.slots)) ∧
    ((exampleCycle.parallelRounds 2 0 5).flatMap (fun e => e.2.slots)).Nodup := by
  have h := Graph.parallelBFS_claims_once exampleCycle (by decide) 2 0 5
  exact ⟨by decide, by decide, h.1, h.2.1⟩

/-! ## Seed splitter : invertibility -/

theorem add_step_inj (c x y : Nat) (hx : x < 18446744073709551616)
    (hy : y < 18446744073709551616)
    (h : (x + c) % 18446744073709551616 = (y + c) % 18446744073709551616) : x = y := by
  omega

theorem xorshift_bits (k : Nat) (hk : 0 < k) (x y : Nat) (hx : x < 2 ^ 64) (hy : y < 2 ^ 64)
    (h : x ^^^ (x >>> k) = y ^^^ (y >>> k)) :
    ∀ n i, 64 ≤ i + n → x.testBit i = y.testBit i := by
  intro n
  induction n with
  | zero =>
    intro i hi
    have hpow : 2 ^ 64 ≤ 2 ^ i := Nat.pow_le_pow_right (by decide) (by omega)
    rw [Nat.testBit_lt_two_pow (lt_of_lt_of_le hx hpow),
      Nat.testBit_lt_two_pow (lt_of_lt_of_le hy hpow)]
  | succ n ih =>
    intro i hi
    have hbit := congrArg (fun z => z.testBit i) h
    simp only [Nat.testBit_xor, Nat.testBit_shiftRight] at hbit
    have hup := ih (k + i) (by omega)
    rw [hup] at hbit
    cases hx1 : x.testBit i <;> cases hy1 : y.testBit i <;>
      cases hy2 : y.testBit (k + i) <;> simp [hx1, hy1, hy2] at hbit ⊢

theorem xorshift_inj (k : Nat) (hk : 0 < k) (x y : Nat) (hx : x < 18446744073709551616)
    (hy : y < 18446744073709551616) (h : x ^^^ (x >>> k) = y ^^^ (y >>> k)) : x = y :=
  Nat.eq_of_testBit_eq (fun i => xorshift_bits k hk x y hx hy h 64 i (by omega))

theorem xorshift_lt (k x : Nat) (hx : x < 18446744073709551616) :
    x ^^^ (x >>> k) < 18446744073709551616 := by
  have h1 : x >>> k < 2 ^ 64 := by
    rw [Nat.shiftRight_eq_div_pow]
    exact lt_of_le_of_lt (Nat.div_le_self _ _) hx
  exact Nat.xor_lt_two_pow (n := 64) hx h1

theorem coprime_of_odd (c : Nat) (hc : Odd c) : Nat.gcd 18446744073709551616 c = 1 := by
  have h : Nat.Coprime (2 ^ 64) c := (Nat.coprime_two_left.2 hc).pow_left 64
  exact h

theorem mul_odd_inj (c : Nat) (hc : Odd c) (x y : Nat) (hx : x < 18446744073709551616)
    (hy : y < 18446744073709551616)
    (h : (x * c) % 18446744073709551616 = (y * c) % 18446744073709551616) : x = y :=
  (Nat.ModEq.cancel_right_of_coprime (coprime_of_odd c hc) h).eq_of_lt_of_lt hx hy

theorem odd_mul_left_inj (c : Nat) (hc : Odd c) (x y : Nat) (hx : x < 18446744073709551616)
    (hy : y < 18446744073709551616)
    (h : (c * x) % 18446744073709551616 = (c * y) % 18446744073709551616) : x = y :=
  (Nat.ModEq.cancel_left_of_coprime (coprime_of_odd c hc) h).eq_of_lt_of_lt hx hy

theorem splitmix64_lt (x : Nat) : splitmix64 x < 18446744073709551616 := by
  unfold splitmix64
  exact xorshift_lt 31 _ (Nat.mod_lt _ (by decide))

theorem splitmix64_inj (x y : Nat) (hx : x < 18446744073709551616)
    (hy : y < 18446744073709551616) (h : splitmix64 x = splitmix64 y) : x = y := by
  unfold splitmix64 at h
  dsimp only at h
  have m : ∀ z : Nat, z % 18446744073709551616 < 18446744073709551616 :=
    fun z => Nat.mod_lt _ (by decide)
  have h3 := xorshift_inj 31 (by decide) _ _ (m _) (m _) h
  have h2 := xorshift_inj 27 (by decide) _ _ (m _) (m _)
    (mul_odd_inj 0x94D049BB133111EB (by decide) _ _ (xorshift_lt 27 _ (m _))
      (xorshift_lt 27 _ (m _)) h3)
  have h1 := xorshift_inj 30 (by decide) _ _ (m _) (m _)
    (mul_odd_inj 0xBF58476D1CE4E5B9 (by decide) _ _ (xorshift_lt 30 _ (m _))
      (xorshift_lt 30 _ (m _)) h2)
  exact add_step_inj _ x y hx hy h1

theorem splitmix64_surj (y : Nat) (hy : y < 18446744073709551616) :
    ∃ x, x < 18446744073709551616 ∧ splitmix64 x = y := by
  have hinj : Function.Injective
      (fun x : Fin 18446744073709551616 =>
        (⟨splitmix64 x.val, splitmix64_lt x.val⟩ : Fin 18446744073709551616)) := by
    intro a b hab
    have := splitmix64_inj a.val b.val a.isLt b.isLt (congrArg Fin.val hab)
    exact Fin.ext this
  obtain ⟨x, hx⟩ := (Finite.injective_iff_surjective.1 hinj) ⟨y, hy⟩
  exact ⟨x.val, x.isLt, congrArg Fin.val hx⟩

theorem add_left_mod_inj (s a b : Nat) (ha : a < 18446744073709551616)
    (hb : b < 18446744073709551616)
    (h : (s + a) % 18446744073709551616 = (s + b) % 18446744073709551616) : a = b := by
  omega

theorem workerSeed_inj (baseSeed t1 t2 : Nat) (h1 : t1 < 18446744073709551616)
    (h2 : t2 < 18446744073709551616) (h : workerSeed baseSeed t1 = workerSeed baseSeed t2) :
    t1 = t2 := by
  unfold workerSeed at h
  have e := splitmix64_inj _ _ (Nat.mod_lt _ (by decide)) (Nat.mod_lt _ (by decide)) h
  have e2 := add_left_mod_inj baseSeed ((0x9E3779B97F4A7C15 * t1) % 18446744073709551616)
    ((0x9E3779B97F4A7C15 * t2) % 18446744073709551616) (Nat.mod_lt _ (by decide))
    (Nat.mod_lt _ (by decide)) e
  exact odd_mul_left_inj 0x9E3779B97F4A7C15 (by decide) t1 t2 h1 h2 e2

/-- C20: `splitmix64` is a bijection on 64-bit words: each of its steps (adding a
constant, `x ^ (x >> k)` with `k ≥ 1`, multiplying by an odd constant, all modulo
`2^64`) is one-to-one on 64-bit words, so `splitmix64` maps the 64-bit words
one-to-one onto themselves; therefore the seeds
`splitmix64(baseSeed + 0x9E3779B97F4A7C15 * t)` of two distinct worker indices are
distinct, for every `baseSeed`. -/
theorem splitmix64_bijective (baseSeed t1 t2 : Nat) (h1 : t1 < 18446744073709551616)
    (h2 : t2 < 18446744073709551616) (hne : t1 ≠ t2) :
    Set.BijOn splitmix64 (Set.Iio 18446744073709551616) (Set.Iio 18446744073709551616) ∧
    (∀ c, Set.InjOn (fun x => (x + c) % 18446744073709551616) (Set.Iio 18446744073709551616)) ∧
    (∀ k, 1 ≤ k → Set.InjOn (fun x => x ^^^ (x >>> k)) (Set.Iio 18446744073709551616)) ∧
    (∀ c, Odd c →
      Set.InjOn (fun x => (x * c) % 18446744073709551616) (Set.Iio 18446744073709551616)) ∧
    workerSeed baseSeed t1 ≠ workerSeed baseSeed t2 ∧
    workerSeed baseSeed t1 =
      splitmix64 ((baseSeed + 0x9E3779B97F4A7C15 * t1) % 18446744073709551616) := by
  refine ⟨⟨fun x _ => splitmix64_lt x, fun x hx y hy h => splitmix64_inj x y hx hy h,
    fun y hy => ?_⟩, fun c x hx y hy h => add_step_inj c x y hx hy h,
    fun k hk x hx y hy h => xorshift_inj k hk x y hx hy h,
    fun c hc x hx y hy h => mul_odd_inj c hc x y hx hy h,
    fun h => hne (workerSeed_inj baseSeed t1 t2 h1 h2 h), ?_⟩
  · obtain ⟨x, hx, e⟩ := splitmix64_surj y hy
    exact ⟨x, hx, e⟩
  · unfold workerSeed
    rw [Nat.add_mod_mod]

theorem splitmix64_bijective_witness :
    Set.BijOn splitmix64 (Set.Iio 18446744073709551616) (Set.Iio 18446744073709551616) ∧
    workerSeed 42 0 ≠ workerSeed 42 1 ∧
    workerSeed 42 0 = 13679457532755275413 ∧ workerSeed 42 1 = 2949826092126892291 := by
  have h := splitmix64_bijective 42 0 1 (by decide) (by decide) (by decide)
  exact ⟨h.1, h.2.2.2.2.1, by decide, by decide⟩

/-! ## Generator : the minimal input -/

theorem workerDraws_first_pos (count threads : Nat) (hc : 1 ≤ count) (ht : 1 ≤ threads) :
    1 ≤ workerDraws 0 count (chunkSize count threads) 0 := by
  have h := (chunkSize_ceil count threads ht).1
  have hpos : 1 ≤ chunkSize count threads := by
    rcases Nat.eq_zero_or_pos (chunkSize count threads) with h0 | h0
    · rw [h0] at h
      omega
    · exact h0
  unfold workerDraws workerRange
  simp only [Nat.zero_mul, Nat.zero_add, Nat.add_zero]
  omega

/-- Worker `0` with a non-empty range runs the sampling loop from slot `offset = 0`. -/
theorem fillWorker_first {σ : Type} (R : RandomEngine σ) (count chunk : Nat) (size : Int)
    (baseSeed : Nat) (keys : List Nat) (h : 1 ≤ workerDraws 0 count chunk 0) :
    fillWorker R 0 count chunk size baseSeed 0 keys =
      fillRange R size (workerDraws 0 count chunk 0) 0 (R.seed (workerSeed baseSeed 0)) keys := by
  rw [fillWorker_seed]
  unfold workerDraws workerRange at h ⊢
  simp only [Nat.zero_mul, Nat.zero_add, Nat.add_zero] at h ⊢
  rw [if_neg (by omega)]

/-- C13 (fails on the code): on the minimal valid input `size = 1`, `numEdges = 0`
no chain edge is built (`chainCount = 0`, the chain vector is empty), but the number
of keys requested from the sampler is the oversample floor `100000`, not `0`. For
every engine, engine state and worker count, worker `0` of the first `parallelFill`
call has a non-empty range, so it passes its guard and runs the sampling loop; every
iteration of that loop draws from `distV`, whose bounds at `size = 1` are `(0, -1)`
and break the library requirement `a ≤ b`; and each of the `100000` slots of the key
array is written by such an iteration. -/
theorem generateGraph_minimal_draws {σ : Type} (R : RandomEngine σ) (hw : Nat) (r : σ)
    (baseSeed : Nat) (keys : List Nat) :
    validateArgs 1 0 = none ∧
    chainKeys (drawPerm R r 1).1 1 = [] ∧
    toGenerate 1 0 = 100000 ∧
    (initialKeys R hw r 1 0).length = 100000 ∧
    1 ≤ workerDraws 0 (toGenerate 1 0) (chunkSize (toGenerate 1 0) (genThreads hw)) 0 ∧
    fillWorker R 0 (toGenerate 1 0) (chunkSize (toGenerate 1 0) (genThreads hw)) 1 baseSeed 0
        keys =
      fillRange R 1
        (workerDraws 0 (toGenerate 1 0) (chunkSize (toGenerate 1 0) (genThreads hw)) 0) 0
        (R.seed (workerSeed baseSeed 0)) keys ∧
    (∀ (n i : Nat) (rnd : σ) (ks : List Nat),
      fillRange R 1 (n + 1) i rnd ks =
        fillRange R 1 n (i + 1)
          (R.uniformInt (distVBounds 1).1 (distVBounds 1).2
            (R.uniformInt (distUBounds 1).1 (distUBounds 1).2 rnd).2).2
          (ks.set i (sampledKey R 1 rnd))) ∧
    distVBounds 1 = (0, -1) ∧ ¬ BoundsOk (distVBounds 1) ∧
    (∀ k : Fin 100000, ∃ rnd, (initialKeys R hw r 1 0)[k.val]? = some (sampledKey R 1 rnd)) := by
  have hpos := workerDraws_first_pos (toGenerate 1 0) (genThreads hw) (toGenerate_pos 1 0)
    (genThreads_pos hw)
  refine ⟨by decide, ?_, by decide, ?_, hpos, fillWorker_first R _ _ 1 baseSeed keys hpos,
    fun n i rnd ks => rfl, rfl, by decide, ?_⟩
  · rw [chainKeys_eq]
    rfl
  · rw [initialKeys_length]
    decide
  · intro k
    unfold initialKeys
    obtain ⟨-, -, f3⟩ := parallelFill_spec R
      (writeChain (drawPerm R r 1).1 ((1 : Int).toNat - 1) 1
        (List.replicate (((1 : Int) - 1).toNat + toGenerate 1 0) 0))
      ((1 : Int) - 1).toNat (toGenerate 1 0) (genThreads hw) 1 (genBaseSeed R r 1)
      (by rw [writeChain_length, List.length_replicate]) (genThreads_pos hw)
    have h0 : ((1 : Int) - 1).toNat = 0 := rfl
    have hT : toGenerate 1 0 = 100000 := by decide
    exact f3 k.val (by rw [h0]; omega) (by rw [h0, hT]; have := k.isLt; omega)

/-! ## Generator : a valid input on which no graph is returned -/

end GraphLab
